import Mathlib

/-!
# Verification of the `rdx_rb` augmented red-black tree

This file is a shallow embedding, in Lean 4, of the intrusive red-black tree
implemented in `src/rbtree.c`, `src/rbtree.h` and `src/rbtree_augmented.h`
(a rename of the Linux kernel rbtree with a dual-comparator root), together
with proofs about the embedded operations.

Modelling conventions:

* A tree node (`struct rdx_rb_node` plus the caller's enclosing record) is a
  value of an abstract type `α`; `NULL` child pointers become the `nil`
  constructor of an inductive `Tree α`.
* The packed `__rb_parent_color` field splits into an explicit color stored in
  each `node` constructor and an implicit parent: the bottom-up C loops walk
  parent pointers, which we render with an explicit `Path` (zipper) context
  listing, for each ancestor, its color, its value and the sibling subtree —
  exactly the information the parent pointers give the C code.
* Comparators are `α → α → Int` functions, as in C (`int (*)(l, r)`).
* The augmentation callbacks of `struct rdx_rb_augment_callbacks` are
  modelled as in their only instantiation form, `RDX_RB_DECLARE_CALLBACKS`
  (`rbtree_augmented.h:65-94`): `copy old new` yields the updated value of
  `new`, and `compute v l r` re-derives a node's stored value from its
  current children (`rbcompute`); `rotate old new` is inlined at every
  rotation as "recompute `old`, then recompute `new`", in that order, and
  `propagate` as a bottom-up recomputation along the parent chain.
* Code paths on which the C would dereference `NULL` return `none`.
-/

namespace RdxRB

/-- Node color: `RDX_RB_RED = 0`, `RDX_RB_BLACK = 1` (`rbtree_augmented.h:97-98`). -/
inductive Color : Type where
  | red : Color
  | black : Color
deriving DecidableEq

/-- A binary tree with per-node colors. `nil` is a `NULL` child pointer;
`node c l v r` is a `struct rdx_rb_node` (inside its container record `v`)
with color `c`, left child `l` and right child `r`. -/
inductive Tree (α : Type u) : Type u where
  | nil : Tree α
  | node (c : Color) (l : Tree α) (v : α) (r : Tree α) : Tree α
deriving DecidableEq

namespace Tree

/-- Number of nodes of a tree. -/
def size : Tree α → Nat
  | nil => 0
  | node _ l _ r => size l + size r + 1

/-- In-order list of the values of a tree. -/
def toList : Tree α → List α
  | nil => []
  | node _ l v r => toList l ++ v :: toList r

/-- Color of the root of a tree; a `NULL` tree counts as black
(invariant 3: absent children are black). -/
def rootColor : Tree α → Color
  | nil => Color.black
  | node c _ _ _ => c

/-- Repaint the root of a tree black. Models `rdx_rb_set_black` /
`rdx_rb_set_parent_color(x, p, RDX_RB_BLACK)` applied to the root of a
subtree; on `nil` it is a no-op (the C call sites guard with `if (tmp)`
or know the node is non-`NULL`). -/
def setBlack : Tree α → Tree α
  | nil => nil
  | node _ l v r => node Color.black l v r

/-- Repaint the root of a tree with a given color. Models
`child->__rb_parent_color = pc` (the child inherits the erased node's color,
`rbtree_augmented.h:156`, `163`, `218`, `223`). -/
def setColor : Color → Tree α → Tree α
  | _, nil => nil
  | c, node _ l v r => node c l v r

/-- The value stored at the root, if any (used by the modelled
`rbcompute` callbacks to read a child's stored aggregate). -/
def root? : Tree α → Option α
  | nil => none
  | node _ _ v _ => some v

end Tree

open Tree

/-- The zipper context for a position in a tree: the chain of ancestors from
the position up to the root. `left c parent v r` says the position is the
left child of a node with color `c`, value `v` and right subtree `r`;
`right c l v parent` mirrors it. This is the information the C code reaches
through `rdx_rb_parent` / `__rb_parent_color` pointers. -/
inductive Path (α : Type u) : Type u where
  | root : Path α
  | left (c : Color) (parent : Path α) (v : α) (r : Tree α) : Path α
  | right (c : Color) (l : Tree α) (v : α) (parent : Path α) : Path α
deriving DecidableEq

namespace Path

/-- Rebuild the tree by filling the hole of the path with subtree `t`. -/
def fill : Path α → Tree α → Tree α
  | root, t => t
  | left c parent v r, t => fill parent (Tree.node c t v r)
  | right c l v parent, t => fill parent (Tree.node c l v t)

/-- Graft path `q` at the root end of path `p` (the hole of the result is the
hole of `p`, with `q`'s ancestors above `p`'s). -/
def append : Path α → Path α → Path α
  | root, q => q
  | left c parent v r, q => left c (append parent q) v r
  | right c l v parent, q => right c l v (append parent q)

/-- Number of ancestors recorded in a path. -/
def size : Path α → Nat
  | root => 0
  | left _ parent _ _ => size parent + 1
  | right _ _ _ parent => size parent + 1

/-- In-order list of the values lying strictly to the left of the hole. -/
def listLeft : Path α → List α
  | root => []
  | left _ parent _ _ => listLeft parent
  | right _ l v parent => listLeft parent ++ l.toList ++ [v]

/-- In-order list of the values lying strictly to the right of the hole. -/
def listRight : Path α → List α
  | root => []
  | left _ parent v r => v :: r.toList ++ listRight parent
  | right _ _ _ parent => listRight parent

end Path

/-- The augmentation callback pair, as instantiated by
`RDX_RB_DECLARE_CALLBACKS` (`rbtree_augmented.h:65-94`).
`copy old new` returns the updated value of `new` after
`new->rbaugmented = old->rbaugmented`; `compute v l r` returns the updated
value of a node `v` whose current children are `l` and `r`
(`rbcompute(node)` followed by `node->rbaugmented = augmented`). -/
structure Callbacks (α : Type u) where
  copy : α → α → α
  compute : α → Tree α → Tree α → α

/-- The dummy callbacks used by the non-augmented entry points
(`rbtree.c:378-384`): `dummy_copy` and `dummy_rotate` do nothing. -/
def dummyCallbacks : Callbacks α where
  copy := fun _ new => new
  compute := fun v _ _ => v

/-! ## Insertion (`rbtree.c:72-195`, `rbtree.c:579-595`, `rbtree.h:78-85`) -/

/-- The comparator-guided descent of `rdx_rb_insert` (rbtree.c:581-592):
returns the context of the empty slot where the element belongs, or `none`
when a zero comparison is met (duplicate under the strict order). -/
def insertDescend (cmp : α → α → Int) (elem : α) : Tree α → Path α → Option (Path α)
  | nil, p => some p
  | node c l v r, p =>
    let result := cmp elem v
    if result < 0 then insertDescend cmp elem l (.left c p v r)
    else if 0 < result then insertDescend cmp elem r (.right c l v p)
    else none

/-- `rdx_rb_link_node` (rbtree.h:78-85): the new node is linked at the empty
slot with color RED (`__rb_parent_color = (unsigned long)parent`, low bits 0)
and `NULL` children. -/
def rdx_rb_link_node (elem : α) (p : Path α) : Tree α :=
  p.fill (node .red nil elem nil)

/-- `rdx_rb_insert` (rbtree.c:579-595): strict-comparator descent; on a zero
comparison return `NULL` leaving the tree untouched, otherwise link the
element at the found empty slot and return it. The result pair is (returned
pointer, tree state after the call). Note that this function performs no
rebalancing: `rdx_rb_insert_color` is a separate entry point. -/
def rdx_rb_insert (cmp : α → α → Int) (t : Tree α) (elem : α) : Option α × Tree α :=
  match insertDescend cmp elem t .root with
  | none => (none, t)
  | some p => (some elem, rdx_rb_link_node elem p)

/-- `__rdx_rb_insert` (rbtree.c:72-195), the bottom-up insertion fixup. The
current red node is given by its children `l`, `r` and value `v` (the loop
invariant guarantees it is red), and its parent chain by the path. `none`
models the `NULL` dereference `gparent->rb_right` (rbtree.c:92-94) that the C
would perform on a red parent without a grandparent (impossible when the
invariants held before linking). Each rotation invokes the modelled
`augment_rotate(old, new)`: recompute `old` from its new children, then
`new`. -/
def __rdx_rb_insert (cb : Callbacks α) :
    Tree α → α → Tree α → Path α → Option (Tree α)
  -- no parent: rdx_rb_set_parent_color(node, NULL, RDX_RB_BLACK) (rbtree.c:86-88)
  | l, v, r, .root => some (node .black l v r)
  -- black parent: nothing to fix (rbtree.c:89-90)
  | l, v, r, .left .black p pv pr =>
    some (Path.fill (.left .black p pv pr) (node .red l v r))
  | l, v, r, .right .black pl pv p =>
    some (Path.fill (.right .black pl pv p) (node .red l v r))
  -- red parent that is the root: the C reads through a NULL gparent
  | _, _, _, .left .red .root _ _ => none
  | _, _, _, .right .red _ _ .root => none
  -- parent == gparent->rb_left (rbtree.c:95-158), node on parent's left
  | l, v, r, .left .red (.left gc gp gv gu) pv pr =>
    match gu with
    | node .red gul guv gur =>
      -- Case 1 - color flips (rbtree.c:96-116); continue from gparent
      __rdx_rb_insert cb (node .black (node .red l v r) pv pr) gv
        (node .black gul guv gur) gp
    | _ =>
      -- Case 3 - right rotate at gparent (rbtree.c:143-158)
      let gs := setBlack pr
      let gv1 := cb.compute gv gs gu
      let pv1 := cb.compute pv (node .red l v r) (node .red gs gv1 gu)
      some (Path.fill gp (node gc (node .red l v r) pv1 (node .red gs gv1 gu)))
  -- parent == gparent->rb_left, node on parent's right
  | l, v, r, .right .red pl pv (.left gc gp gv gu) =>
    match gu with
    | node .red gul guv gur =>
      __rdx_rb_insert cb (node .black pl pv (node .red l v r)) gv
        (node .black gul guv gur) gp
    | _ =>
      -- Case 2 - left rotate at parent (rbtree.c:118-141)
      let nl := setBlack l
      let pv1 := cb.compute pv pl nl
      let p1 : Tree α := node .red pl pv1 nl
      let v1 := cb.compute v p1 r
      -- Case 3 - right rotate at gparent (tmp = parent->rb_right = r)
      let gs := setBlack r
      let gv1 := cb.compute gv gs gu
      let v2 := cb.compute v1 p1 (node .red gs gv1 gu)
      some (Path.fill gp (node gc p1 v2 (node .red gs gv1 gu)))
  -- parent == gparent->rb_right (rbtree.c:159-193), node on parent's right
  | l, v, r, .right .red pl pv (.right gc gu gv gp) =>
    match gu with
    | node .red gul guv gur =>
      __rdx_rb_insert cb (node .black gul guv gur) gv
        (node .black pl pv (node .red l v r)) gp
    | _ =>
      -- Case 3 - left rotate at gparent (rbtree.c:185-192)
      let gs := setBlack pl
      let gv1 := cb.compute gv gu gs
      let pv1 := cb.compute pv (node .red gu gv1 gs) (node .red l v r)
      some (Path.fill gp (node gc (node .red gu gv1 gs) pv1 (node .red l v r)))
  -- parent == gparent->rb_right, node on parent's left
  | l, v, r, .left .red (.right gc gu gv gp) pv pr =>
    match gu with
    | node .red gul guv gur =>
      __rdx_rb_insert cb (node .black gul guv gur) gv
        (node .black (node .red l v r) pv pr) gp
    | _ =>
      -- Case 2 - right rotate at parent (rbtree.c:171-183)
      let nr := setBlack r
      let pv1 := cb.compute pv nr pr
      let p1 : Tree α := node .red nr pv1 pr
      let v1 := cb.compute v l p1
      -- Case 3 - left rotate at gparent (tmp = parent->rb_left = l)
      let gs := setBlack l
      let gv1 := cb.compute gv gu gs
      let v2 := cb.compute v1 (node .red gu gv1 gs) p1
      some (Path.fill gp (node gc (node .red gu gv1 gs) v2 p1))

/-- `rdx_rb_insert_color` (rbtree.c:386-389): the fixup with the dummy
callbacks, started from the freshly linked red leaf `elem` in context `p`. -/
def rdx_rb_insert_color (elem : α) (p : Path α) : Option (Tree α) :=
  __rdx_rb_insert dummyCallbacks nil elem nil p

/-- The generated `propagate` callback (rbtree_augmented.h:67-76) walking up
from the node that compares equal to `x` to the root (`stop = NULL`),
recomputing each stored value from its current children. The parent chain of
`x` is reached by comparator descent, which coincides with it for a resident
`x` of a search tree. -/
def rdx_rb_propagate (cb : Callbacks α) (cmp : α → α → Int) (x : α) :
    Tree α → Tree α
  | nil => nil
  | node c l v r =>
    let result := cmp x v
    if result < 0 then
      let l1 := rdx_rb_propagate cb cmp x l
      node c l1 (cb.compute v l1 r) r
    else if 0 < result then
      let r1 := rdx_rb_propagate cb cmp x r
      node c l (cb.compute v l r1) r1
    else
      node c l (cb.compute v l r) r

/-- `rdx_rb_insert_augmented` (rbtree_augmented.h:57-63) applied to a node
freshly linked at context `p`: the fixup `__rdx_rb_insert` with the user
rotate callback, then `augment->propagate(node, NULL)`. -/
def rdx_rb_insert_augmented (cb : Callbacks α) (cmp : α → α → Int) (elem : α)
    (p : Path α) : Option (Tree α) :=
  match __rdx_rb_insert cb nil elem nil p with
  | none => none
  | some t => some (rdx_rb_propagate cb cmp elem t)

/-- The full insertion operation, as the spec's insert entry point (§4.6) and
the harness wrapper perform it: descend and link (`rdx_rb_insert`), then
rebalance (`rdx_rb_insert_color`). `none` on a duplicate (tree unchanged). -/
def insertOp (cmp : α → α → Int) (x : α) (t : Tree α) : Option (Tree α) :=
  match insertDescend cmp x t .root with
  | none => none
  | some p => rdx_rb_insert_color x p

/-- The full augmented insertion: descend and link (`rdx_rb_insert`), then
`rdx_rb_insert_augmented`. -/
def insertAugOp (cb : Callbacks α) (cmp : α → α → Int) (x : α) (t : Tree α) :
    Option (Tree α) :=
  match insertDescend cmp x t .root with
  | none => none
  | some p => rdx_rb_insert_augmented cb cmp x p

/-! ## Erase (`rbtree.c:201-368`, `rbtree.c:392-398`, `rbtree_augmented.h:136-241`) -/

/-- Cases 2-4 of the deletion color fixup, left-deficit version
(rbtree.c:235-308). Arguments: the deficit child subtree `t`, the black
sibling's color field, children and value (`sc`, `sl`, `sv`, `sr`), the
parent's color and value, and the path above the parent. `Sum.inl` carries
the completed whole tree on break; `Sum.inr` carries the new current subtree
when the loop continues at the parent (Case 2 under a black parent). -/
def eraseCasesLeft (cb : Callbacks α) (t : Tree α) (sc : Color) (sl : Tree α)
    (sv : α) (sr : Tree α) (pc : Color) (pv : α) (p : Path α) :
    Tree α ⊕ Tree α :=
  match sr with
  | node .red srl srv srr =>
    -- Case 4 - left rotate at parent + color flips (rbtree.c:288-308)
    let pv1 := cb.compute pv t sl
    let sv1 := cb.compute sv (node .black t pv1 sl) (node .black srl srv srr)
    Sum.inl (Path.fill p
      (node pc (node .black t pv1 sl) sv1 (node .black srl srv srr)))
  | _ =>
    match sl with
    | node .red sll slv slr =>
      -- Case 3 - right rotate at sibling (rbtree.c:266-287)
      let s1 := setBlack slr
      let sv1 := cb.compute sv s1 sr
      let slv1 := cb.compute slv sll (node sc s1 sv1 sr)
      -- falls through to Case 4 with tmp1 = old sibling, sibling = tmp2
      let pv1 := cb.compute pv t sll
      let slv2 := cb.compute slv1 (node .black t pv1 sll) (node .black s1 sv1 sr)
      Sum.inl (Path.fill p
        (node pc (node .black t pv1 sll) slv2 (node .black s1 sv1 sr)))
    | _ =>
      -- Case 2 - sibling color flip (rbtree.c:239-264)
      match pc with
      | .red => Sum.inl (Path.fill p (node .black t pv (node .red sl sv sr)))
      | .black => Sum.inr (node .black t pv (node .red sl sv sr))

/-- Cases 2-4 of the deletion color fixup, right-deficit version
(rbtree.c:321-358), the mirror image of `eraseCasesLeft`. The sibling is the
parent's left child. -/
def eraseCasesRight (cb : Callbacks α) (t : Tree α) (sc : Color) (sl : Tree α)
    (sv : α) (sr : Tree α) (pc : Color) (pv : α) (p : Path α) :
    Tree α ⊕ Tree α :=
  match sl with
  | node .red sll slv slr =>
    -- Case 4 - right rotate at parent + color flips (rbtree.c:349-358)
    let pv1 := cb.compute pv sr t
    let sv1 := cb.compute sv (node .black sll slv slr) (node .black sr pv1 t)
    Sum.inl (Path.fill p
      (node pc (node .black sll slv slr) sv1 (node .black sr pv1 t)))
  | _ =>
    match sr with
    | node .red srl srv srr =>
      -- Case 3 - left rotate at sibling (rbtree.c:338-348)
      let s1 := setBlack srl
      let sv1 := cb.compute sv sl s1
      let srv1 := cb.compute srv (node sc sl sv1 s1) srr
      -- falls through to Case 4 with tmp1 = old sibling, sibling = tmp2
      let pv1 := cb.compute pv srr t
      let srv2 := cb.compute srv1 (node .black sl sv1 s1) (node .black srr pv1 t)
      Sum.inl (Path.fill p
        (node pc (node .black sl sv1 s1) srv2 (node .black srr pv1 t)))
    | _ =>
      -- Case 2 - sibling color flip (rbtree.c:325-336)
      match pc with
      | .red => Sum.inl (Path.fill p (node .black (node .red sl sv sr) pv t))
      | .black => Sum.inr (node .black (node .red sl sv sr) pv t)

/-- `____rdx_rb_erase_color` (rbtree.c:201-361). The current deficit child
subtree is `t` (`NULL` on first entry); the hole side and the parent are read
off the first path entry (the C compares `node` with `parent->rb_right`,
rbtree.c:215-216). `none` marks the unguarded `NULL` dereferences: a `NULL`
sibling (rbtree.c:217/311) or, in Case 1, a `NULL` inner child of the red
sibling recolored by `rdx_rb_set_parent_color` (rbtree.c:229/315). -/
def ____rdx_rb_erase_color (cb : Callbacks α) : Tree α → Path α → Option (Tree α)
  | t, .root => some t
  | t, .left pc p pv sib =>
    match sib with
    | nil => none
    | node .red sl sv sr =>
      -- Case 1 - left rotate at parent (rbtree.c:217-234)
      match sl with
      | nil => none
      | node _ sll slv slr =>
        -- tmp1 = sibling->rb_left, recolored black (rbtree.c:229)
        let pv1 := cb.compute pv t (node .black sll slv slr)
        let sv1 := cb.compute sv (node .red t pv1 (node .black sll slv slr)) sr
        -- continue at the same deficit with the new black sibling; the
        -- subtree top (old sibling, color pc) joins the context
        match eraseCasesLeft cb t .black sll slv slr .red pv1
            (.left pc p sv1 sr) with
        | .inl done1 => some done1
        | .inr _ => none  -- unreachable: Case 2 under a red parent breaks
    | node .black sl sv sr =>
      match eraseCasesLeft cb t .black sl sv sr pc pv p with
      | .inl done1 => some done1
      | .inr t1 => ____rdx_rb_erase_color cb t1 p
  | t, .right pc sib pv p =>
    match sib with
    | nil => none
    | node .red sl sv sr =>
      -- Case 1 - right rotate at parent (rbtree.c:311-320)
      match sr with
      | nil => none
      | node _ srl srv srr =>
        let pv1 := cb.compute pv (node .black srl srv srr) t
        let sv1 := cb.compute sv sl (node .red (node .black srl srv srr) pv1 t)
        match eraseCasesRight cb t .black srl srv srr .red pv1
            (.right pc sl sv1 p) with
        | .inl done1 => some done1
        | .inr _ => none  -- unreachable: Case 2 under a red parent breaks
    | node .black sl sv sr =>
      match eraseCasesRight cb t .black sl sv sr pc pv p with
      | .inl done1 => some done1
      | .inr t1 => ____rdx_rb_erase_color cb t1 p

/-- Result of the structural phase of erase: either the finished tree, or the
context of the empty slot carrying the black-height deficit at which
`____rdx_rb_erase_color` must run (`rebalance` returned non-NULL). -/
inductive EraseResult (α : Type u) : Type u where
  | done (t : Tree α) : EraseResult α
  | fixup (p : Path α) : EraseResult α

/-- Recompute the stored values along a path, bottom-up, given the subtree
currently filling its hole: the generated `propagate` callback
(rbtree_augmented.h:67-76) walking the parent chain from the hole's parent up
to the root (`stop = NULL`), as invoked at rbtree_augmented.h:229. -/
def propPath (cb : Callbacks α) : Path α → Tree α → Path α
  | .root, _ => .root
  | .left c parent v r, t =>
    let v1 := cb.compute v t r
    .left c (propPath cb parent (node c t v1 r)) v1 r
  | .right c l v parent, t =>
    let v1 := cb.compute v l t
    .right c l v1 (propPath cb parent (node c l v1 t))

/-- The successor walk of erase Case 3 (rbtree_augmented.h:199-203): descend
to the leftmost node of the given (non-`NULL`) subtree, accumulating the
context. Returns the successor's color, value, right child (`child2`) and
context. -/
def leftmostZoom : Tree α → Path α → Option (Color × α × Tree α × Path α)
  | nil, _ => none
  | node c nil v r2, q => some (c, v, r2, q)
  | node c (node c2 l2 v2 r2) v r, q =>
    leftmostZoom (node c2 l2 v2 r2) (.left c q v r)

/-- The strict-comparator search for a resident node (rbtree.c:562-577 uses
the same descent); returns the node's subtree and context. The C erase entry
points receive the node pointer directly; for a resident node of a search
tree the descent reaches exactly that node. -/
def locate (cmp : α → α → Int) (x : α) : Tree α → Path α → Option (Tree α × Path α)
  | nil, _ => none
  | node c l v r, p =>
    let result := cmp x v
    if result < 0 then locate cmp x l (.left c p v r)
    else if 0 < result then locate cmp x r (.right c l v p)
    else some (node c l v r, p)

/-- The case split of `__rdx_rb_erase_augmented` (rbtree_augmented.h:136-231)
for the erased node `node c l v r` located at context `p`. Includes the
`augment->copy`, inner `augment->propagate(parent, successor)` and final
`augment->propagate(tmp, NULL)` calls at their exact places. -/
def spliceCases (cb : Callbacks α) (c : Color) (l : Tree α) (v : α) (r : Tree α)
    (p : Path α) : EraseResult α :=
  match l with
  | nil =>
    -- Case 1 (rbtree_augmented.h:144-160): no left child
    match r with
    | nil =>
      match c with
      | .red => .done (Path.fill (propPath cb p nil) nil)
      | .black =>
        match p with
        | .root => .done nil  -- rebalance = parent = NULL
        | _ => .fixup (propPath cb p nil)
    | node _ rl rv rr =>
      -- the promoted child inherits the node's __rb_parent_color
      .done (Path.fill (propPath cb p (node c rl rv rr)) (node c rl rv rr))
  | node _lc ll lv lr =>
    match r with
    | nil =>
      -- still Case 1 (rbtree_augmented.h:161-167): left child promoted
      .done (Path.fill (propPath cb p (node c ll lv lr)) (node c ll lv lr))
    | node rc rl rv rr =>
      match rl with
      | nil =>
        -- Case 2 (rbtree_augmented.h:168-183): successor is the right child
        let sv1 := cb.copy v rv
        match rr with
        | node _ c2l c2v c2r =>
          -- child2 recolored black (rbtree_augmented.h:219), no rebalance
          let s2 : Tree α := node .black c2l c2v c2r
          let sv2 := cb.compute sv1 l s2
          .done (Path.fill (propPath cb p (node c l sv2 s2)) (node c l sv2 s2))
        | nil =>
          match rc with
          | .red =>
            let sv2 := cb.compute sv1 l nil
            .done (Path.fill (propPath cb p (node c l sv2 nil)) (node c l sv2 nil))
          | .black =>
            -- rebalance = parent = successor; the hole is its right slot
            let sv2 := cb.compute sv1 l nil
            .fixup (.right c l sv2 (propPath cb p (node c l sv2 nil)))
      | node rlc rll rlv rlr =>
        -- Case 3 (rbtree_augmented.h:184-209): walk to the leftmost node of
        -- the right subtree
        match leftmostZoom (node rlc rll rlv rlr) (.left rc .root rv rr) with
        | none => .done nil  -- unreachable: leftmostZoom of a node is some
        | some (sc, sv, child2, q) =>
          let sv1 := cb.copy v sv
          -- parent->rb_left = child2; augment->propagate(parent, successor)
          let q1 := propPath cb q child2
          match child2 with
          | node _ c2l c2v c2r =>
            let rX := Path.fill q1 (node .black c2l c2v c2r)
            let sv2 := cb.compute sv1 l rX
            .done (Path.fill (propPath cb p (node c l sv2 rX)) (node c l sv2 rX))
          | nil =>
            match sc with
            | .red =>
              let rX := Path.fill q1 nil
              let sv2 := cb.compute sv1 l rX
              .done (Path.fill (propPath cb p (node c l sv2 rX)) (node c l sv2 rX))
            | .black =>
              -- rebalance = parent (successor's former parent)
              let rX := Path.fill q1 nil
              let sv2 := cb.compute sv1 l rX
              .fixup (q1.append (.right c l sv2 (propPath cb p (node c l sv2 rX))))

/-- `__rdx_rb_erase_augmented` (rbtree_augmented.h:136-231) on the node that
compares equal to `x`: `none` when no resident node does (the C requires a
resident node). -/
def __rdx_rb_erase_augmented (cb : Callbacks α) (cmp : α → α → Int) (x : α)
    (t : Tree α) : Option (EraseResult α) :=
  match locate cmp x t .root with
  | none => none
  | some (nil, _) => none  -- unreachable: locate only returns nodes
  | some (node c l v r, p) => some (spliceCases cb c l v r p)

/-- `rdx_rb_erase_augmented` (rbtree_augmented.h:233-241): the splice, then
`__rdx_rb_erase_color` when a rebalance point was returned. -/
def rdx_rb_erase_augmented (cb : Callbacks α) (cmp : α → α → Int) (x : α)
    (t : Tree α) : Option (Tree α) :=
  match __rdx_rb_erase_augmented cb cmp x t with
  | none => none
  | some (.done t1) => some t1
  | some (.fixup p) => ____rdx_rb_erase_color cb nil p

/-- `rdx_rb_erase` (rbtree.c:392-398): the same pipeline with the dummy
callbacks. -/
def rdx_rb_erase (cmp : α → α → Int) (x : α) (t : Tree α) : Option (Tree α) :=
  rdx_rb_erase_augmented dummyCallbacks cmp x t

/-! ## Queries, traversal and replacement
(`rbtree.c:418-473`, `rbtree.c:505-519`, `rbtree.c:597-629`) -/

/-- The loop of `rdx_rb_rightmost_less_equiv` (rbtree.c:597-612): descend
with the weak comparator; whenever `weak_compare(node, elem) <= 0` record the
node and continue right, else continue left. `best` is `result_node`. -/
def rightmostLEGo (wcmp : α → α → Int) (elem : α) : Tree α → Option α → Option α
  | nil, best => best
  | node _ l v r, best =>
    let result := wcmp v elem
    if result < 0 ∨ result = 0 then rightmostLEGo wcmp elem r (some v)
    else rightmostLEGo wcmp elem l best

/-- `rdx_rb_rightmost_less_equiv` (rbtree.c:597-612). -/
def rdx_rb_rightmost_less_equiv (wcmp : α → α → Int) (t : Tree α) (elem : α) :
    Option α :=
  rightmostLEGo wcmp elem t none

/-- The loop of `rdx_rb_leftmost_greater_equiv` (rbtree.c:614-629): record
and go left when `weak_compare(node, elem) >= 0`, else go right. -/
def leftmostGEGo (wcmp : α → α → Int) (elem : α) : Tree α → Option α → Option α
  | nil, best => best
  | node _ l v r, best =>
    let result := wcmp v elem
    if 0 < result ∨ result = 0 then leftmostGEGo wcmp elem l (some v)
    else leftmostGEGo wcmp elem r best

/-- `rdx_rb_leftmost_greater_equiv` (rbtree.c:614-629). -/
def rdx_rb_leftmost_greater_equiv (wcmp : α → α → Int) (t : Tree α) (elem : α) :
    Option α :=
  leftmostGEGo wcmp elem t none

/-- `rdx_rb_first` (rbtree.c:418-428): leftmost node of the tree. -/
def rdx_rb_first : Tree α → Option α
  | nil => none
  | node _ nil v _ => some v
  | node _ (node c2 l2 v2 r2) _ _ => rdx_rb_first (node c2 l2 v2 r2)

/-- The parent walk of `rdx_rb_next` (rbtree.c:469-472): go up while the
current node is a right child; the first ancestor of which it is a left
child is the successor (`NULL` past the root). -/
def walkUpNext : Path α → Option α
  | .root => none
  | .left _ _ v _ => some v
  | .right _ _ _ parent => walkUpNext parent

/-- `rdx_rb_next` (rbtree.c:444-473) on the resident node comparing equal to
`x`: leftmost node of the right subtree if there is one, else the parent
walk. The C reaches the node by pointer; we reach it by strict-comparator
descent, which coincides with it for a resident node of a search tree
(`none` if `x` is not resident — the C requires residence and would read the
detached-node marker otherwise, rbtree.c:448). -/
def rdx_rb_next (cmp : α → α → Int) (t : Tree α) (x : α) : Option α :=
  match locate cmp x t .root with
  | none => none
  | some (node _ _ _ (node rc rl rv rr), _) => rdx_rb_first (node rc rl rv rr)
  | some (node _ _ _ nil, p) => walkUpNext p
  | some (nil, _) => none

/-- Repeated `rdx_rb_next` with explicit fuel, starting from a given node. -/
def iterNexts (cmp : α → α → Int) (t : Tree α) : Nat → Option α → List α
  | 0, _ => []
  | _, none => []
  | fuel + 1, some x => x :: iterNexts cmp t fuel (rdx_rb_next cmp t x)

/-- The in-order iteration of the spec's order property: repeated `next`
from `first` (the fuel `t.size` suffices, as proved below). -/
def iterList (cmp : α → α → Int) (t : Tree α) : List α :=
  iterNexts cmp t t.size (rdx_rb_first t)

/-- `rdx_rb_replace_node` (rbtree.c:505-519): the surrounding nodes are
pointed at the replacement, and `*new = *victim` copies the victim's parent,
color and children onto the replacement's `struct rdx_rb_node` — and nothing
else: the replacement keeps its own container fields (including any stored
aggregate). No rebalancing and no augmentation callback is involved. The
victim (received by pointer in C) is reached by strict-comparator descent. -/
def rdx_rb_replace_node (cmp : α → α → Int) (victim newV : α) (t : Tree α) :
    Tree α :=
  match locate cmp victim t .root with
  | none => t
  | some (nil, _) => t
  | some (node c l _ r, p) => Path.fill p (node c l newV r)

/-! ## Declared augmentation callbacks and the consistency invariant
(`rbtree_augmented.h:65-94`) -/

-- A value as seen by `RDX_RB_DECLARE_CALLBACKS` is the caller's payload
-- together with the stored `rbaugmented` field, modelled as a pair `γ × A`.
section Declared

variable {γ : Type u} {A : Type v}

/-- The stored aggregate at the root of a subtree, if any (`rbcompute` reads
the children's containers through `rb_left` / `rb_right`). -/
def rootAug : Tree (γ × A) → Option A
  | Tree.nil => none
  | Tree.node _ _ v _ => some v.2

/-- The `rbcompute`-driven `compute` of a declared callback set: the payload
is untouched and the stored aggregate becomes `f` of the payload and the
children's stored aggregates. -/
def declaredCompute (f : γ → Option A → Option A → A) (v : γ × A)
    (l r : Tree (γ × A)) : γ × A :=
  (v.1, f v.1 (rootAug l) (rootAug r))

/-- The generated `copy` callback (rbtree_augmented.h:77-83):
`new->rbaugmented = old->rbaugmented`, verbatim. -/
def declaredCopy (oldV newV : γ × A) : γ × A :=
  (newV.1, oldV.2)

/-- The callback set generated by `RDX_RB_DECLARE_CALLBACKS` for an
aggregate function `f`. -/
def declaredCallbacks (f : γ → Option A → Option A → A) : Callbacks (γ × A) where
  copy := declaredCopy
  compute := declaredCompute f

/-- The consistency invariant of the spec (§3, Augmented value): every
node's stored aggregate equals `f` applied to the node and its current
children's stored aggregates. -/
def Consistent (f : γ → Option A → Option A → A) : Tree (γ × A) → Prop
  | Tree.nil => True
  | Tree.node _ l v r =>
    v.2 = f v.1 (rootAug l) (rootAug r) ∧ Consistent f l ∧ Consistent f r

instance Consistent.instDecidable (f : γ → Option A → Option A → A)
    [DecidableEq A] : (t : Tree (γ × A)) → Decidable (Consistent f t)
  | Tree.nil => isTrue trivial
  | Tree.node _ l _ r =>
    have := Consistent.instDecidable f l
    have := Consistent.instDecidable f r
    inferInstanceAs (Decidable (And _ _))

end Declared

/-! ## The demonstration harness node type (`src/unnamed/part_000`) -/

/-- The harness's `struct my_node` keys: a strict key and a weak key. -/
structure MyNode : Type where
  strict_key : Int
  weak_key : Int
deriving DecidableEq

/-- The harness's `weak_compare`. -/
def weak_compare (l r : MyNode) : Int :=
  if l.weak_key < r.weak_key then -1
  else if l.weak_key = r.weak_key then 0
  else 1

/-- The harness's `strict_compare`: the weak comparison, refined by the
strict key. -/
def strict_compare (l r : MyNode) : Int :=
  let weak_result := weak_compare l r
  if weak_result ≠ 0 then weak_result
  else if l.strict_key < r.strict_key then -1
  else if l.strict_key = r.strict_key then 0
  else 1

/-! ## The red-black invariants -/

/-- The balance invariant (spec §3, invariants 1-5): `Balanced t c n` states
that `t`'s root has color `c` and every path from the root to an absent
child position crosses exactly `n` black nodes, with no red node having a
red child. `nil` counts as black (invariant 3). -/
inductive Balanced : Tree α → Color → Nat → Prop where
  | nil : Balanced nil .black 0
  | red {l v r n} : Balanced l .black n → Balanced r .black n →
      Balanced (node .red l v r) .red n
  | black {l r v c₁ c₂ n} : Balanced l c₁ n → Balanced r c₂ n →
      Balanced (node .black l v r) .black (n + 1)

/-- The whole-tree red-black invariant: invariant 2 (a present root is
black) plus the balance invariant; `nil` qualifies. -/
def IsRB (t : Tree α) : Prop := ∃ n, Balanced t .black n

/-- The balance invariant for a context: `PathBal c₀ n₀ p c n` states that
`p` is the context of a `(c₀, n₀)`-balanced tree with a hole expecting a
`(c, n)`-balanced subtree (`PathBal.fill`). -/
inductive PathBal (c₀ : Color) (n₀ : Nat) : Path α → Color → Nat → Prop where
  | root : PathBal c₀ n₀ .root c₀ n₀
  | redL {p v sib n} : Balanced sib .black n → PathBal c₀ n₀ p .red n →
      PathBal c₀ n₀ (.left .red p v sib) .black n
  | redR {p v sib n} : Balanced sib .black n → PathBal c₀ n₀ p .red n →
      PathBal c₀ n₀ (.right .red sib v p) .black n
  | blackL {p v sib c₁ c₂ n} : Balanced sib c₂ n → PathBal c₀ n₀ p .black (n + 1) →
      PathBal c₀ n₀ (.left .black p v sib) c₁ n
  | blackR {p v sib c₁ c₂ n} : Balanced sib c₁ n → PathBal c₀ n₀ p .black (n + 1) →
      PathBal c₀ n₀ (.right .black sib v p) c₂ n

/-! ## Claim-layer definitions -/

/-- The difference comparator on integers: negative, zero or positive
exactly as the C comparator convention requires. -/
def intCmp (a b : Int) : Int := a - b

/-- Trees reachable from an empty root through the public mutating entry
points, counting successful inserts and erases: insertion of a
strict-order-distinct element (descend and link per `rdx_rb_insert`, then
`rdx_rb_insert_color`, as the spec's insert entry point §4.6) and erasure of
a resident element (`rdx_rb_erase`). -/
inductive Reachable (cmp : α → α → Int) : Tree α → Nat → Nat → Prop where
  | empty : Reachable cmp Tree.nil 0 0
  | insert {t t' : Tree α} {x : α} {i d : Nat} : Reachable cmp t i d →
      (∀ y ∈ t.toList, cmp x y ≠ 0) → insertOp cmp x t = some t' →
      Reachable cmp t' (i + 1) d
  | erase {t t' : Tree α} {x : α} {i d : Nat} : Reachable cmp t i d →
      x ∈ t.toList → rdx_rb_erase cmp x t = some t' →
      Reachable cmp t' i (d + 1)

/-- Insert the elements in order through the public insert entry point,
failing if any insert fails. -/
def insertAll (cmp : α → α → Int) : List α → Tree α → Option (Tree α)
  | [], t => some t
  | x :: xs, t =>
    match insertOp cmp x t with
    | none => none
    | some t' => insertAll cmp xs t'

/-- Modelled from the spec: the erase entry point of the `my_node_mmap`
wrapper family the demo harness calls (the wrapper functions are produced
by an extra `RDX_RB_DECLARE_CALLBACKS` argument whose generating macro is
not among the repository's files; the header's macro, rbtree_augmented.h:65-94,
takes seven parameters and generates no wrappers). Per the spec, the wrapper
runs `rdx_rb_erase` on the victim and the victim then reports itself
detached (its parent slot points to itself, so `RDX_RB_EMPTY_NODE` is true
of it): "It becomes detached again only via the erase entry point". The
state is the tree paired with the list of detached nodes. -/
def my_node_mmap_erase (cmp : α → α → Int) (x : α) (s : Tree α × List α) :
    Option (Tree α × List α) :=
  match rdx_rb_erase cmp x s.1 with
  | none => none
  | some t' => some (t', x :: s.2)

/-- Modelled from the spec: erase each element in turn through the wrapper
erase entry point, accumulating the detached markers. -/
def my_node_mmap_eraseAll (cmp : α → α → Int) :
    List α → Tree α × List α → Option (Tree α × List α)
  | [], s => some s
  | x :: xs, s =>
    match my_node_mmap_erase cmp x s with
    | none => none
    | some s' => my_node_mmap_eraseAll cmp xs s'

section DeclaredClaims

variable {γ : Type u} {A : Type v}

/-- The comparator on declared-callback values induced by a payload
comparator: the stored aggregate (second component) is ignored, as the C
comparators read only container fields distinct from the augmented one. -/
def payloadCmp (pcmp : γ → γ → Int) (a b : γ × A) : Int := pcmp a.1 b.1

/-- Rotation stability of an aggregate function: rotating a parent/child
pair and recomputing both leaves the pair's top aggregate unchanged.
Subtree-count-like aggregates (the harness's `compute_payload`) satisfy
it. -/
def RotStable (f : γ → Option A → Option A → A) : Prop :=
  ∀ (kp ks : γ) (a b c : Option A),
    f ks (some (f kp a b)) c = f kp a (some (f ks b c))

/-- Consistency of every node except those on the comparator descent path
to `x`, whose own stored aggregates are unconstrained (their off-path
subtrees stay consistent). This is the state of the tree between the
insertion fixup and the final `propagate` call. -/
def ConsistentX (f : γ → Option A → Option A → A)
    (cmp : (γ × A) → (γ × A) → Int) (x : γ × A) : Tree (γ × A) → Prop
  | Tree.nil => True
  | Tree.node _ l v r =>
    let result := cmp x v
    if result < 0 then ConsistentX f cmp x l ∧ Consistent f r
    else if 0 < result then Consistent f l ∧ ConsistentX f cmp x r
    else Consistent f l ∧ Consistent f r

/-- Consistency of a path context: every recorded sibling subtree is
consistent and every ancestor's stored aggregate equals `f` of its payload
and its children's aggregates, the hole-side child's aggregate being `a`. -/
def ConsistentPath (f : γ → Option A → Option A → A) :
    Path (γ × A) → Option A → Prop
  | Path.root, _ => True
  | Path.left _ parent v sib, a =>
    v.2 = f v.1 a (rootAug sib) ∧ Consistent f sib ∧
      ConsistentPath f parent (some v.2)
  | Path.right _ sib v parent, a =>
    v.2 = f v.1 (rootAug sib) a ∧ Consistent f sib ∧
      ConsistentPath f parent (some v.2)

/-- The sibling subtrees recorded in a path are all consistent (nothing is
said about the ancestors' own stored aggregates). -/
def PathConsist (f : γ → Option A → Option A → A) : Path (γ × A) → Prop
  | Path.root => True
  | Path.left _ parent _ sib => Consistent f sib ∧ PathConsist f parent
  | Path.right _ sib _ parent => Consistent f sib ∧ PathConsist f parent

end DeclaredClaims

/-- Each path entry records on which side of its value the hole lies; the
directions agree with the comparator's verdict on `x`. -/
def DirOK (cmp : α → α → Int) (x : α) : Path α → Prop
  | Path.root => True
  | Path.left _ parent v _ => cmp x v < 0 ∧ DirOK cmp x parent
  | Path.right _ _ v parent => 0 < cmp x v ∧ DirOK cmp x parent

/-- The strict-compare-sorted resident set of the claimed nearest-match
boundary scenario: weak keys `[0, 1, 1, 3, 3, 4]` with distinct strict
keys. -/
def demoTreeLE : Tree MyNode :=
  Tree.node .black
    (Tree.node .black
      (Tree.node .red Tree.nil ⟨0, 0⟩ Tree.nil) ⟨1, 1⟩ Tree.nil)
    ⟨3, 1⟩
    (Tree.node .black
      (Tree.node .red Tree.nil ⟨2, 3⟩ Tree.nil) ⟨4, 3⟩
      (Tree.node .red Tree.nil ⟨5, 4⟩ Tree.nil))

/-- The resident set of the claimed leftmost-greater scenario:
(strict, weak) pairs (1,1), (3,1), (2,3), (4,3), in strict order. -/
def demoTreeGE : Tree MyNode :=
  Tree.node .black
    (Tree.node .black Tree.nil ⟨1, 1⟩ Tree.nil)
    ⟨3, 1⟩
    (Tree.node .black
      (Tree.node .red Tree.nil ⟨2, 3⟩ Tree.nil) ⟨4, 3⟩ Tree.nil)

/-- The harness-style subtree-count aggregate (`construct_payload` /
`combine_payloads`): one plus the children's counts. -/
def countF : Int → Option Int → Option Int → Int :=
  fun _ l r => l.getD 0 + r.getD 0 + 1

/-- A shape-dependent aggregate (left and right children weighted
differently), used to exercise the consistency claim. -/
def cexF : Int → Option Int → Option Int → Int :=
  fun _ l r => 2 * l.getD 0 + 3 * r.getD 0 + 1

/-- The tree `insertAugOp` builds under `cexF` from payload keys 1..7 (fresh
aggregates 0); its stored aggregates are consistent. -/
def cexT : Tree (Int × Int) :=
  Tree.node .black (Tree.node .black Tree.nil (1, 1) Tree.nil) (2, 66)
    (Tree.node .red (Tree.node .black Tree.nil (3, 1) Tree.nil) (4, 21)
      (Tree.node .black (Tree.node .red Tree.nil (5, 1) Tree.nil) (6, 6)
        (Tree.node .red Tree.nil (7, 1) Tree.nil)))

/-- What `rdx_rb_erase_augmented` leaves of `cexT` after erasing payload
key 2: the erase Case-2/3 rotations recompute only the two rotated nodes,
so ancestors of the rotation point keep aggregates computed for the old
shape. -/
def cexT2 : Tree (Int × Int) :=
  Tree.node .black (Tree.node .black Tree.nil (1, 1) Tree.nil) (3, 60)
    (Tree.node .red
      (Tree.node .black Tree.nil (4, 4)
        (Tree.node .red Tree.nil (5, 1) Tree.nil)) (6, 12)
      (Tree.node .black Tree.nil (7, 1) Tree.nil))

/-- The contract of the caller-supplied comparators (spec §6: pure,
deterministic, consistent): the sign of the comparison behaves like a total
order. All conditions hold for integer-key comparators such as the
harness's `strict_compare`. -/
structure LawfulCmp (cmp : α → α → Int) : Prop where
  refl : ∀ x, cmp x x = 0
  lt_trans : ∀ {x y z}, cmp x y < 0 → cmp y z < 0 → cmp x z < 0
  lt_asymm : ∀ {x y}, cmp x y < 0 ↔ 0 < cmp y x
  eq_left : ∀ {x y z}, cmp x y = 0 → (cmp x z < 0 ↔ cmp y z < 0)
  eq_right : ∀ {x y z}, cmp x y = 0 → (cmp z x < 0 ↔ cmp z y < 0)

/-- The ordering invariant: the in-order value list is strictly increasing
under the comparator (the spec's order property, §8). -/
def Sorted (cmp : α → α → Int) (L : List α) : Prop :=
  L.Pairwise (fun a b => cmp a b < 0)

instance Sorted.instDecidable (cmp : α → α → Int) (L : List α) :
    Decidable (Sorted cmp L) :=
  inferInstanceAs (Decidable (List.Pairwise _ L))

theorem PathBal.fill {c₀ n₀} {p : Path α} {t c n} :
    PathBal c₀ n₀ p c n → Balanced t c n → Balanced (p.fill t) c₀ n₀ := by
  intro hp ht
  induction hp generalizing t with
  | root => exact ht
  | redL hs hp ih => exact ih (.red ht hs)
  | redR hs hp ih => exact ih (.red hs ht)
  | blackL hs hp ih => exact ih (.black ht hs)
  | blackR hs hp ih => exact ih (.black hs ht)

theorem Balanced.setBlack {t : Tree α} {c n} (h : Balanced t c n) :
    ∃ n', Balanced t.setBlack .black n' := by
  cases h with
  | nil => exact ⟨0, .nil⟩
  | red hl hr => exact ⟨_, .black hl hr⟩
  | black hl hr => exact ⟨_, .black hl hr⟩

/-- A balanced tree whose expected black height is positive is not `nil`. -/
theorem Balanced.ne_nil_of_pos {t : Tree α} {c n} (h : Balanced t c n)
    (hn : 0 < n) : t ≠ Tree.nil := by
  cases h with
  | nil => omega
  | red hl hr => exact fun h => by cases h
  | black hl hr => exact fun h => by cases h

/-! ## Basic list lemmas -/

theorem Path.toList_fill (p : Path α) (t : Tree α) :
    (p.fill t).toList = p.listLeft ++ t.toList ++ p.listRight := by
  induction p generalizing t with
  | root => simp [Path.fill, Path.listLeft, Path.listRight]
  | left c parent v r ih =>
    simp [Path.fill, Path.listLeft, Path.listRight, ih, Tree.toList]
  | right c l v parent ih =>
    simp [Path.fill, Path.listLeft, Path.listRight, ih, Tree.toList]

theorem Balanced.setBlack_eq {t : Tree α} {n} (h : Balanced t .black n) :
    t.setBlack = t := by
  cases h <;> rfl

/-! ## Balance preservation by the insertion fixup -/

theorem insertFix_balanced_aux (cb : Callbacks α) (N : Nat) :
    ∀ (p : Path α) (l r : Tree α) (v : α) (c : Color) (n n₀ : Nat),
      p.size ≤ N → PathBal .black n₀ p c n →
      Balanced l .black n → Balanced r .black n →
      ∃ t' n', __rdx_rb_insert cb l v r p = some t' ∧ Balanced t' .black n' := by
  induction N with
  | zero =>
    intro p l r v c n n₀ hsz hp hl hr
    cases p with
    | root =>
      exact ⟨_, n + 1, rfl, .black hl hr⟩
    | left c' parent pv pr => simp [Path.size] at hsz
    | right c' pl pv parent => simp [Path.size] at hsz
  | succ m ih =>
    intro p l r v c n n₀ hsz hp hl hr
    cases p with
    | root =>
      exact ⟨_, n + 1, rfl, .black hl hr⟩
    | left pc parent pv pr =>
      cases pc with
      | black =>
        -- black parent: break (rbtree.c:89-90)
        cases hp with
        | blackL hpr hp2 =>
          exact ⟨_, n₀, rfl, PathBal.fill (.blackL hpr hp2) (.red hl hr)⟩
      | red =>
        cases hp with
        | redL hpr hp2 =>
          cases parent with
          | root => cases hp2
          | left gc gp gv gu =>
            -- parent == gparent->rb_left, node on parent's left
            cases hp2 with
            | blackL hgu hp3 =>
              cases hgu with
              | nil =>
                -- uncle NULL: Case 3 directly
                simp only [__rdx_rb_insert]
                rw [hpr.setBlack_eq]
                exact ⟨_, n₀, rfl, PathBal.fill hp3
                  (.black (.red hl hr) (.red hpr .nil))⟩
              | red hgul hgur =>
                -- Case 1: recurse at gparent
                have hsz' : gp.size ≤ m := by simp [Path.size] at hsz; omega
                simp only [__rdx_rb_insert]
                exact ih gp _ _ gv .black (n + 1) n₀ hsz'
                  hp3 (.black (.red hl hr) hpr) (.black hgul hgur)
              | black hgul hgur =>
                -- black uncle: Case 3 directly
                simp only [__rdx_rb_insert]
                rw [hpr.setBlack_eq]
                exact ⟨_, n₀, rfl, PathBal.fill hp3
                  (.black (.red hl hr) (.red hpr (.black hgul hgur)))⟩
          | right gc gu gv gp =>
            -- parent == gparent->rb_right, node on parent's left
            cases hp2 with
            | blackR hgu hp3 =>
              cases hgu with
              | nil =>
                -- uncle NULL: Case 2 (right rotate at parent) then Case 3
                simp only [__rdx_rb_insert]
                rw [hr.setBlack_eq, hl.setBlack_eq]
                exact ⟨_, n₀, rfl, PathBal.fill hp3
                  (.black (.red .nil hl) (.red hr hpr))⟩
              | red hgul hgur =>
                have hsz' : gp.size ≤ m := by simp [Path.size] at hsz; omega
                simp only [__rdx_rb_insert]
                exact ih gp _ _ gv .black (n + 1) n₀ hsz'
                  hp3 (.black hgul hgur) (.black (.red hl hr) hpr)
              | black hgul hgur =>
                simp only [__rdx_rb_insert]
                rw [hr.setBlack_eq, hl.setBlack_eq]
                exact ⟨_, n₀, rfl, PathBal.fill hp3
                  (.black (.red (.black hgul hgur) hl) (.red hr hpr))⟩
    | right pc pl pv parent =>
      cases pc with
      | black =>
        cases hp with
        | blackR hpl hp2 =>
          exact ⟨_, n₀, rfl, PathBal.fill (.blackR hpl hp2) (.red hl hr)⟩
      | red =>
        cases hp with
        | redR hpl hp2 =>
          cases parent with
          | root => cases hp2
          | right gc gu gv gp =>
            -- parent == gparent->rb_right, node on parent's right
            cases hp2 with
            | blackR hgu hp3 =>
              cases hgu with
              | nil =>
                simp only [__rdx_rb_insert]
                rw [hpl.setBlack_eq]
                exact ⟨_, n₀, rfl, PathBal.fill hp3
                  (.black (.red .nil hpl) (.red hl hr))⟩
              | red hgul hgur =>
                have hsz' : gp.size ≤ m := by simp [Path.size] at hsz; omega
                simp only [__rdx_rb_insert]
                exact ih gp _ _ gv .black (n + 1) n₀ hsz'
                  hp3 (.black hgul hgur) (.black hpl (.red hl hr))
              | black hgul hgur =>
                simp only [__rdx_rb_insert]
                rw [hpl.setBlack_eq]
                exact ⟨_, n₀, rfl, PathBal.fill hp3
                  (.black (.red (.black hgul hgur) hpl) (.red hl hr))⟩
          | left gc gp gv gu =>
            -- parent == gparent->rb_left, node on parent's right
            cases hp2 with
            | blackL hgu hp3 =>
              cases hgu with
              | nil =>
                -- Case 2 (left rotate at parent) then Case 3
                simp only [__rdx_rb_insert]
                rw [hl.setBlack_eq, hr.setBlack_eq]
                exact ⟨_, n₀, rfl, PathBal.fill hp3
                  (.black (.red hpl hl) (.red hr .nil))⟩
              | red hgul hgur =>
                have hsz' : gp.size ≤ m := by simp [Path.size] at hsz; omega
                simp only [__rdx_rb_insert]
                exact ih gp _ _ gv .black (n + 1) n₀ hsz'
                  hp3 (.black hpl (.red hl hr)) (.black hgul hgur)
              | black hgul hgur =>
                simp only [__rdx_rb_insert]
                rw [hl.setBlack_eq, hr.setBlack_eq]
                exact ⟨_, n₀, rfl, PathBal.fill hp3
                  (.black (.red hpl hl) (.red hr (.black hgul hgur)))⟩

/-! ## Comparator laws and the ordering invariant -/

theorem LawfulCmp.eq_symm {cmp : α → α → Int} (h : LawfulCmp cmp) {x y}
    (hxy : cmp x y = 0) : cmp y x = 0 := by
  rcases lt_trichotomy (cmp y x) 0 with hlt | heq | hgt
  · have h2 : cmp y y < 0 := (h.eq_right hxy).1 hlt
    rw [h.refl] at h2
    omega
  · exact heq
  · have h2 : cmp x y < 0 := h.lt_asymm.2 hgt
    omega

theorem LawfulCmp.eq_zero_left {cmp : α → α → Int} (h : LawfulCmp cmp) {x y z}
    (hxy : cmp x y = 0) : (cmp x z = 0 ↔ cmp y z = 0) := by
  constructor <;> intro hz
  · rcases lt_trichotomy (cmp y z) 0 with hlt | heq | hgt
    · have h2 : cmp x z < 0 := (h.eq_left hxy).2 hlt
      omega
    · exact heq
    · have h2 : cmp z y < 0 := h.lt_asymm.2 hgt
      have h3 : cmp z x < 0 := (h.eq_right hxy).2 h2
      have h4 : 0 < cmp x z := h.lt_asymm.1 h3
      omega
  · rcases lt_trichotomy (cmp x z) 0 with hlt | heq | hgt
    · have h2 : cmp y z < 0 := (h.eq_left hxy).1 hlt
      omega
    · exact heq
    · have h2 : cmp z x < 0 := h.lt_asymm.2 hgt
      have h3 : cmp z y < 0 := (h.eq_right hxy).1 h2
      have h4 : 0 < cmp y z := h.lt_asymm.1 h3
      omega

/-! ## Lemmas about the insertion descent -/

theorem insertDescend_isSome (cmp : α → α → Int) (x : α) :
    ∀ (t : Tree α) (p : Path α), (∀ y ∈ t.toList, cmp x y ≠ 0) →
      ∃ p', insertDescend cmp x t p = some p' := by
  intro t
  induction t with
  | nil => exact fun p _ => ⟨p, rfl⟩
  | node c l v r ihl ihr =>
    intro p hy
    rw [insertDescend]
    rcases lt_trichotomy (cmp x v) 0 with hlt | heq | hgt
    · simpa [hlt] using ihl _ (fun y hmem => hy y (by simp [Tree.toList, hmem]))
    · exact absurd heq (hy v (by simp [Tree.toList]))
    · have h1 : ¬ cmp x v < 0 := by omega
      simpa [h1, hgt] using ihr _ (fun y hmem => hy y (by simp [Tree.toList, hmem]))

theorem insertDescend_fill (cmp : α → α → Int) (x : α) :
    ∀ (t : Tree α) (p p' : Path α), insertDescend cmp x t p = some p' →
      p'.fill nil = p.fill t := by
  intro t
  induction t with
  | nil => intro p p' h; cases h; rfl
  | node c l v r ihl ihr =>
    intro p p' h
    rw [insertDescend] at h
    by_cases h1 : cmp x v < 0
    · simpa [Path.fill] using ihl _ _ (by simpa [h1] using h)
    · by_cases h2 : 0 < cmp x v
      · simpa [Path.fill] using ihr _ _ (by simpa [h1, h2] using h)
      · simp [h1, h2] at h

theorem insertDescend_pathBal (cmp : α → α → Int) (x : α) :
    ∀ (t : Tree α) (p p' : Path α) (c : Color) (n : Nat) {c₀ n₀},
      Balanced t c n → PathBal c₀ n₀ p c n →
      insertDescend cmp x t p = some p' → PathBal c₀ n₀ p' .black 0 := by
  intro t
  induction t with
  | nil =>
    intro p p' c n c₀ n₀ hb hp h
    cases hb; cases h; exact hp
  | node tc l v r ihl ihr =>
    intro p p' c n c₀ n₀ hb hp h
    rw [insertDescend] at h
    by_cases h1 : cmp x v < 0
    · simp only [h1, if_pos] at h
      cases hb with
      | red hl hr => exact ihl _ _ _ _ hl (.redL hr hp) h
      | black hl hr => exact ihl _ _ _ _ hl (.blackL hr hp) h
    · by_cases h2 : 0 < cmp x v
      · simp only [h1, h2, if_neg, if_pos, not_false_iff] at h
        cases hb with
        | red hl hr => exact ihr _ _ _ _ hr (.redR hl hp) h
        | black hl hr => exact ihr _ _ _ _ hr (.blackR hl hp) h
      · simp [h1, h2] at h

/-- The middle part of a sorted concatenation is sorted. -/
theorem Sorted.of_middle {cmp : α → α → Int} {A M B : List α}
    (hs : Sorted cmp (A ++ M ++ B)) : Sorted cmp M := by
  refine List.Pairwise.sublist ?_ hs
  rw [List.append_assoc]
  exact (List.sublist_append_left M B).trans (List.sublist_append_right A _)

theorem insertDescend_bounds (cmp : α → α → Int) (x : α) (hcmp : LawfulCmp cmp) :
    ∀ (t : Tree α) (p p' : Path α), insertDescend cmp x t p = some p' →
      Sorted cmp (p.listLeft ++ t.toList ++ p.listRight) →
      (∀ y ∈ p.listLeft, cmp y x < 0) → (∀ y ∈ p.listRight, cmp x y < 0) →
      p'.listLeft ++ p'.listRight = p.listLeft ++ t.toList ++ p.listRight ∧
      (∀ y ∈ p'.listLeft, cmp y x < 0) ∧ (∀ y ∈ p'.listRight, cmp x y < 0) := by
  intro t
  induction t with
  | nil =>
    intro p p' h hs hL hR
    cases h
    exact ⟨by simp [Tree.toList], hL, hR⟩
  | node c l v r ihl ihr =>
    intro p p' h hs hL hR
    have hsM : Sorted cmp (l.toList ++ v :: r.toList) := by
      refine @Sorted.of_middle _ _ p.listLeft _ p.listRight ?_
      simpa [Tree.toList] using hs
    rw [insertDescend] at h
    by_cases h1 : cmp x v < 0
    · simp only [h1, if_pos] at h
      have hs' : Sorted cmp ((Path.left c p v r).listLeft ++ l.toList ++
          (Path.left c p v r).listRight) := by
        simpa [Path.listLeft, Path.listRight, Tree.toList] using hs
      have hR' : ∀ y ∈ (Path.left c p v r).listRight, cmp x y < 0 := by
        intro y hy
        simp only [Path.listRight, List.mem_cons, List.mem_append] at hy
        rcases hy with (rfl | hy) | hy
        · exact h1
        · have hvy : cmp v y < 0 :=
            (List.pairwise_cons.1 (List.pairwise_append.1 hsM).2.1).1 y hy
          exact hcmp.lt_trans h1 hvy
        · exact hR y hy
      have := ihl _ _ h hs' hL hR'
      simpa [Path.listLeft, Path.listRight, Tree.toList] using this
    · by_cases h2 : 0 < cmp x v
      · simp only [h1, h2, if_neg, if_pos, not_false_iff] at h
        have hs' : Sorted cmp ((Path.right c l v p).listLeft ++ r.toList ++
            (Path.right c l v p).listRight) := by
          simpa [Path.listLeft, Path.listRight, Tree.toList] using hs
        have hvx : cmp v x < 0 := hcmp.lt_asymm.2 h2
        have hL' : ∀ y ∈ (Path.right c l v p).listLeft, cmp y x < 0 := by
          intro y hy
          simp only [Path.listLeft, List.mem_append, List.mem_singleton] at hy
          rcases hy with (hy | hy) | rfl
          · exact hL y hy
          · have hyv : cmp y v < 0 :=
              (List.pairwise_append.1 hsM).2.2 y hy v (List.mem_cons_self v _)
            exact hcmp.lt_trans hyv hvx
          · exact hvx
        have := ihr _ _ h hs' hL' hR
        simpa [Path.listLeft, Path.listRight, Tree.toList] using this
      · simp [h1, h2] at h

/-! ## The insertion fixup preserves the in-order list -/

theorem Tree.toList_setBlack (t : Tree α) : t.setBlack.toList = t.toList := by
  cases t <;> rfl

theorem insertFix_toList_aux (N : Nat) :
    ∀ (p : Path α) (l r : Tree α) (v : α) (t' : Tree α),
      p.size ≤ N → __rdx_rb_insert dummyCallbacks l v r p = some t' →
      t'.toList = (p.fill (node .red l v r)).toList := by
  induction N with
  | zero =>
    intro p l r v t' hsz h
    cases p with
    | root => cases h; rfl
    | left c parent pv pr => simp [Path.size] at hsz
    | right c pl pv parent => simp [Path.size] at hsz
  | succ m ih =>
    intro p l r v t' hsz h
    cases p with
    | root => cases h; rfl
    | left pc parent pv pr =>
      cases pc with
      | black => cases h; rfl
      | red =>
        cases parent with
        | root => cases h
        | left gc gp gv gu =>
          have hsz' : gp.size ≤ m := by simp [Path.size] at hsz; omega
          rcases gu with _ | ⟨guc, gul, guv, gur⟩
          · simp only [__rdx_rb_insert] at h
            cases h
            simp [Path.toList_fill, Path.listLeft, Path.listRight, Tree.toList,
              Tree.toList_setBlack, dummyCallbacks]
          · cases guc with
            | red =>
              simp only [__rdx_rb_insert] at h
              rw [ih gp _ _ _ _ hsz' h]
              simp [Path.toList_fill, Path.listLeft, Path.listRight, Tree.toList]
            | black =>
              simp only [__rdx_rb_insert] at h
              cases h
              simp [Path.toList_fill, Path.listLeft, Path.listRight, Tree.toList,
                Tree.toList_setBlack, dummyCallbacks]
        | right gc gu gv gp =>
          have hsz' : gp.size ≤ m := by simp [Path.size] at hsz; omega
          rcases gu with _ | ⟨guc, gul, guv, gur⟩
          · simp only [__rdx_rb_insert] at h
            cases h
            simp [Path.toList_fill, Path.listLeft, Path.listRight, Tree.toList,
              Tree.toList_setBlack, dummyCallbacks]
          · cases guc with
            | red =>
              simp only [__rdx_rb_insert] at h
              rw [ih gp _ _ _ _ hsz' h]
              simp [Path.toList_fill, Path.listLeft, Path.listRight, Tree.toList]
            | black =>
              simp only [__rdx_rb_insert] at h
              cases h
              simp [Path.toList_fill, Path.listLeft, Path.listRight, Tree.toList,
                Tree.toList_setBlack, dummyCallbacks]
    | right pc pl pv parent =>
      cases pc with
      | black => cases h; rfl
      | red =>
        cases parent with
        | root => cases h
        | left gc gp gv gu =>
          have hsz' : gp.size ≤ m := by simp [Path.size] at hsz; omega
          rcases gu with _ | ⟨guc, gul, guv, gur⟩
          · simp only [__rdx_rb_insert] at h
            cases h
            simp [Path.toList_fill, Path.listLeft, Path.listRight, Tree.toList,
              Tree.toList_setBlack, dummyCallbacks]
          · cases guc with
            | red =>
              simp only [__rdx_rb_insert] at h
              rw [ih gp _ _ _ _ hsz' h]
              simp [Path.toList_fill, Path.listLeft, Path.listRight, Tree.toList]
            | black =>
              simp only [__rdx_rb_insert] at h
              cases h
              simp [Path.toList_fill, Path.listLeft, Path.listRight, Tree.toList,
                Tree.toList_setBlack, dummyCallbacks]
        | right gc gu gv gp =>
          have hsz' : gp.size ≤ m := by simp [Path.size] at hsz; omega
          rcases gu with _ | ⟨guc, gul, guv, gur⟩
          · simp only [__rdx_rb_insert] at h
            cases h
            simp [Path.toList_fill, Path.listLeft, Path.listRight, Tree.toList,
              Tree.toList_setBlack, dummyCallbacks]
          · cases guc with
            | red =>
              simp only [__rdx_rb_insert] at h
              rw [ih gp _ _ _ _ hsz' h]
              simp [Path.toList_fill, Path.listLeft, Path.listRight, Tree.toList]
            | black =>
              simp only [__rdx_rb_insert] at h
              cases h
              simp [Path.toList_fill, Path.listLeft, Path.listRight, Tree.toList,
                Tree.toList_setBlack, dummyCallbacks]

theorem insertFix_toList {p : Path α} {l r : Tree α} {v : α} {t' : Tree α}
    (h : __rdx_rb_insert dummyCallbacks l v r p = some t') :
    t'.toList = (p.fill (node .red l v r)).toList :=
  insertFix_toList_aux p.size p l r v t' (Nat.le_refl _) h

/-! ## The full insertion operation -/

theorem Sorted.insert_middle {cmp : α → α → Int} {A B : List α} {x : α}
    (hs : Sorted cmp (A ++ B)) (hA : ∀ a ∈ A, cmp a x < 0)
    (hB : ∀ b ∈ B, cmp x b < 0) : Sorted cmp (A ++ x :: B) := by
  rw [Sorted, List.pairwise_append] at hs ⊢
  obtain ⟨hsA, hsB, hcross⟩ := hs
  refine ⟨hsA, ?_, ?_⟩
  · exact List.pairwise_cons.2 ⟨hB, hsB⟩
  · intro a ha b hb
    rcases List.mem_cons.1 hb with rfl | hb
    · exact hA a ha
    · exact hcross a ha b hb

theorem insertOp_spec {cmp : α → α → Int} (hcmp : LawfulCmp cmp) {t : Tree α}
    {x : α} (hrb : IsRB t) (hs : Sorted cmp t.toList)
    (hx : ∀ y ∈ t.toList, cmp x y ≠ 0) :
    ∃ t' A B, insertOp cmp x t = some t' ∧ IsRB t' ∧
      t.toList = A ++ B ∧ t'.toList = A ++ x :: B ∧
      (∀ a ∈ A, cmp a x < 0) ∧ (∀ b ∈ B, cmp x b < 0) := by
  obtain ⟨n₀, hbal⟩ := hrb
  obtain ⟨p', hdesc⟩ := insertDescend_isSome cmp x t .root hx
  have hpb : PathBal .black n₀ p' .black 0 :=
    insertDescend_pathBal cmp x t .root p' .black n₀ hbal .root hdesc
  obtain ⟨t', n', heq, hbal'⟩ :=
    insertFix_balanced_aux dummyCallbacks p'.size p' nil nil x .black 0 n₀
      (Nat.le_refl _) hpb .nil .nil
  have hfill : p'.fill nil = t := insertDescend_fill cmp x t .root p' hdesc
  have hlist : t'.toList = p'.listLeft ++ x :: p'.listRight := by
    have := insertFix_toList heq
    rw [this, Path.toList_fill]
    simp [Tree.toList]
  have htL : t.toList = p'.listLeft ++ p'.listRight := by
    rw [← hfill, Path.toList_fill]
    simp [Tree.toList]
  obtain ⟨_, hA, hB⟩ := insertDescend_bounds cmp x hcmp t .root p' hdesc
    (by simpa [Path.listLeft, Path.listRight] using hs)
    (by simp [Path.listLeft]) (by simp [Path.listRight])
  refine ⟨t', p'.listLeft, p'.listRight, ?_, ⟨n', hbal'⟩, htL, hlist, hA, hB⟩
  rw [insertOp, hdesc]
  exact heq

/-! ## Path composition lemmas -/

theorem Path.fill_append (p q : Path α) (t : Tree α) :
    (p.append q).fill t = q.fill (p.fill t) := by
  induction p generalizing t with
  | root => rfl
  | left c parent v r ih => simp [Path.append, Path.fill, ih]
  | right c l v parent ih => simp [Path.append, Path.fill, ih]

theorem Path.listLeft_append (p q : Path α) :
    (p.append q).listLeft = q.listLeft ++ p.listLeft := by
  induction p with
  | root => simp [Path.append, Path.listLeft]
  | left c parent v r ih => simp [Path.append, Path.listLeft, ih]
  | right c l v parent ih => simp [Path.append, Path.listLeft, ih]

theorem Path.listRight_append (p q : Path α) :
    (p.append q).listRight = p.listRight ++ q.listRight := by
  induction p with
  | root => simp [Path.append, Path.listRight]
  | left c parent v r ih => simp [Path.append, Path.listRight, ih]
  | right c l v parent ih => simp [Path.append, Path.listRight, ih]

theorem PathBal.append {p q : Path α} {cm nm cH nH c₀ n₀}
    (hq : PathBal cm nm p cH nH) (hp : PathBal c₀ n₀ q cm nm) :
    PathBal c₀ n₀ (p.append q) cH nH := by
  induction hq with
  | root => exact hp
  | redL hs _ ih => exact .redL hs ih
  | redR hs _ ih => exact .redR hs ih
  | blackL hs _ ih => exact .blackL hs ih
  | blackR hs _ ih => exact .blackR hs ih

/-- Filling any hole with a black tree of the right black height restores
balance, as long as the whole tree is rooted black. -/
theorem PathBal.fill_flex {p : Path α} {t : Tree α} {n₀ c n}
    (hp : PathBal .black n₀ p c n) (ht : Balanced t .black n) :
    Balanced (p.fill t) .black n₀ := by
  cases hp with
  | root => exact ht
  | redL hs hpp => exact PathBal.fill (.redL hs hpp) ht
  | redR hs hpp => exact PathBal.fill (.redR hs hpp) ht
  | blackL hs hpp => exact PathBal.fill (.blackL hs hpp) ht
  | blackR hs hpp => exact PathBal.fill (.blackR hs hpp) ht

/-- The non-root variant of `PathBal.fill_flex` for arbitrary context
targets: any non-root hole accepts a black tree of the right height. -/
theorem PathBal.fill_flex_nonroot {p : Path α} {t : Tree α} {c₀ n₀ c n}
    (hp : PathBal c₀ n₀ p c n) (ht : Balanced t .black n)
    (hne : p ≠ .root) : Balanced (p.fill t) c₀ n₀ := by
  cases hp with
  | root => exact absurd rfl hne
  | redL hs hpp => exact PathBal.fill (.redL hs hpp) ht
  | redR hs hpp => exact PathBal.fill (.redR hs hpp) ht
  | blackL hs hpp => exact PathBal.fill (.blackL hs hpp) ht
  | blackR hs hpp => exact PathBal.fill (.blackR hs hpp) ht

theorem dummyCallbacks_compute (v : α) (l r : Tree α) :
    dummyCallbacks.compute v l r = v := rfl

theorem dummyCallbacks_copy (o n : α) : dummyCallbacks.copy o n = n := rfl

theorem propPath_dummy : ∀ (p : Path α) (t : Tree α),
    propPath dummyCallbacks p t = p := by
  intro p
  induction p with
  | root => intro t; rfl
  | left c parent v r ih => intro t; simp [propPath, dummyCallbacks_compute, ih]
  | right c l v parent ih => intro t; simp [propPath, dummyCallbacks_compute, ih]

/-! ## Balance analysis of the deletion fixup cases -/

theorem balanced_nil_inv {c : Color} {n : Nat}
    (h : Balanced (Tree.nil : Tree α) c n) : c = .black ∧ n = 0 := by
  cases h; exact ⟨rfl, rfl⟩

theorem balanced_red_inv {l r : Tree α} {v : α} {c : Color} {n : Nat}
    (h : Balanced (node .red l v r) c n) :
    c = .red ∧ Balanced l .black n ∧ Balanced r .black n := by
  cases h with
  | red hl hr => exact ⟨rfl, hl, hr⟩

theorem balanced_black_inv {l r : Tree α} {v : α} {c : Color} {n : Nat}
    (h : Balanced (node .black l v r) c n) :
    c = .black ∧ ∃ m c₁ c₂, n = m + 1 ∧ Balanced l c₁ m ∧ Balanced r c₂ m := by
  cases h with
  | black hl hr => exact ⟨rfl, _, _, _, rfl, hl, hr⟩

theorem eraseCasesLeft_red (cb : Callbacks α) (sc : Color) (sv pv : α)
    (p : Path α) {t sl sr : Tree α} {n n₀ : Nat} {ca cb' : Color}
    (hp : PathBal .black n₀ p .red (n + 1)) (ht : Balanced t .black n)
    (hsl : Balanced sl ca n) (hsr : Balanced sr cb' n) :
    ∃ d, eraseCasesLeft cb t sc sl sv sr .red pv p = Sum.inl d ∧
      ∃ m, Balanced d .black m := by
  rcases sr with _ | ⟨src, srl, srv, srr⟩
  · -- sibling's right child NULL, so n = 0
    obtain ⟨-, rfl⟩ := balanced_nil_inv hsr
    rcases sl with _ | ⟨slc, sll, slv, slr⟩
    · -- Case 2 under a red parent: recolor and stop
      exact ⟨_, rfl, n₀, PathBal.fill_flex hp (.black ht (.red .nil .nil))⟩
    · cases slc with
      | red =>
        -- Case 3 then Case 4
        obtain ⟨-, hsll, hslr⟩ := balanced_red_inv hsl
        refine ⟨_, rfl, n₀, ?_⟩
        rw [hslr.setBlack_eq]
        exact PathBal.fill hp (.red (.black ht hsll) (.black hslr .nil))
      | black =>
        obtain ⟨-, m, c₁, c₂, hm, -, -⟩ := balanced_black_inv hsl
        exact absurd hm (by omega)
  · cases src with
    | red =>
      -- Case 4 directly
      obtain ⟨-, hsrl, hsrr⟩ := balanced_red_inv hsr
      exact ⟨_, rfl, n₀,
        PathBal.fill hp (.red (.black ht hsl) (.black hsrl hsrr))⟩
    | black =>
      obtain ⟨-, m, c₁, c₂, rfl, hsrl, hsrr⟩ := balanced_black_inv hsr
      rcases sl with _ | ⟨slc, sll, slv, slr⟩
      · obtain ⟨-, hm⟩ := balanced_nil_inv hsl
        exact absurd hm (by omega)
      · cases slc with
        | red =>
          obtain ⟨-, hsll, hslr⟩ := balanced_red_inv hsl
          refine ⟨_, rfl, n₀, ?_⟩
          rw [hslr.setBlack_eq]
          exact PathBal.fill hp
            (.red (.black ht hsll) (.black hslr (.black hsrl hsrr)))
        | black =>
          obtain ⟨-, m2, d₁, d₂, hm2, hsll, hslr⟩ := balanced_black_inv hsl
          obtain rfl : m2 = m := by omega
          exact ⟨_, rfl, n₀, PathBal.fill_flex hp
            (.black ht (.red (.black hsll hslr) (.black hsrl hsrr)))⟩

theorem eraseCasesLeft_black (cb : Callbacks α) (sc : Color) (sv pv : α)
    (p : Path α) {t sl sr : Tree α} {n n₀ : Nat} {ca cb' : Color}
    (hp : PathBal .black n₀ p .black (n + 2)) (ht : Balanced t .black n)
    (hsl : Balanced sl ca n) (hsr : Balanced sr cb' n) :
    (∃ d, eraseCasesLeft cb t sc sl sv sr .black pv p = Sum.inl d ∧
      ∃ m, Balanced d .black m) ∨
    (∃ t1, eraseCasesLeft cb t sc sl sv sr .black pv p = Sum.inr t1 ∧
      Balanced t1 .black (n + 1)) := by
  rcases sr with _ | ⟨src, srl, srv, srr⟩
  · obtain ⟨-, rfl⟩ := balanced_nil_inv hsr
    rcases sl with _ | ⟨slc, sll, slv, slr⟩
    · -- Case 2 under a black parent: move the deficit up
      exact Or.inr ⟨_, rfl, .black ht (.red .nil .nil)⟩
    · cases slc with
      | red =>
        obtain ⟨-, hsll, hslr⟩ := balanced_red_inv hsl
        refine Or.inl ⟨_, rfl, n₀, ?_⟩
        rw [hslr.setBlack_eq]
        exact PathBal.fill hp (.black (.black ht hsll) (.black hslr .nil))
      | black =>
        obtain ⟨-, m, c₁, c₂, hm, -, -⟩ := balanced_black_inv hsl
        exact absurd hm (by omega)
  · cases src with
    | red =>
      obtain ⟨-, hsrl, hsrr⟩ := balanced_red_inv hsr
      exact Or.inl ⟨_, rfl, n₀,
        PathBal.fill hp (.black (.black ht hsl) (.black hsrl hsrr))⟩
    | black =>
      obtain ⟨-, m, c₁, c₂, rfl, hsrl, hsrr⟩ := balanced_black_inv hsr
      rcases sl with _ | ⟨slc, sll, slv, slr⟩
      · obtain ⟨-, hm⟩ := balanced_nil_inv hsl
        exact absurd hm (by omega)
      · cases slc with
        | red =>
          obtain ⟨-, hsll, hslr⟩ := balanced_red_inv hsl
          refine Or.inl ⟨_, rfl, n₀, ?_⟩
          rw [hslr.setBlack_eq]
          exact PathBal.fill hp
            (.black (.black ht hsll) (.black hslr (.black hsrl hsrr)))
        | black =>
          obtain ⟨-, m2, d₁, d₂, hm2, hsll, hslr⟩ := balanced_black_inv hsl
          obtain rfl : m2 = m := by omega
          exact Or.inr ⟨_, rfl,
            .black ht (.red (.black hsll hslr) (.black hsrl hsrr))⟩

theorem eraseCasesRight_red (cb : Callbacks α) (sc : Color) (sv pv : α)
    (p : Path α) {t sl sr : Tree α} {n n₀ : Nat} {ca cb' : Color}
    (hp : PathBal .black n₀ p .red (n + 1)) (ht : Balanced t .black n)
    (hsl : Balanced sl ca n) (hsr : Balanced sr cb' n) :
    ∃ d, eraseCasesRight cb t sc sl sv sr .red pv p = Sum.inl d ∧
      ∃ m, Balanced d .black m := by
  rcases sl with _ | ⟨slc, sll, slv, slr⟩
  · obtain ⟨-, rfl⟩ := balanced_nil_inv hsl
    rcases sr with _ | ⟨src, srl, srv, srr⟩
    · exact ⟨_, rfl, n₀, PathBal.fill_flex hp (.black (.red .nil .nil) ht)⟩
    · cases src with
      | red =>
        obtain ⟨-, hsrl, hsrr⟩ := balanced_red_inv hsr
        refine ⟨_, rfl, n₀, ?_⟩
        rw [hsrl.setBlack_eq]
        exact PathBal.fill hp (.red (.black .nil hsrl) (.black hsrr ht))
      | black =>
        obtain ⟨-, m, c₁, c₂, hm, -, -⟩ := balanced_black_inv hsr
        exact absurd hm (by omega)
  · cases slc with
    | red =>
      obtain ⟨-, hsll, hslr⟩ := balanced_red_inv hsl
      exact ⟨_, rfl, n₀,
        PathBal.fill hp (.red (.black hsll hslr) (.black hsr ht))⟩
    | black =>
      obtain ⟨-, m, c₁, c₂, rfl, hsll, hslr⟩ := balanced_black_inv hsl
      rcases sr with _ | ⟨src, srl, srv, srr⟩
      · obtain ⟨-, hm⟩ := balanced_nil_inv hsr
        exact absurd hm (by omega)
      · cases src with
        | red =>
          obtain ⟨-, hsrl, hsrr⟩ := balanced_red_inv hsr
          refine ⟨_, rfl, n₀, ?_⟩
          rw [hsrl.setBlack_eq]
          exact PathBal.fill hp
            (.red (.black (.black hsll hslr) hsrl) (.black hsrr ht))
        | black =>
          obtain ⟨-, m2, d₁, d₂, hm2, hsrl, hsrr⟩ := balanced_black_inv hsr
          obtain rfl : m2 = m := by omega
          exact ⟨_, rfl, n₀, PathBal.fill_flex hp
            (.black (.red (.black hsll hslr) (.black hsrl hsrr)) ht)⟩

theorem eraseCasesRight_black (cb : Callbacks α) (sc : Color) (sv pv : α)
    (p : Path α) {t sl sr : Tree α} {n n₀ : Nat} {ca cb' : Color}
    (hp : PathBal .black n₀ p .black (n + 2)) (ht : Balanced t .black n)
    (hsl : Balanced sl ca n) (hsr : Balanced sr cb' n) :
    (∃ d, eraseCasesRight cb t sc sl sv sr .black pv p = Sum.inl d ∧
      ∃ m, Balanced d .black m) ∨
    (∃ t1, eraseCasesRight cb t sc sl sv sr .black pv p = Sum.inr t1 ∧
      Balanced t1 .black (n + 1)) := by
  rcases sl with _ | ⟨slc, sll, slv, slr⟩
  · obtain ⟨-, rfl⟩ := balanced_nil_inv hsl
    rcases sr with _ | ⟨src, srl, srv, srr⟩
    · exact Or.inr ⟨_, rfl, .black (.red .nil .nil) ht⟩
    · cases src with
      | red =>
        obtain ⟨-, hsrl, hsrr⟩ := balanced_red_inv hsr
        refine Or.inl ⟨_, rfl, n₀, ?_⟩
        rw [hsrl.setBlack_eq]
        exact PathBal.fill hp (.black (.black .nil hsrl) (.black hsrr ht))
      | black =>
        obtain ⟨-, m, c₁, c₂, hm, -, -⟩ := balanced_black_inv hsr
        exact absurd hm (by omega)
  · cases slc with
    | red =>
      obtain ⟨-, hsll, hslr⟩ := balanced_red_inv hsl
      exact Or.inl ⟨_, rfl, n₀,
        PathBal.fill hp (.black (.black hsll hslr) (.black hsr ht))⟩
    | black =>
      obtain ⟨-, m, c₁, c₂, rfl, hsll, hslr⟩ := balanced_black_inv hsl
      rcases sr with _ | ⟨src, srl, srv, srr⟩
      · obtain ⟨-, hm⟩ := balanced_nil_inv hsr
        exact absurd hm (by omega)
      · cases src with
        | red =>
          obtain ⟨-, hsrl, hsrr⟩ := balanced_red_inv hsr
          refine Or.inl ⟨_, rfl, n₀, ?_⟩
          rw [hsrl.setBlack_eq]
          exact PathBal.fill hp
            (.black (.black (.black hsll hslr) hsrl) (.black hsrr ht))
        | black =>
          obtain ⟨-, m2, d₁, d₂, hm2, hsrl, hsrr⟩ := balanced_black_inv hsr
          obtain rfl : m2 = m := by omega
          exact Or.inr ⟨_, rfl,
            .black (.red (.black hsll hslr) (.black hsrl hsrr)) ht⟩

/-! ## The deletion color fixup: totality and balance -/

theorem eraseFix_spec (cb : Callbacks α) (N : Nat) :
    ∀ (p : Path α) (t : Tree α) (n n₀ : Nat),
      p.size ≤ N → PathBal .black n₀ p .black (n + 1) → Balanced t .black n →
      ∃ t'' n'', ____rdx_rb_erase_color cb t p = some t'' ∧
        Balanced t'' .black n'' := by
  induction N with
  | zero =>
    intro p t n n₀ hsz hp ht
    cases p with
    | root => exact ⟨t, n, rfl, ht⟩
    | left pc prnt pv sib => simp [Path.size] at hsz
    | right pc sib pv prnt => simp [Path.size] at hsz
  | succ m ih =>
    intro p t n n₀ hsz hp ht
    cases p with
    | root => exact ⟨t, n, rfl, ht⟩
    | left pc prnt pv sib =>
      have hsz' : prnt.size ≤ m := by simp [Path.size] at hsz; omega
      cases pc with
      | red =>
        cases hp with
        | redL hsib hpp =>
          rcases sib with _ | ⟨sc2, sl, sv, sr⟩
          · obtain ⟨-, hm⟩ := balanced_nil_inv hsib
            exact absurd hm (by omega)
          · cases sc2 with
            | red =>
              obtain ⟨hc, -, -⟩ := balanced_red_inv hsib
              exact absurd hc (by decide)
            | black =>
              obtain ⟨-, m1, c₁, c₂, hm1, hsl, hsr⟩ := balanced_black_inv hsib
              obtain rfl : m1 = n := by omega
              obtain ⟨d, heq, m', hbal⟩ :=
                eraseCasesLeft_red cb .black sv pv prnt hpp ht hsl hsr
              refine ⟨d, m', ?_, hbal⟩
              simp only [____rdx_rb_erase_color, heq]
      | black =>
        cases hp with
        | blackL hsib hpp =>
          rcases sib with _ | ⟨sc2, sl, sv, sr⟩
          · obtain ⟨-, hm⟩ := balanced_nil_inv hsib
            exact absurd hm (by omega)
          · cases sc2 with
            | red =>
              -- Case 1: red sibling; its inner child is a black node
              obtain ⟨-, hsl, hsr⟩ := balanced_red_inv hsib
              rcases sl with _ | ⟨slc, sll, slv, slr⟩
              · obtain ⟨-, hm⟩ := balanced_nil_inv hsl
                exact absurd hm (by omega)
              · cases slc with
                | red =>
                  obtain ⟨hc, -, -⟩ := balanced_red_inv hsl
                  exact absurd hc (by decide)
                | black =>
                  obtain ⟨-, m1, c₁, c₂, hm1, hsll, hslr⟩ :=
                    balanced_black_inv hsl
                  obtain rfl : m1 = n := by omega
                  obtain ⟨d, heq, m', hbal⟩ :=
                    eraseCasesLeft_red cb .black slv
                      (cb.compute pv t (node .black sll slv slr))
                      (Path.left .black prnt
                        (cb.compute sv
                          (node .red t (cb.compute pv t (node .black sll slv slr))
                            (node .black sll slv slr)) sr) sr)
                      (PathBal.blackL hsr hpp) ht hsll hslr
                  refine ⟨d, m', ?_, hbal⟩
                  simp only [____rdx_rb_erase_color, heq]
            | black =>
              obtain ⟨-, m1, c₁, c₂, hm1, hsl, hsr⟩ := balanced_black_inv hsib
              obtain rfl : m1 = n := by omega
              rcases eraseCasesLeft_black cb .black sv pv prnt hpp ht hsl hsr with
                ⟨d, heq, m', hbal⟩ | ⟨t1, heq, hbal1⟩
              · refine ⟨d, m', ?_, hbal⟩
                simp only [____rdx_rb_erase_color, heq]
              · obtain ⟨t'', n'', heq2, hbal2⟩ :=
                  ih prnt t1 _ n₀ hsz' hpp hbal1
                refine ⟨t'', n'', ?_, hbal2⟩
                simp only [____rdx_rb_erase_color, heq, heq2]
    | right pc sib pv prnt =>
      have hsz' : prnt.size ≤ m := by simp [Path.size] at hsz; omega
      cases pc with
      | red =>
        cases hp with
        | redR hsib hpp =>
          rcases sib with _ | ⟨sc2, sl, sv, sr⟩
          · obtain ⟨-, hm⟩ := balanced_nil_inv hsib
            exact absurd hm (by omega)
          · cases sc2 with
            | red =>
              obtain ⟨hc, -, -⟩ := balanced_red_inv hsib
              exact absurd hc (by decide)
            | black =>
              obtain ⟨-, m1, c₁, c₂, hm1, hsl, hsr⟩ := balanced_black_inv hsib
              obtain rfl : m1 = n := by omega
              obtain ⟨d, heq, m', hbal⟩ :=
                eraseCasesRight_red cb .black sv pv prnt hpp ht hsl hsr
              refine ⟨d, m', ?_, hbal⟩
              simp only [____rdx_rb_erase_color, heq]
      | black =>
        cases hp with
        | blackR hsib hpp =>
          rcases sib with _ | ⟨sc2, sl, sv, sr⟩
          · obtain ⟨-, hm⟩ := balanced_nil_inv hsib
            exact absurd hm (by omega)
          · cases sc2 with
            | red =>
              -- Case 1: red sibling; its inner child is sr here
              obtain ⟨-, hsl, hsr⟩ := balanced_red_inv hsib
              rcases sr with _ | ⟨src, srl, srv, srr⟩
              · obtain ⟨-, hm⟩ := balanced_nil_inv hsr
                exact absurd hm (by omega)
              · cases src with
                | red =>
                  obtain ⟨hc, -, -⟩ := balanced_red_inv hsr
                  exact absurd hc (by decide)
                | black =>
                  obtain ⟨-, m1, c₁, c₂, hm1, hsrl, hsrr⟩ :=
                    balanced_black_inv hsr
                  obtain rfl : m1 = n := by omega
                  obtain ⟨d, heq, m', hbal⟩ :=
                    eraseCasesRight_red cb .black srv
                      (cb.compute pv (node .black srl srv srr) t)
                      (Path.right .black sl
                        (cb.compute sv sl
                          (node .red (node .black srl srv srr)
                            (cb.compute pv (node .black srl srv srr) t) t)) prnt)
                      (PathBal.blackR hsl hpp) ht hsrl hsrr
                  refine ⟨d, m', ?_, hbal⟩
                  simp only [____rdx_rb_erase_color, heq]
            | black =>
              obtain ⟨-, m1, c₁, c₂, hm1, hsl, hsr⟩ := balanced_black_inv hsib
              obtain rfl : m1 = n := by omega
              rcases eraseCasesRight_black cb .black sv pv prnt hpp ht hsl hsr with
                ⟨d, heq, m', hbal⟩ | ⟨t1, heq, hbal1⟩
              · refine ⟨d, m', ?_, hbal⟩
                simp only [____rdx_rb_erase_color, heq]
              · obtain ⟨t'', n'', heq2, hbal2⟩ :=
                  ih prnt t1 _ n₀ hsz' hpp hbal1
                refine ⟨t'', n'', ?_, hbal2⟩
                simp only [____rdx_rb_erase_color, heq, heq2]

/-! ## The deletion fixup preserves the in-order list -/

theorem eraseCasesLeft_toList (t sl sr : Tree α) (sc : Color) (sv pv : α)
    (pc : Color) (p : Path α) :
    match eraseCasesLeft dummyCallbacks t sc sl sv sr pc pv p with
    | Sum.inl d => d.toList = (p.fill (node pc t pv (node sc sl sv sr))).toList
    | Sum.inr t1 => t1.toList = (node pc t pv (node sc sl sv sr)).toList := by
  rcases sr with _ | ⟨src, srl, srv, srr⟩ <;>
  rcases sl with _ | ⟨slc, sll, slv, slr⟩ <;>
  cases pc <;>
  (try cases src) <;>
  (try cases slc) <;>
  simp [eraseCasesLeft, Path.toList_fill, Tree.toList, Tree.toList_setBlack,
    dummyCallbacks_compute]

theorem eraseCasesRight_toList (t sl sr : Tree α) (sc : Color) (sv pv : α)
    (pc : Color) (p : Path α) :
    match eraseCasesRight dummyCallbacks t sc sl sv sr pc pv p with
    | Sum.inl d => d.toList = (p.fill (node pc (node sc sl sv sr) pv t)).toList
    | Sum.inr t1 => t1.toList = (node pc (node sc sl sv sr) pv t).toList := by
  rcases sr with _ | ⟨src, srl, srv, srr⟩ <;>
  rcases sl with _ | ⟨slc, sll, slv, slr⟩ <;>
  cases pc <;>
  (try cases src) <;>
  (try cases slc) <;>
  simp [eraseCasesRight, Path.toList_fill, Tree.toList, Tree.toList_setBlack,
    dummyCallbacks_compute]

theorem eraseFix_toList_aux (N : Nat) :
    ∀ (p : Path α) (t t'' : Tree α), p.size ≤ N →
      ____rdx_rb_erase_color dummyCallbacks t p = some t'' →
      t''.toList = (p.fill t).toList := by
  induction N with
  | zero =>
    intro p t t'' hsz h
    cases p with
    | root => cases h; rfl
    | left pc prnt pv sib => simp [Path.size] at hsz
    | right pc sib pv prnt => simp [Path.size] at hsz
  | succ m ih =>
    intro p t t'' hsz h
    cases p with
    | root => cases h; rfl
    | left pc prnt pv sib =>
      have hsz' : prnt.size ≤ m := by simp [Path.size] at hsz; omega
      rcases sib with _ | ⟨sc2, sl, sv, sr⟩
      · simp [____rdx_rb_erase_color] at h
      · cases sc2 with
        | red =>
          rcases sl with _ | ⟨slc, sll, slv, slr⟩
          · simp [____rdx_rb_erase_color] at h
          · simp only [____rdx_rb_erase_color, dummyCallbacks_compute] at h
            rcases hres : eraseCasesLeft dummyCallbacks t .black sll slv slr
                .red pv (Path.left pc prnt sv sr) with d | t1
            · rw [hres] at h
              cases h
              have hlist := eraseCasesLeft_toList t sll slr .black slv pv .red
                (Path.left pc prnt sv sr)
              rw [hres] at hlist
              rw [hlist]
              simp [Path.toList_fill, Path.listLeft, Path.listRight, Tree.toList]
            · rw [hres] at h
              cases h
        | black =>
          simp only [____rdx_rb_erase_color, dummyCallbacks_compute] at h
          rcases hres : eraseCasesLeft dummyCallbacks t .black sl sv sr
              pc pv prnt with d | t1
          · rw [hres] at h
            cases h
            have hlist := eraseCasesLeft_toList t sl sr .black sv pv pc prnt
            rw [hres] at hlist
            exact hlist
          · rw [hres] at h
            have hlist := eraseCasesLeft_toList t sl sr .black sv pv pc prnt
            rw [hres] at hlist
            rw [ih prnt t1 t'' hsz' h, Path.toList_fill, Path.toList_fill,
              hlist]
            simp [Path.listLeft, Path.listRight, Tree.toList]
    | right pc sib pv prnt =>
      have hsz' : prnt.size ≤ m := by simp [Path.size] at hsz; omega
      rcases sib with _ | ⟨sc2, sl, sv, sr⟩
      · simp [____rdx_rb_erase_color] at h
      · cases sc2 with
        | red =>
          rcases sr with _ | ⟨src, srl, srv, srr⟩
          · simp [____rdx_rb_erase_color] at h
          · simp only [____rdx_rb_erase_color, dummyCallbacks_compute] at h
            rcases hres : eraseCasesRight dummyCallbacks t .black srl srv srr
                .red pv (Path.right pc sl sv prnt) with d | t1
            · rw [hres] at h
              cases h
              have hlist := eraseCasesRight_toList t srl srr .black srv pv .red
                (Path.right pc sl sv prnt)
              rw [hres] at hlist
              rw [hlist]
              simp [Path.toList_fill, Path.listLeft, Path.listRight, Tree.toList]
            · rw [hres] at h
              cases h
        | black =>
          simp only [____rdx_rb_erase_color, dummyCallbacks_compute] at h
          rcases hres : eraseCasesRight dummyCallbacks t .black sl sv sr
              pc pv prnt with d | t1
          · rw [hres] at h
            cases h
            have hlist := eraseCasesRight_toList t sl sr .black sv pv pc prnt
            rw [hres] at hlist
            exact hlist
          · rw [hres] at h
            have hlist := eraseCasesRight_toList t sl sr .black sv pv pc prnt
            rw [hres] at hlist
            rw [ih prnt t1 t'' hsz' h, Path.toList_fill, Path.toList_fill,
              hlist]
            simp [Path.listLeft, Path.listRight, Tree.toList]

/-! ## Lemmas about `locate` and the successor walk -/

theorem balanced_black_zero {t : Tree α} (h : Balanced t .black 0) :
    t = Tree.nil := by
  cases t with
  | nil => rfl
  | node c l v r =>
    cases c with
    | red =>
      obtain ⟨hc, -, -⟩ := balanced_red_inv h
      exact absurd hc (by decide)
    | black =>
      obtain ⟨-, m, c₁, c₂, hm, -, -⟩ := balanced_black_inv h
      exact absurd hm (by omega)

theorem locate_fill (cmp : α → α → Int) (x : α) :
    ∀ (t : Tree α) (p p' : Path α) (st : Tree α),
      locate cmp x t p = some (st, p') → p'.fill st = p.fill t := by
  intro t
  induction t with
  | nil => intro p p' st h; cases h
  | node c l v r ihl ihr =>
    intro p p' st h
    rw [locate] at h
    by_cases h1 : cmp x v < 0
    · simpa [Path.fill] using ihl _ _ _ (by simpa [h1] using h)
    · by_cases h2 : 0 < cmp x v
      · simpa [Path.fill] using ihr _ _ _ (by simpa [h1, h2] using h)
      · simp [h1, h2] at h
        rw [h.1, h.2]

theorem locate_pathBal (cmp : α → α → Int) (x : α) :
    ∀ (t : Tree α) (p p' : Path α) (st : Tree α) (c : Color) (n : Nat)
      {cz : Color} {nz : Nat},
      Balanced t c n → PathBal cz nz p c n →
      locate cmp x t p = some (st, p') →
      ∃ c' n', Balanced st c' n' ∧ PathBal cz nz p' c' n' := by
  intro t
  induction t with
  | nil => intro p p' st c n cz nz hb hp h; cases h
  | node tc l v r ihl ihr =>
    intro p p' st c n cz nz hb hp h
    rw [locate] at h
    by_cases h1 : cmp x v < 0
    · simp only [h1, if_pos] at h
      cases hb with
      | red hl hr => exact ihl _ _ _ _ _ hl (.redL hr hp) h
      | black hl hr => exact ihl _ _ _ _ _ hl (.blackL hr hp) h
    · by_cases h2 : 0 < cmp x v
      · simp only [h1, h2, if_neg, if_pos, not_false_iff] at h
        cases hb with
        | red hl hr => exact ihr _ _ _ _ _ hr (.redR hl hp) h
        | black hl hr => exact ihr _ _ _ _ _ hr (.blackR hl hp) h
      · simp only [h1, h2, if_neg, not_false_iff] at h
        cases h
        exact ⟨c, n, hb, hp⟩

theorem locate_found (cmp : α → α → Int) (x : α) (hcmp : LawfulCmp cmp) :
    ∀ (t : Tree α) (p : Path α), x ∈ t.toList → Sorted cmp t.toList →
      ∃ c2 l2 r2 p', locate cmp x t p = some (node c2 l2 x r2, p') := by
  intro t
  induction t with
  | nil => intro p hx hs; simp [Tree.toList] at hx
  | node c l v r ihl ihr =>
    intro p hx hs
    rw [Tree.toList] at hx hs
    have hsl : Sorted cmp l.toList :=
      hs.sublist (List.sublist_append_left _ _)
    have hsr : Sorted cmp r.toList := by
      refine hs.sublist ?_
      refine List.Sublist.trans (List.sublist_cons_self v r.toList) ?_
      exact List.sublist_append_right _ _
    have hlv : ∀ a ∈ l.toList, cmp a v < 0 := fun a ha =>
      (List.pairwise_append.1 hs).2.2 a ha v (List.mem_cons_self v _)
    have hvr : ∀ b ∈ r.toList, cmp v b < 0 := fun b hb =>
      (List.pairwise_cons.1 (List.pairwise_append.1 hs).2.1).1 b hb
    rw [locate]
    rcases lt_trichotomy (cmp x v) 0 with h1 | h1 | h1
    · -- x is in the left subtree
      have hxl : x ∈ l.toList := by
        rcases List.mem_append.1 hx with hl | hvr2
        · exact hl
        · rcases List.mem_cons.1 hvr2 with rfl | hr2
          · rw [hcmp.refl] at h1; omega
          · have := hvr x hr2
            have := hcmp.lt_asymm.1 this
            omega
      simpa [h1] using ihl _ hxl hsl
    · -- zero comparison: this is the node (its value must be x)
      have hvx : v = x := by
        rcases List.mem_append.1 hx with hl | hvr2
        · have := hlv x hl
          omega
        · rcases List.mem_cons.1 hvr2 with rfl | hr2
          · rfl
          · have := hvr x hr2
            have := hcmp.lt_asymm.1 this
            have h1s := hcmp.eq_symm h1
            omega
      exact ⟨c, l, r, p, by simp [hvx, hcmp.refl x]⟩
    · -- x is in the right subtree
      have hxr : x ∈ r.toList := by
        rcases List.mem_append.1 hx with hl | hvr2
        · have := hlv x hl
          omega
        · rcases List.mem_cons.1 hvr2 with rfl | hr2
          · rw [hcmp.refl] at h1; omega
          · exact hr2
      have hn1 : ¬ cmp x v < 0 := by omega
      simpa [hn1, h1] using ihr _ hxr hsr

theorem leftmostZoom_spec :
    ∀ (t : Tree α) (q : Path α) (ct : Color) (nt : Nat) {cz : Color} {nz : Nat},
      Balanced t ct nt → PathBal cz nz q ct nt → t ≠ Tree.nil →
      ∃ sc sv c2 q' ns, leftmostZoom t q = some (sc, sv, c2, q') ∧
        Balanced (node sc nil sv c2) sc ns ∧ PathBal cz nz q' sc ns ∧
        q'.fill (node sc nil sv c2) = q.fill t ∧
        q'.listLeft = q.listLeft ∧ q.size ≤ q'.size := by
  intro t
  induction t with
  | nil => intro q ct nt cz nz hb hq hne; exact absurd rfl hne
  | node c l v r ihl ihr =>
    intro q ct nt cz nz hb hq hne
    rcases l with _ | ⟨lc, ll, lv, lr⟩
    · -- successor found: no left child
      refine ⟨c, v, r, q, nt, rfl, ?_, ?_, rfl, rfl, Nat.le_refl _⟩
      · cases hb with
        | red hl hr => exact .red hl hr
        | black hl hr => exact .black hl hr
      · cases hb with
        | red hl hr => exact hq
        | black hl hr => exact hq
    · -- descend left
      cases hb with
      | red hl hr =>
        obtain ⟨sc, sv, c2, q', ns, heq, h1, h2, h3, h4, h5⟩ :=
          ihl (.left .red q v r) .black nt hl (.redL hr hq) (by simp)
        refine ⟨sc, sv, c2, q', ns, ?_, h1, h2, ?_, ?_, ?_⟩
        · exact heq
        · rw [h3]; rfl
        · rw [h4]; rfl
        · refine Nat.le_trans ?_ h5
          simp [Path.size]
      | black hl hr =>
        obtain ⟨sc, sv, c2, q', ns, heq, h1, h2, h3, h4, h5⟩ :=
          ihl (.left .black q v r) _ _ hl (.blackL hr hq) (by simp)
        refine ⟨sc, sv, c2, q', ns, ?_, h1, h2, ?_, ?_, ?_⟩
        · exact heq
        · rw [h3]; rfl
        · rw [h4]; rfl
        · refine Nat.le_trans ?_ h5
          simp [Path.size]

/-! ## The full erase operation -/

theorem balanced_rebuild {c c' : Color} {l r : Tree α} {v : α} {n' : Nat}
    (h : Balanced (node c l v r) c' n') :
    c' = c ∧ ∃ nn,
      (c = .red → n' = nn) ∧ (c = .black → n' = nn + 1) ∧
      (∃ cl, Balanced l cl nn ∧ (c = .red → cl = .black)) ∧
      (∃ cr2, Balanced r cr2 nn ∧ (c = .red → cr2 = .black)) ∧
      ∀ (l2 r2 : Tree α) (v2 : α) (cl2 cr3 : Color),
        Balanced l2 cl2 nn → Balanced r2 cr3 nn →
        (c = .red → cl2 = .black ∧ cr3 = .black) →
        Balanced (node c l2 v2 r2) c' n' := by
  cases c with
  | red =>
    obtain ⟨rfl, hl, hr⟩ := balanced_red_inv h
    refine ⟨rfl, n', fun _ => rfl, ?_, ⟨.black, hl, fun _ => rfl⟩,
      ⟨.black, hr, fun _ => rfl⟩, ?_⟩
    · intro h2; exact absurd h2 (by decide)
    · intro l2 r2 v2 cl2 cr3 hl2 hr2 hcond
      obtain ⟨h1, h2⟩ := hcond rfl
      subst h1; subst h2
      exact .red hl2 hr2
  | black =>
    obtain ⟨rfl, m, c₁, c₂, rfl, hl, hr⟩ := balanced_black_inv h
    refine ⟨rfl, m, ?_, fun _ => rfl,
      ⟨c₁, hl, ?_⟩, ⟨c₂, hr, ?_⟩, ?_⟩
    · intro h2; exact absurd h2 (by decide)
    · intro h2; exact absurd h2 (by decide)
    · intro h2; exact absurd h2 (by decide)
    · intro l2 r2 v2 cl2 cr3 hl2 hr2 _
      exact .black hl2 hr2

theorem path_ne_root_of_size {p : Path α} (h : 1 ≤ p.size) : p ≠ .root := by
  cases p with
  | root => simp [Path.size] at h
  | left c parent v r => intro h2; cases h2
  | right c l v parent => intro h2; cases h2

theorem eraseOp_spec {cmp : α → α → Int} (hcmp : LawfulCmp cmp) {t : Tree α}
    {x : α} (hrb : IsRB t) (hs : Sorted cmp t.toList) (hx : x ∈ t.toList) :
    ∃ t' A B, rdx_rb_erase cmp x t = some t' ∧ IsRB t' ∧
      t.toList = A ++ x :: B ∧ t'.toList = A ++ B := by
  obtain ⟨n₀, hbal⟩ := hrb
  obtain ⟨c, l, r, p', hloc⟩ := locate_found cmp x hcmp t .root hx hs
  have hfill : p'.fill (node c l x r) = t := locate_fill cmp x t .root p' _ hloc
  obtain ⟨c', n', hsub, hpb⟩ :=
    locate_pathBal cmp x t .root p' (node c l x r) .black n₀ hbal .root hloc
  have htL : t.toList =
      (p'.listLeft ++ l.toList) ++ x :: (r.toList ++ p'.listRight) := by
    rw [← hfill, Path.toList_fill]
    simp [Tree.toList]
  obtain ⟨rfl, nn, hred, hblk, ⟨cl, hl, hlb⟩, ⟨cr2, hr, hrb2⟩, hreb⟩ :=
    balanced_rebuild hsub
  suffices h : ∃ t', rdx_rb_erase cmp x t = some t' ∧ IsRB t' ∧
      t'.toList = (p'.listLeft ++ l.toList) ++ (r.toList ++ p'.listRight) by
    obtain ⟨t', h1, h2, h3⟩ := h
    exact ⟨t', _, _, h1, h2, htL, h3⟩
  rcases l with _ | ⟨lc, ll, lv, lr⟩
  · -- erased node has no left child (splice Case 1, rbtree_augmented.h:144-160)
    obtain ⟨-, rfl⟩ := balanced_nil_inv hl
    rcases r with _ | ⟨rc, rl, rv, rr⟩
    · -- no children at all
      cases c' with
      | red =>
        have hn0 : n' = 0 := hred rfl
        subst hn0
        have hsp : spliceCases dummyCallbacks .red nil x nil p' =
            .done (p'.fill nil) := by
          simp [spliceCases, propPath_dummy]
        refine ⟨p'.fill nil, ?_, ⟨n₀, PathBal.fill_flex hpb .nil⟩, ?_⟩
        · simp only [rdx_rb_erase, rdx_rb_erase_augmented,
            __rdx_rb_erase_augmented, hloc, hsp]
        · rw [Path.toList_fill]
          simp [Tree.toList]
      | black =>
        have hn1 : n' = 1 := hblk rfl
        subst hn1
        rcases p' with _ | ⟨pc, prnt, pv, pr⟩ | ⟨pc, pl2, pv, prnt⟩
        · -- erasing the single root node
          have hsp : spliceCases dummyCallbacks .black nil x nil
              (Path.root : Path α) = .done nil := by
            simp [spliceCases]
          refine ⟨nil, ?_, ⟨0, .nil⟩, ?_⟩
          · simp only [rdx_rb_erase, rdx_rb_erase_augmented,
              __rdx_rb_erase_augmented, hloc, hsp]
          · simp [Tree.toList, Path.listLeft, Path.listRight]
        · have hsp : spliceCases dummyCallbacks .black nil x nil
              (Path.left pc prnt pv pr) =
              .fixup (Path.left pc prnt pv pr) := by
            simp [spliceCases, propPath_dummy]
          obtain ⟨t'', n'', heqf, hbalf⟩ :=
            eraseFix_spec dummyCallbacks (Path.left pc prnt pv pr).size
              (Path.left pc prnt pv pr) nil 0 n₀ (Nat.le_refl _) hpb .nil
          refine ⟨t'', ?_, ⟨n'', hbalf⟩, ?_⟩
          · simp only [rdx_rb_erase, rdx_rb_erase_augmented,
              __rdx_rb_erase_augmented, hloc, hsp]
            exact heqf
          · rw [eraseFix_toList_aux _ _ nil t'' (Nat.le_refl _) heqf,
              Path.toList_fill]
            simp [Tree.toList]
        · have hsp : spliceCases dummyCallbacks .black nil x nil
              (Path.right pc pl2 pv prnt) =
              .fixup (Path.right pc pl2 pv prnt) := by
            simp [spliceCases, propPath_dummy]
          obtain ⟨t'', n'', heqf, hbalf⟩ :=
            eraseFix_spec dummyCallbacks (Path.right pc pl2 pv prnt).size
              (Path.right pc pl2 pv prnt) nil 0 n₀ (Nat.le_refl _) hpb .nil
          refine ⟨t'', ?_, ⟨n'', hbalf⟩, ?_⟩
          · simp only [rdx_rb_erase, rdx_rb_erase_augmented,
              __rdx_rb_erase_augmented, hloc, hsp]
            exact heqf
          · rw [eraseFix_toList_aux _ _ nil t'' (Nat.le_refl _) heqf,
              Path.toList_fill]
            simp [Tree.toList]
    · -- single right child: it must be a red leaf, recolored to the
      -- erased node's color
      cases c' with
      | red =>
        have := hrb2 rfl
        subst this
        have := balanced_black_zero hr
        cases this
      | black =>
        rcases hrc : rc with _ | _
        · -- rc red: red leaf promoted
          subst hrc
          obtain ⟨-, hrl2, hrr2⟩ := balanced_red_inv hr
          have hrlz := balanced_black_zero hrl2
          have hrrz := balanced_black_zero hrr2
          subst hrlz; subst hrrz
          have hn1 : n' = 1 := hblk rfl
          subst hn1
          have hsp : spliceCases dummyCallbacks .black nil x
              (node .red nil rv nil) p' =
              .done (p'.fill (node .black nil rv nil)) := by
            simp [spliceCases, propPath_dummy]
          refine ⟨p'.fill (node .black nil rv nil), ?_,
            ⟨n₀, PathBal.fill hpb (.black .nil .nil)⟩, ?_⟩
          · simp only [rdx_rb_erase, rdx_rb_erase_augmented,
              __rdx_rb_erase_augmented, hloc, hsp]
          · rw [Path.toList_fill]
            simp [Tree.toList]
        · -- rc black: impossible (black height mismatch)
          subst hrc
          obtain ⟨-, m2, d₁, d₂, hm2, -, -⟩ := balanced_black_inv hr
          exact absurd hm2 (by omega)
  · rcases r with _ | ⟨rc, rl, rv, rr⟩
    · -- single left child (splice Case 1, rbtree_augmented.h:161-167)
      obtain ⟨-, rfl⟩ := balanced_nil_inv hr
      cases c' with
      | red =>
        have := hlb rfl
        subst this
        have := balanced_black_zero hl
        cases this
      | black =>
        rcases hlc2 : lc with _ | _
        · subst hlc2
          obtain ⟨-, hll2, hlr2⟩ := balanced_red_inv hl
          have hllz := balanced_black_zero hll2
          have hlrz := balanced_black_zero hlr2
          subst hllz; subst hlrz
          have hn1 : n' = 1 := hblk rfl
          subst hn1
          have hsp : spliceCases dummyCallbacks .black
              (node .red nil lv nil) x nil p' =
              .done (p'.fill (node .black nil lv nil)) := by
            simp [spliceCases, propPath_dummy]
          refine ⟨p'.fill (node .black nil lv nil), ?_,
            ⟨n₀, PathBal.fill hpb (.black .nil .nil)⟩, ?_⟩
          · simp only [rdx_rb_erase, rdx_rb_erase_augmented,
              __rdx_rb_erase_augmented, hloc, hsp]
          · rw [Path.toList_fill]
            simp [Tree.toList]
        · subst hlc2
          obtain ⟨-, m2, d₁, d₂, hm2, -, -⟩ := balanced_black_inv hl
          exact absurd hm2 (by omega)
    · -- two children
      rcases rl with _ | ⟨rlc, rll, rlv, rlr⟩
      · -- successor is the right child (splice Case 2,
        -- rbtree_augmented.h:168-183)
        rcases rr with _ | ⟨rrc, rrl, rrv, rrr⟩
        · -- child2 NULL
          rcases hrc : rc with _ | _
          · -- successor red: no rebalance
            subst hrc
            obtain ⟨hcr2, hd1, hd2⟩ := balanced_red_inv hr
            obtain ⟨-, h0⟩ := balanced_nil_inv hd1
            subst hcr2
            subst h0
            have hsp : spliceCases dummyCallbacks c' (node lc ll lv lr) x
                (node .red nil rv nil) p' =
                .done (p'.fill (node c' (node lc ll lv lr) rv nil)) := by
              simp [spliceCases, propPath_dummy, dummyCallbacks_compute,
                dummyCallbacks_copy]
            refine ⟨_, ?_, ⟨n₀, PathBal.fill hpb
              (hreb _ _ rv cl .black hl .nil
                (fun hcr => ⟨hlb hcr, rfl⟩))⟩, ?_⟩
            · simp only [rdx_rb_erase, rdx_rb_erase_augmented,
                __rdx_rb_erase_augmented, hloc, hsp]
            · rw [Path.toList_fill]
              simp [Tree.toList]
          · -- successor black with no children: rebalance at the successor
            subst hrc
            obtain ⟨hcr2, m2, d₁, d₂, hm2, hd1, -⟩ := balanced_black_inv hr
            obtain ⟨-, h0⟩ := balanced_nil_inv hd1
            subst hcr2
            obtain rfl : nn = m2 + 1 := hm2
            obtain rfl : m2 = 0 := h0
            have hsp : spliceCases dummyCallbacks c' (node lc ll lv lr) x
                (node .black nil rv nil) p' =
                .fixup (.right c' (node lc ll lv lr) rv p') := by
              simp [spliceCases, propPath_dummy, dummyCallbacks_compute,
                dummyCallbacks_copy]
            have hpfx : PathBal .black n₀
                (Path.right c' (node lc ll lv lr) rv p') .black 1 := by
              cases c' with
              | red =>
                have hclb := hlb rfl
                subst hclb
                have hn1 : n' = 1 := hred rfl
                subst hn1
                exact .redR hl hpb
              | black =>
                have hn2 : n' = 2 := hblk rfl
                subst hn2
                exact .blackR hl hpb
            obtain ⟨t'', n'', heqf, hbalf⟩ :=
              eraseFix_spec dummyCallbacks
                (Path.right c' (node lc ll lv lr) rv p').size
                (Path.right c' (node lc ll lv lr) rv p') nil 0 n₀
                (Nat.le_refl _) hpfx .nil
            refine ⟨t'', ?_, ⟨n'', hbalf⟩, ?_⟩
            · simp only [rdx_rb_erase, rdx_rb_erase_augmented,
                __rdx_rb_erase_augmented, hloc, hsp]
              exact heqf
            · rw [eraseFix_toList_aux _ _ nil t'' (Nat.le_refl _) heqf,
                Path.toList_fill]
              simp [Path.listLeft, Path.listRight, Tree.toList]
        · -- child2 present: a red leaf recolored black
          rcases hrc : rc with _ | _
          · subst hrc
            obtain ⟨-, hd1, hd2⟩ := balanced_red_inv hr
            obtain ⟨-, h0⟩ := balanced_nil_inv hd1
            have := balanced_black_zero (h0 ▸ hd2)
            cases this
          · subst hrc
            obtain ⟨hcr2, m2, d₁, d₂, hm2, hd1, hd2⟩ := balanced_black_inv hr
            obtain ⟨-, h0⟩ := balanced_nil_inv hd1
            subst hcr2
            obtain rfl : nn = m2 + 1 := hm2
            obtain rfl : m2 = 0 := h0
            rcases hrrc : rrc with _ | _
            · subst hrrc
              obtain ⟨-, hrr1, hrr2⟩ := balanced_red_inv hd2
              have h1 := balanced_black_zero hrr1
              have h2 := balanced_black_zero hrr2
              subst h1; subst h2
              have hsp : spliceCases dummyCallbacks c' (node lc ll lv lr) x
                  (node .black nil rv (node .red nil rrv nil)) p' =
                  .done (p'.fill (node c' (node lc ll lv lr) rv
                    (node .black nil rrv nil))) := by
                simp [spliceCases, propPath_dummy, dummyCallbacks_compute,
                  dummyCallbacks_copy]
              refine ⟨_, ?_, ⟨n₀, PathBal.fill hpb
                (hreb _ (node .black nil rrv nil) rv cl .black hl
                  (.black .nil .nil) (fun hcr => ⟨hlb hcr, rfl⟩))⟩, ?_⟩
              · simp only [rdx_rb_erase, rdx_rb_erase_augmented,
                  __rdx_rb_erase_augmented, hloc, hsp]
              · rw [Path.toList_fill]
                simp [Tree.toList]
            · subst hrrc
              obtain ⟨-, m3, e₁, e₂, hm3, -, -⟩ := balanced_black_inv hd2
              exact absurd hm3 (by omega)
      · -- successor is deeper (splice Case 3, rbtree_augmented.h:184-209)
        have hrlne : (node rlc rll rlv rlr : Tree α) ≠ Tree.nil := by
          intro h2; cases h2
        -- set up the relative context for the successor walk
        obtain ⟨sc, sv, c2, q', ns, heqz, hsucc, hqb, hfillq, hLLq, hszq⟩ :
            ∃ sc sv c2 q' ns,
              leftmostZoom (node rlc rll rlv rlr)
                (Path.left rc .root rv rr) = some (sc, sv, c2, q') ∧
              Balanced (node sc nil sv c2) sc ns ∧
              PathBal cr2 nn q' sc ns ∧
              q'.fill (node sc nil sv c2) =
                (Path.left rc .root rv rr).fill (node rlc rll rlv rlr) ∧
              q'.listLeft = (Path.left rc .root rv rr).listLeft ∧
              (Path.left rc .root rv rr).size ≤ q'.size := by
          cases rc with
          | red =>
            obtain ⟨hcr2, hrl2, hrr2⟩ := balanced_red_inv hr
            subst hcr2
            exact leftmostZoom_spec (node rlc rll rlv rlr)
              (Path.left .red .root rv rr) .black nn hrl2
              (.redL hrr2 .root) hrlne
          | black =>
            obtain ⟨hcr2, m2, d₁, d₂, hm2, hd1, hd2⟩ := balanced_black_inv hr
            subst hcr2
            subst hm2
            exact leftmostZoom_spec (node rlc rll rlv rlr)
              (Path.left .black .root rv rr) d₁ m2 hd1
              (.blackL hd2 .root) hrlne
        have hq'ne : q' ≠ Path.root :=
          path_ne_root_of_size (Nat.le_trans (by simp [Path.size]) hszq)
        have hfillr : q'.fill (node sc nil sv c2) =
            node rc (node rlc rll rlv rlr) rv rr := by
          rw [hfillq]; rfl
        have hLLq2 : q'.listLeft = [] := by
          rw [hLLq]; rfl
        rcases c2 with _ | ⟨c2c, c2l, c2v, c2r⟩
        · -- child2 NULL
          rcases hsc : sc with _ | _
          · -- successor red: removing it costs no black height
            subst hsc
            obtain ⟨-, h2, -⟩ := balanced_red_inv hsucc
            obtain ⟨-, hns0⟩ := balanced_nil_inv h2
            subst hns0
            have hsp : spliceCases dummyCallbacks c' (node lc ll lv lr) x
                (node rc (node rlc rll rlv rlr) rv rr) p' =
                .done (p'.fill (node c' (node lc ll lv lr) sv
                  (q'.fill nil))) := by
              simp only [spliceCases, heqz, propPath_dummy,
                dummyCallbacks_compute, dummyCallbacks_copy]
            have hrX : Balanced (q'.fill nil) cr2 nn :=
              PathBal.fill_flex_nonroot hqb .nil hq'ne
            refine ⟨_, ?_, ⟨n₀, PathBal.fill hpb
              (hreb _ _ sv cl cr2 hl hrX
                (fun hcr => ⟨hlb hcr, hrb2 hcr⟩))⟩, ?_⟩
            · simp only [rdx_rb_erase, rdx_rb_erase_augmented,
                __rdx_rb_erase_augmented, hloc, hsp]
            · rw [← hfillr]
              simp [Path.toList_fill, hLLq2, Tree.toList]
          · -- successor black with no children: rebalance at its old parent
            subst hsc
            obtain ⟨-, m2, d₁, d₂, hm2, hd1, -⟩ := balanced_black_inv hsucc
            obtain ⟨-, h0⟩ := balanced_nil_inv hd1
            obtain rfl : ns = m2 + 1 := hm2
            obtain rfl : m2 = 0 := h0
            have hsp : spliceCases dummyCallbacks c' (node lc ll lv lr) x
                (node rc (node rlc rll rlv rlr) rv rr) p' =
                .fixup (q'.append
                  (.right c' (node lc ll lv lr) sv p')) := by
              simp only [spliceCases, heqz, propPath_dummy,
                dummyCallbacks_compute, dummyCallbacks_copy]
            have houter : PathBal .black n₀
                (Path.right c' (node lc ll lv lr) sv p') cr2 nn := by
              cases c' with
              | red =>
                have hclb := hlb rfl
                have hcrb := hrb2 rfl
                subst hclb; subst hcrb
                have hn1 : n' = nn := hred rfl
                subst hn1
                exact .redR hl hpb
              | black =>
                have hn2 : n' = nn + 1 := hblk rfl
                subst hn2
                exact .blackR hl hpb
            have hcomp : PathBal .black n₀
                (q'.append (Path.right c' (node lc ll lv lr) sv p'))
                .black 1 := PathBal.append hqb houter
            obtain ⟨t'', n'', heqf, hbalf⟩ :=
              eraseFix_spec dummyCallbacks
                (q'.append (Path.right c' (node lc ll lv lr) sv p')).size
                (q'.append (Path.right c' (node lc ll lv lr) sv p'))
                nil 0 n₀ (Nat.le_refl _) hcomp .nil
            refine ⟨t'', ?_, ⟨n'', hbalf⟩, ?_⟩
            · simp only [rdx_rb_erase, rdx_rb_erase_augmented,
                __rdx_rb_erase_augmented, hloc, hsp]
              exact heqf
            · rw [eraseFix_toList_aux _ _ nil t'' (Nat.le_refl _) heqf,
                Path.fill_append, ← hfillr]
              simp [Path.fill, Path.toList_fill, hLLq2, Tree.toList]
        · -- child2 is a red leaf, recolored black
          rcases hsc2 : c2c with _ | _
          · subst hsc2
            rcases hsc : sc with _ | _
            · subst hsc
              obtain ⟨-, -, h2⟩ := balanced_red_inv hsucc
              obtain ⟨hcc, -, -⟩ := balanced_red_inv h2
              exact absurd hcc (by decide)
            · subst hsc
              obtain ⟨-, m2, d₁, d₂, hm2, hd1, hd2⟩ := balanced_black_inv hsucc
              obtain ⟨-, h0⟩ := balanced_nil_inv hd1
              obtain rfl : ns = m2 + 1 := hm2
              obtain rfl : m2 = 0 := h0
              obtain ⟨-, hc2l, hc2r⟩ := balanced_red_inv hd2
              have h1 := balanced_black_zero hc2l
              have h2 := balanced_black_zero hc2r
              subst h1; subst h2
              have hsp : spliceCases dummyCallbacks c' (node lc ll lv lr) x
                  (node rc (node rlc rll rlv rlr) rv rr) p' =
                  .done (p'.fill (node c' (node lc ll lv lr) sv
                    (q'.fill (node .black nil c2v nil)))) := by
                simp only [spliceCases, heqz, propPath_dummy,
                  dummyCallbacks_compute, dummyCallbacks_copy]
              have hrX : Balanced (q'.fill (node .black nil c2v nil)) cr2 nn :=
                PathBal.fill hqb (.black .nil .nil)
              refine ⟨_, ?_, ⟨n₀, PathBal.fill hpb
                (hreb _ _ sv cl cr2 hl hrX
                  (fun hcr => ⟨hlb hcr, hrb2 hcr⟩))⟩, ?_⟩
              · simp only [rdx_rb_erase, rdx_rb_erase_augmented,
                  __rdx_rb_erase_augmented, hloc, hsp]
              · rw [← hfillr]
                simp [Path.toList_fill, hLLq2, Tree.toList]
          · -- child2 black: impossible
            subst hsc2
            rcases hsc : sc with _ | _
            · subst hsc
              obtain ⟨-, hx1, h2⟩ := balanced_red_inv hsucc
              obtain ⟨-, h0⟩ := balanced_nil_inv hx1
              obtain ⟨-, m3, e₁, e₂, hm3, -, -⟩ := balanced_black_inv h2
              exact absurd hm3 (by omega)
            · subst hsc
              obtain ⟨-, m2, d₁, d₂, hm2, hd1, hd2⟩ := balanced_black_inv hsucc
              obtain ⟨-, h0⟩ := balanced_nil_inv hd1
              obtain rfl : ns = m2 + 1 := hm2
              obtain rfl : m2 = 0 := h0
              obtain ⟨-, m3, e₁, e₂, hm3, -, -⟩ := balanced_black_inv hd2
              exact absurd hm3 (by omega)

/-! ## Comparator facts -/

theorem intCmp_lawful : LawfulCmp intCmp := by
  refine ⟨?_, ?_, ?_, ?_, ?_⟩
  · intro x; simp [intCmp]
  · intro x y z h1 h2; simp only [intCmp] at *; omega
  · intro x y; simp only [intCmp]; omega
  · intro x y z h; simp only [intCmp] at *; omega
  · intro x y z h; simp only [intCmp] at *; omega

theorem weak_compare_lt (l r : MyNode) :
    weak_compare l r < 0 ↔ l.weak_key < r.weak_key := by
  unfold weak_compare
  split
  · omega
  · split <;> omega

theorem weak_compare_eq (l r : MyNode) :
    weak_compare l r = 0 ↔ l.weak_key = r.weak_key := by
  unfold weak_compare
  split
  · omega
  · split <;> omega

theorem weak_compare_pos (l r : MyNode) :
    0 < weak_compare l r ↔ r.weak_key < l.weak_key := by
  unfold weak_compare
  split
  · omega
  · split <;> omega

theorem weak_compare_lawful : LawfulCmp weak_compare := by
  refine ⟨?_, ?_, ?_, ?_, ?_⟩
  · intro x; rw [weak_compare_eq]
  · intro x y z h1 h2
    rw [weak_compare_lt] at h1 h2 ⊢
    omega
  · intro x y
    rw [weak_compare_lt, weak_compare_pos]
  · intro x y z h
    rw [weak_compare_eq] at h
    rw [weak_compare_lt, weak_compare_lt, h]
  · intro x y z h
    rw [weak_compare_eq] at h
    rw [weak_compare_lt, weak_compare_lt, h]

theorem strict_compare_lt (l r : MyNode) :
    strict_compare l r < 0 ↔
      (l.weak_key < r.weak_key ∨
        (l.weak_key = r.weak_key ∧ l.strict_key < r.strict_key)) := by
  unfold strict_compare
  simp only [ne_eq, weak_compare_eq, ite_not]
  split
  · split <;> rename_i h1 h2
    · omega
    · split <;> omega
  · rw [weak_compare_lt]
    omega

theorem strict_compare_eq (l r : MyNode) :
    strict_compare l r = 0 ↔
      (l.weak_key = r.weak_key ∧ l.strict_key = r.strict_key) := by
  unfold strict_compare
  simp only [ne_eq, weak_compare_eq, ite_not]
  split
  · split <;> rename_i h1 h2
    · omega
    · split <;> omega
  · rw [show weak_compare l r = 0 ↔ _ from weak_compare_eq l r] at *
    omega

theorem strict_compare_pos (l r : MyNode) :
    0 < strict_compare l r ↔
      (r.weak_key < l.weak_key ∨
        (l.weak_key = r.weak_key ∧ r.strict_key < l.strict_key)) := by
  have h1 := strict_compare_lt l r
  have h2 := strict_compare_eq l r
  omega

theorem strict_compare_lawful : LawfulCmp strict_compare := by
  refine ⟨?_, ?_, ?_, ?_, ?_⟩
  · intro x; rw [strict_compare_eq]; exact ⟨rfl, rfl⟩
  · intro x y z h1 h2
    rw [strict_compare_lt] at h1 h2 ⊢
    omega
  · intro x y
    rw [strict_compare_lt, strict_compare_pos]
    omega
  · intro x y z h
    rw [strict_compare_eq] at h
    rw [strict_compare_lt, strict_compare_lt, h.1, h.2]
  · intro x y z h
    rw [strict_compare_eq] at h
    rw [strict_compare_lt, strict_compare_lt, h.1, h.2]

theorem weak_strict_compat_lt (a b : MyNode) :
    weak_compare a b < 0 → strict_compare a b < 0 := by
  rw [weak_compare_lt, strict_compare_lt]
  omega

theorem strict_weak_compat_le (a b : MyNode) :
    strict_compare a b < 0 → weak_compare a b ≤ 0 := by
  rw [strict_compare_lt]
  have h1 := weak_compare_lt a b
  have h2 := weak_compare_eq a b
  omega

theorem LawfulCmp.le_trans {cmp : α → α → Int} (h : LawfulCmp cmp) {a b c : α}
    (h1 : cmp a b ≤ 0) (h2 : cmp b c ≤ 0) : cmp a c ≤ 0 := by
  rcases lt_or_eq_of_le h1 with hlt1 | heq1
  · rcases lt_or_eq_of_le h2 with hlt2 | heq2
    · exact le_of_lt (h.lt_trans hlt1 hlt2)
    · exact le_of_lt ((h.eq_right heq2).1 hlt1)
  · rcases lt_or_eq_of_le h2 with hlt2 | heq2
    · exact le_of_lt ((h.eq_left heq1).2 hlt2)
    · by_contra h3
      push_neg at h3
      have h4 : cmp c a < 0 := h.lt_asymm.2 h3
      have h5 : cmp c b < 0 := (h.eq_right heq1).1 h4
      have h6 : cmp c b = 0 := h.eq_symm heq2
      omega

theorem LawfulCmp.le_flip {cmp : α → α → Int} (h : LawfulCmp cmp) {a b : α} :
    cmp a b ≤ 0 ↔ 0 ≤ cmp b a := by
  constructor
  · intro h1
    rcases lt_or_eq_of_le h1 with hlt | heq
    · have := h.lt_asymm.1 hlt; omega
    · have := h.eq_symm heq; omega
  · intro h1
    by_contra h2
    push_neg at h2
    have := h.lt_asymm.2 h2
    omega

theorem Sorted.erase_middle {cmp : α → α → Int} {A B : List α} {x : α}
    (hs : Sorted cmp (A ++ x :: B)) : Sorted cmp (A ++ B) :=
  List.Pairwise.sublist
    (List.Sublist.append_left (List.sublist_cons_self x B) A) hs

theorem Tree.toList_eq_nil {t : Tree α} (h : t.toList = []) :
    t = Tree.nil := by
  cases t with
  | nil => rfl
  | node c l v r => simp [Tree.toList] at h

/-! ## Claim C4: duplicate rejection -/

theorem insertDescend_dup {cmp : α → α → Int} (hcmp : LawfulCmp cmp) (x : α) :
    ∀ (t : Tree α) (p : Path α), Sorted cmp t.toList →
      (∃ y ∈ t.toList, cmp x y = 0) → insertDescend cmp x t p = none := by
  intro t
  induction t with
  | nil =>
    intro p hs hdup
    obtain ⟨y, hy, -⟩ := hdup
    simp [Tree.toList] at hy
  | node c l v r ihl ihr =>
    intro p hs hdup
    obtain ⟨y, hy, hy0⟩ := hdup
    have hsM : Sorted cmp (v :: r.toList) := by
      have : Sorted cmp (l.toList ++ (v :: r.toList) ++ []) := by
        simpa [Tree.toList] using hs
      exact Sorted.of_middle this
    have hsl : Sorted cmp l.toList := by
      have : Sorted cmp ([] ++ l.toList ++ (v :: r.toList)) := by
        simpa [Tree.toList] using hs
      exact Sorted.of_middle this
    have hsr : Sorted cmp r.toList := (List.pairwise_cons.1 hsM).2
    have hvr : ∀ b ∈ r.toList, cmp v b < 0 := (List.pairwise_cons.1 hsM).1
    have hlv : ∀ a ∈ l.toList, ∀ b ∈ v :: r.toList, cmp a b < 0 := by
      have : Sorted cmp (l.toList ++ v :: r.toList) := by
        simpa [Tree.toList] using hs
      exact (List.pairwise_append.1 this).2.2
    simp only [Tree.toList, List.mem_append, List.mem_cons] at hy
    by_cases hlt : cmp x v < 0
    · have hred : insertDescend cmp x (node c l v r) p =
          insertDescend cmp x l (.left c p v r) := by
        simp [insertDescend, hlt]
      rw [hred]
      rcases hy with hy | rfl | hy
      · exact ihl _ hsl ⟨y, hy, hy0⟩
      · omega
      · have h1 : cmp v y < 0 := hvr y hy
        have h2 : cmp x y < 0 := hcmp.lt_trans hlt h1
        omega
    · by_cases hgt : 0 < cmp x v
      · have hred : insertDescend cmp x (node c l v r) p =
            insertDescend cmp x r (.right c l v p) := by
        -- placeholder indent
          simp [insertDescend, hlt, hgt]
        rw [hred]
        rcases hy with hy | rfl | hy
        · have h1 : cmp y v < 0 := hlv y hy v (List.mem_cons_self v _)
          have h2 : cmp x v < 0 := (hcmp.eq_left hy0).2 h1
          omega
        · omega
        · exact ihr _ hsr ⟨y, hy, hy0⟩
      · simp [insertDescend, hlt, hgt]

/-- C4: an element that compares equal, under the strict comparator, with a
resident node of a sorted tree makes `rdx_rb_insert` return `NULL` and leave
the tree unmodified. -/
theorem C4_duplicate_reject {cmp : α → α → Int} (hcmp : LawfulCmp cmp)
    {t : Tree α} {x : α} (hs : Sorted cmp t.toList)
    (hdup : ∃ y ∈ t.toList, cmp x y = 0) :
    rdx_rb_insert cmp t x = (none, t) := by
  unfold rdx_rb_insert
  rw [insertDescend_dup hcmp x t .root hs hdup]

theorem C4_duplicate_reject_witness :
    Sorted intCmp (Tree.node .black Tree.nil (5 : Int) Tree.nil).toList ∧
    rdx_rb_insert intCmp (Tree.node .black Tree.nil (5 : Int) Tree.nil) 5 =
      (none, Tree.node .black Tree.nil (5 : Int) Tree.nil) := by
  constructor
  · decide
  · exact C4_duplicate_reject intCmp_lawful (by decide)
      ⟨5, by decide, by decide⟩


/-! ## Claim C3: what `rdx_rb_insert` does (and does not) do -/

/-- C3 (counterexample): `rdx_rb_insert` performs no insertion rebalancing:
inserting into an empty tree leaves a RED root, so the red-black invariants
(root BLACK) do not hold when the call returns. -/
theorem C3_insert_rebalances_cex :
    rdx_rb_insert intCmp Tree.nil (1 : Int) =
      (some 1, Tree.node .red Tree.nil 1 Tree.nil) ∧
    ¬ IsRB (Tree.node .red Tree.nil (1 : Int) Tree.nil) := by
  refine ⟨rfl, ?_⟩
  rintro ⟨n, h⟩
  obtain ⟨hc, -, -⟩ := balanced_red_inv h
  exact absurd hc (by decide)

/-- C3 (amended): on a strict-order-distinct element, `rdx_rb_insert` links
the element RED at the empty slot found by strict-comparator descent (in
order) and returns the inserted element — but performs no rebalancing: the
returned tree is exactly the linked tree, and restoring the red-black
invariants is the separate `rdx_rb_insert_color` entry point's job. -/
theorem C3_insert_links_at_slot {cmp : α → α → Int} (hcmp : LawfulCmp cmp)
    {t : Tree α} {x : α} (hs : Sorted cmp t.toList)
    (hx : ∀ y ∈ t.toList, cmp x y ≠ 0) :
    ∃ p A B, insertDescend cmp x t .root = some p ∧
      rdx_rb_insert cmp t x = (some x, rdx_rb_link_node x p) ∧
      rdx_rb_link_node x p = Path.fill p (Tree.node .red Tree.nil x Tree.nil) ∧
      t.toList = A ++ B ∧
      (rdx_rb_link_node x p).toList = A ++ x :: B ∧
      (∀ a ∈ A, cmp a x < 0) ∧ (∀ b ∈ B, cmp x b < 0) := by
  obtain ⟨p, hdesc⟩ := insertDescend_isSome cmp x t .root hx
  have hs0 : Sorted cmp (Path.root.listLeft ++ t.toList ++ Path.root.listRight) := by
    simpa [Path.listLeft, Path.listRight] using hs
  obtain ⟨hsplit, hA, hB⟩ := insertDescend_bounds cmp x hcmp t .root p hdesc hs0
    (by intro y hy; simp [Path.listLeft] at hy)
    (by intro y hy; simp [Path.listRight] at hy)
  refine ⟨p, p.listLeft, p.listRight, hdesc, ?_, rfl, ?_, ?_, hA, hB⟩
  · unfold rdx_rb_insert
    rw [hdesc]
  · have := hsplit
    simpa [Path.listLeft, Path.listRight] using this.symm
  · unfold rdx_rb_link_node
    rw [Path.toList_fill]
    simp [Tree.toList]

theorem C3_insert_links_at_slot_witness :
    Sorted intCmp (Tree.node .black Tree.nil (5 : Int) Tree.nil).toList ∧
    (∀ y ∈ (Tree.node .black Tree.nil (5 : Int) Tree.nil).toList,
      intCmp 7 y ≠ 0) ∧
    ∃ p A B, insertDescend intCmp 7
        (Tree.node .black Tree.nil (5 : Int) Tree.nil) .root = some p ∧
      rdx_rb_insert intCmp (Tree.node .black Tree.nil (5 : Int) Tree.nil) 7 =
        (some 7, rdx_rb_link_node 7 p) ∧
      rdx_rb_link_node 7 p =
        Path.fill p (Tree.node .red Tree.nil 7 Tree.nil) ∧
      (Tree.node .black Tree.nil (5 : Int) Tree.nil).toList = A ++ B ∧
      (rdx_rb_link_node 7 p).toList = A ++ 7 :: B ∧
      (∀ a ∈ A, intCmp a 7 < 0) ∧ (∀ b ∈ B, intCmp 7 b < 0) :=
  ⟨by decide, by decide,
    C3_insert_links_at_slot intCmp_lawful (by decide) (by decide)⟩

/-! ## Claim C9: the fast in-place replace -/

/-- C9 (counterexample): `rdx_rb_replace_node` does not perform the
augmentation copy step: the replacement keeps its own stored aggregate (`7`)
instead of receiving the victim's (`5`). Payloads are compared by
`payloadCmp intCmp`, so the replacement occupies the victim's slot while the
victim's aggregate value is gone from the tree. -/
theorem C9_replace_copies_aggregate_cex :
    rdx_rb_replace_node (payloadCmp intCmp)
        ((1 : Int), (5 : Int)) ((1 : Int), (7 : Int))
        (Tree.node .black Tree.nil ((1 : Int), (5 : Int)) Tree.nil) =
      Tree.node .black Tree.nil ((1 : Int), (7 : Int)) Tree.nil ∧
    ((1 : Int), (7 : Int)).2 ≠ ((1 : Int), (5 : Int)).2 := by
  exact ⟨by decide, by decide⟩

/-- C9 (amended): the fast in-place replace splices the replacement into the
victim's exact position — the victim's parent context, children and color
are all taken over — with no rebalancing; but no augmentation copy step is
involved: the replacement keeps its own stored fields, while the generated
`copy` callback (which `rdx_rb_replace_node` never invokes) is the one that
copies the old aggregate verbatim. -/
theorem C9_replace_exact_position {γ A2 : Type} {pcmp : γ → γ → Int}
    {victim newV : γ × A2} {t : Tree (γ × A2)} {c : Color}
    {l r : Tree (γ × A2)} {v : γ × A2} {p : Path (γ × A2)}
    (hloc : locate (payloadCmp pcmp) victim t .root = some (node c l v r, p)) :
    rdx_rb_replace_node (payloadCmp pcmp) victim newV t =
      Path.fill p (Tree.node c l newV r) ∧
    (∀ o n : γ × A2, (declaredCopy o n).2 = o.2 ∧ (declaredCopy o n).1 = n.1) := by
  constructor
  · unfold rdx_rb_replace_node
    rw [hloc]
  · intro o n
    exact ⟨rfl, rfl⟩

theorem C9_replace_exact_position_witness :
    rdx_rb_replace_node (payloadCmp intCmp)
        ((2 : Int), (5 : Int)) ((2 : Int), (9 : Int))
        (Tree.node .black
          (Tree.node .red Tree.nil ((1 : Int), (1 : Int)) Tree.nil)
          ((2 : Int), (5 : Int)) Tree.nil) =
      Path.fill (Path.root)
        (Tree.node .black
          (Tree.node .red Tree.nil ((1 : Int), (1 : Int)) Tree.nil)
          ((2 : Int), (9 : Int)) Tree.nil) ∧
    (∀ o n : Int × Int, (declaredCopy o n).2 = o.2 ∧ (declaredCopy o n).1 = n.1) :=
  @C9_replace_exact_position Int Int intCmp ((2 : Int), (5 : Int))
    ((2 : Int), (9 : Int))
    (Tree.node .black
      (Tree.node .red Tree.nil ((1 : Int), (1 : Int)) Tree.nil)
      ((2 : Int), (5 : Int)) Tree.nil)
    .black (Tree.node .red Tree.nil ((1 : Int), (1 : Int)) Tree.nil)
    Tree.nil ((2 : Int), (5 : Int)) Path.root (by decide)

/-! ## Claim C10: safety of the deletion color fixup -/

/-- C10: when the red-black invariants held before the erase — expressed as
a balanced context (`PathBal`, whose shape forces the deficit child's
sibling chain to exist) around a balanced deficit subtree one black level
short — the deletion color fixup never dereferences `NULL`: the modelled
dereferences (`none` results at rbtree.c:217, 229, 311, 315) are unreachable
and the fixup returns a tree. -/
theorem C10_erase_fixup_safe (cb : Callbacks α) {p : Path α} {t : Tree α}
    {n n₀ : Nat} (hp : PathBal .black n₀ p .black (n + 1))
    (ht : Balanced t .black n) :
    ∃ t'', ____rdx_rb_erase_color cb t p = some t'' := by
  obtain ⟨t'', n'', heq, -⟩ :=
    eraseFix_spec cb p.size p t n n₀ (Nat.le_refl _) hp ht
  exact ⟨t'', heq⟩

theorem C10_erase_fixup_safe_witness :
    ∃ t'', ____rdx_rb_erase_color dummyCallbacks (Tree.nil : Tree Int)
      (Path.left .black .root 2 (Tree.node .black Tree.nil 5 Tree.nil)) =
        some t'' :=
  C10_erase_fixup_safe dummyCallbacks
    (.blackL (.black .nil .nil) .root) .nil


/-! ## Claim C1: the red-black invariants along reachable states -/

theorem reachable_invariants {cmp : α → α → Int} (hcmp : LawfulCmp cmp)
    {t : Tree α} {i d : Nat} (h : Reachable cmp t i d) :
    IsRB t ∧ Sorted cmp t.toList ∧ t.toList.length + d = i := by
  induction h with
  | empty => exact ⟨⟨0, .nil⟩, List.Pairwise.nil, rfl⟩
  | insert hr hx heq ih =>
    obtain ⟨hrb, hs, hlen⟩ := ih
    obtain ⟨t'', A, B, heq2, hrb', h1, h2, hA, hB⟩ :=
      insertOp_spec hcmp hrb hs hx
    rw [heq] at heq2
    obtain rfl := Option.some.inj heq2
    refine ⟨hrb', ?_, ?_⟩
    · rw [h2]
      exact Sorted.insert_middle (h1 ▸ hs) hA hB
    · rw [h1] at hlen
      rw [h2]
      simp only [List.length_append, List.length_cons] at *
      omega
  | erase hr hx heq ih =>
    obtain ⟨hrb, hs, hlen⟩ := ih
    obtain ⟨t'', A, B, heq2, hrb', h1, h2⟩ := eraseOp_spec hcmp hrb hs hx
    rw [heq] at heq2
    obtain rfl := Option.some.inj heq2
    refine ⟨hrb', ?_, ?_⟩
    · rw [h2]
      exact Sorted.erase_middle (h1 ▸ hs)
    · rw [h1] at hlen
      rw [h2]
      simp only [List.length_append, List.length_cons] at *
      omega

/-- C1: every tree reachable through the public mutating operations
(insertion of a strict-order-distinct element, erasure of a resident
element) satisfies the red-black invariants when the operation returns:
`IsRB` packs the five properties of spec §3 — nodes are RED or BLACK by
construction of `Color`, `Balanced _ .black _` forces a BLACK root, `nil`
children count as BLACK (`Balanced.nil`), a RED node has BLACK children
(`Balanced.red`), and the black height `n` is the same along every path. -/
theorem C1_reachable_rb_invariants {cmp : α → α → Int} (hcmp : LawfulCmp cmp)
    {t : Tree α} {i d : Nat} (h : Reachable cmp t i d) : IsRB t :=
  (reachable_invariants hcmp h).1

theorem C1_reachable_rb_invariants_witness :
    IsRB (Tree.node .black Tree.nil (2 : Int) Tree.nil) :=
  C1_reachable_rb_invariants intCmp_lawful
    (Reachable.insert Reachable.empty (by decide) rfl)


/-! ## Claims C5 and C6: the weak-comparator boundary scans -/

theorem getLast?_cons_or (v : α) (Y : List α) :
    (v :: Y).getLast? = Y.getLast?.or (some v) := by
  induction Y generalizing v with
  | nil => rfl
  | cons b Y ih =>
    rw [List.getLast?_cons_cons, ih b]
    cases Y.getLast? <;> rfl

theorem getLast?_append_cons (X : List α) (v : α) (Y : List α) :
    (X ++ v :: Y).getLast? = (v :: Y).getLast? := by
  induction X with
  | nil => rfl
  | cons a X ih =>
    cases X with
    | nil => rw [List.cons_append, List.nil_append, List.getLast?_cons_cons]
    | cons b X2 =>
      rw [List.cons_append, List.cons_append, List.getLast?_cons_cons,
        ← List.cons_append]
      exact ih

theorem rightmostLEGo_correct {wcmp scmp : α → α → Int} (hw : LawfulCmp wcmp)
    (hc : ∀ a b : α, scmp a b < 0 → wcmp a b ≤ 0) (elem : α) :
    ∀ (t : Tree α) (best : Option α), Sorted scmp t.toList →
      rightmostLEGo wcmp elem t best =
        ((t.toList.filter (fun y => wcmp y elem ≤ 0)).getLast?).or best := by
  intro t
  induction t with
  | nil => intro best hs; simp [rightmostLEGo, Tree.toList]
  | node c l v r ihl ihr =>
    intro best hs
    have hsl : Sorted scmp l.toList := by
      refine Sorted.of_middle (A := []) (B := v :: r.toList) ?_
      simpa [Tree.toList] using hs
    have hsr : Sorted scmp r.toList := by
      have hsM : Sorted scmp (v :: r.toList) := by
        refine Sorted.of_middle (A := l.toList) (B := []) ?_
        simpa [Tree.toList] using hs
      exact (List.pairwise_cons.1 hsM).2
    have hvr : ∀ b ∈ r.toList, scmp v b < 0 := by
      have hsM : Sorted scmp (v :: r.toList) := by
        refine Sorted.of_middle (A := l.toList) (B := []) ?_
        simpa [Tree.toList] using hs
      exact (List.pairwise_cons.1 hsM).1
    by_cases hp : wcmp v elem ≤ 0
    · have hor : wcmp v elem < 0 ∨ wcmp v elem = 0 := by omega
      have hred : rightmostLEGo wcmp elem (node c l v r) best =
          rightmostLEGo wcmp elem r (some v) := by
        simp [rightmostLEGo, hor]
      rw [hred, ihr (some v) hsr]
      simp only [Tree.toList, List.filter_append, List.filter_cons]
      rw [if_pos (by simpa using hp)]
      rw [getLast?_append_cons, getLast?_cons_or, Option.or_assoc]
      rfl
    · have hnor : ¬ (wcmp v elem < 0 ∨ wcmp v elem = 0) := by omega
      have hred : rightmostLEGo wcmp elem (node c l v r) best =
          rightmostLEGo wcmp elem l best := by
        simp [rightmostLEGo, hnor]
      have hrn : r.toList.filter (fun y => wcmp y elem ≤ 0) = [] := by
        rw [List.filter_eq_nil_iff]
        intro z hz
        simp only [decide_eq_true_eq]
        intro hzle
        have h1 : wcmp v z ≤ 0 := hc v z (hvr z hz)
        have h2 : wcmp v elem ≤ 0 := hw.le_trans h1 hzle
        omega
      rw [hred, ihl best hsl]
      simp only [Tree.toList, List.filter_append, List.filter_cons]
      rw [if_neg (by simpa using hp), hrn, List.append_nil]

/-- C5: on a tree sorted under the strict comparator whose weak order is
compatible with it (a strictly-smaller element is weakly no larger — the
spec's contiguous-tie-classes condition), `rdx_rb_rightmost_less_equiv`
returns the strict-order-rightmost (last in the in-order list) resident
element whose weak comparison to the query is at most zero, and `none` when
no resident element weakly compares ≤ 0 to it: its result is the last
element of the in-order list filtered by `weak_compare · elem ≤ 0`. -/
theorem C5_rightmost_less_equiv {wcmp scmp : α → α → Int}
    (hw : LawfulCmp wcmp) (hc : ∀ a b : α, scmp a b < 0 → wcmp a b ≤ 0)
    {t : Tree α} (hs : Sorted scmp t.toList) (elem : α) :
    rdx_rb_rightmost_less_equiv wcmp t elem =
      (t.toList.filter (fun y => wcmp y elem ≤ 0)).getLast? := by
  unfold rdx_rb_rightmost_less_equiv
  rw [rightmostLEGo_correct hw hc elem t none hs]
  cases (t.toList.filter (fun y => wcmp y elem ≤ 0)).getLast? <;> rfl

theorem C5_rightmost_less_equiv_witness :
    (rdx_rb_rightmost_less_equiv weak_compare demoTreeLE ⟨99, 3⟩ =
      (demoTreeLE.toList.filter
        (fun y => weak_compare y ⟨99, 3⟩ ≤ 0)).getLast?) ∧
    (demoTreeLE.toList.filter
        (fun y => weak_compare y ⟨99, 3⟩ ≤ 0)).getLast? =
      some ⟨4, 3⟩ ∧
    (⟨4, 3⟩ : MyNode).weak_key = 3 ∧
    demoTreeLE.toList.map MyNode.weak_key = [0, 1, 1, 3, 3, 4] :=
  ⟨C5_rightmost_less_equiv weak_compare_lawful strict_weak_compat_le
      (by decide) ⟨99, 3⟩,
    by decide, by decide, by decide⟩

theorem leftmostGEGo_correct {wcmp scmp : α → α → Int} (hw : LawfulCmp wcmp)
    (hc : ∀ a b : α, scmp a b < 0 → wcmp a b ≤ 0) (elem : α) :
    ∀ (t : Tree α) (best : Option α), Sorted scmp t.toList →
      leftmostGEGo wcmp elem t best =
        ((t.toList.filter (fun y => 0 ≤ wcmp y elem)).head?).or best := by
  intro t
  induction t with
  | nil => intro best hs; simp [leftmostGEGo, Tree.toList]
  | node c l v r ihl ihr =>
    intro best hs
    have hsl : Sorted scmp l.toList := by
      refine Sorted.of_middle (A := []) (B := v :: r.toList) ?_
      simpa [Tree.toList] using hs
    have hsr : Sorted scmp r.toList := by
      have hsM : Sorted scmp (v :: r.toList) := by
        refine Sorted.of_middle (A := l.toList) (B := []) ?_
        simpa [Tree.toList] using hs
      exact (List.pairwise_cons.1 hsM).2
    have hlv : ∀ a ∈ l.toList, scmp a v < 0 := by
      have hcross : ∀ a ∈ l.toList, ∀ b ∈ v :: r.toList, scmp a b < 0 := by
        have : Sorted scmp (l.toList ++ v :: r.toList) := by
          simpa [Tree.toList] using hs
        exact (List.pairwise_append.1 this).2.2
      intro a ha
      exact hcross a ha v (List.mem_cons_self v _)
    by_cases hp : 0 ≤ wcmp v elem
    · have hor : 0 < wcmp v elem ∨ wcmp v elem = 0 := by omega
      have hred : leftmostGEGo wcmp elem (node c l v r) best =
          leftmostGEGo wcmp elem l (some v) := by
        simp [leftmostGEGo, hor]
      rw [hred, ihl (some v) hsl]
      simp only [Tree.toList, List.filter_append, List.filter_cons]
      rw [if_pos (by simpa using hp)]
      rw [List.head?_append, List.head?_cons, Option.or_assoc]
      rfl
    · have hnor : ¬ (0 < wcmp v elem ∨ wcmp v elem = 0) := by omega
      have hred : leftmostGEGo wcmp elem (node c l v r) best =
          leftmostGEGo wcmp elem r best := by
        simp [leftmostGEGo, hnor]
      have hln : l.toList.filter (fun y => 0 ≤ wcmp y elem) = [] := by
        rw [List.filter_eq_nil_iff]
        intro z hz
        simp only [decide_eq_true_eq]
        intro hzge
        have h1 : wcmp z v ≤ 0 := hc z v (hlv z hz)
        have h2 : wcmp elem z ≤ 0 := hw.le_flip.2 hzge
        have h3 : wcmp elem v ≤ 0 := hw.le_trans h2 h1
        have h4 : 0 ≤ wcmp v elem := hw.le_flip.1 h3
        omega
      rw [hred, ihr best hsr]
      simp only [Tree.toList, List.filter_append, List.filter_cons]
      rw [if_neg (by simpa using hp), hln, List.nil_append]

/-- C6: symmetrically, `rdx_rb_leftmost_greater_equiv` on a
strict-comparator-sorted tree with a compatible weak order returns the
strict-order-leftmost (first in the in-order list) resident element whose
weak comparison to the query is at least zero, and `none` when none
qualifies: its result is the head of the in-order list filtered by
`0 ≤ weak_compare · elem`. -/
theorem C6_leftmost_greater_equiv {wcmp scmp : α → α → Int}
    (hw : LawfulCmp wcmp) (hc : ∀ a b : α, scmp a b < 0 → wcmp a b ≤ 0)
    {t : Tree α} (hs : Sorted scmp t.toList) (elem : α) :
    rdx_rb_leftmost_greater_equiv wcmp t elem =
      (t.toList.filter (fun y => 0 ≤ wcmp y elem)).head? := by
  unfold rdx_rb_leftmost_greater_equiv
  rw [leftmostGEGo_correct hw hc elem t none hs]
  cases (t.toList.filter (fun y => 0 ≤ wcmp y elem)).head? <;> rfl

theorem C6_leftmost_greater_equiv_witness :
    (rdx_rb_leftmost_greater_equiv weak_compare demoTreeGE ⟨99, 2⟩ =
      (demoTreeGE.toList.filter
        (fun y => 0 ≤ weak_compare y ⟨99, 2⟩)).head?) ∧
    (demoTreeGE.toList.filter
        (fun y => 0 ≤ weak_compare y ⟨99, 2⟩)).head? = some ⟨2, 3⟩ ∧
    rdx_rb_leftmost_greater_equiv weak_compare demoTreeGE ⟨99, 1⟩ =
      some ⟨1, 1⟩ ∧
    rdx_rb_leftmost_greater_equiv weak_compare demoTreeGE ⟨99, 4⟩ = none :=
  ⟨C6_leftmost_greater_equiv weak_compare_lawful strict_weak_compat_le
      (by decide) ⟨99, 2⟩,
    by decide, by decide, by decide⟩


/-! ## Claim C8: in-order iteration -/

theorem rdx_rb_first_head (t : Tree α) : rdx_rb_first t = t.toList.head? := by
  induction t with
  | nil => rfl
  | node c l v r ihl ihr =>
    cases l with
    | nil => simp [rdx_rb_first, Tree.toList]
    | node c2 l2 v2 r2 =>
      rw [rdx_rb_first, ihl]
      rcases hh : (node c2 l2 v2 r2).toList with _ | ⟨a, L⟩
      · simp [Tree.toList] at hh
      · rw [show (node c (node c2 l2 v2 r2) v r).toList =
            (node c2 l2 v2 r2).toList ++ v :: r.toList from rfl, hh]
        simp

theorem walkUpNext_head (p : Path α) : walkUpNext p = p.listRight.head? := by
  induction p with
  | root => rfl
  | left c parent v r ih => simp [walkUpNext, Path.listRight]
  | right c l v parent ih => simp [walkUpNext, Path.listRight, ih]

theorem Tree.size_eq_toList_length (t : Tree α) :
    t.size = t.toList.length := by
  induction t with
  | nil => rfl
  | node c l v r ihl ihr => simp [Tree.size, Tree.toList, ihl, ihr]; omega

theorem append_cons_inj {x : α} :
    ∀ {A : List α} {C B D : List α}, A ++ x :: B = C ++ x :: D →
      x ∉ A → x ∉ C → A = C ∧ B = D := by
  intro A
  induction A with
  | nil =>
    intro C B D h hxA hxC
    cases C with
    | nil => simpa using h
    | cons c C2 =>
      simp only [List.nil_append, List.cons_append, List.cons.injEq] at h
      obtain ⟨rfl, h2⟩ := h
      exact absurd (List.mem_cons_self _ _) hxC
  | cons a A2 ih =>
    intro C B D h hxA hxC
    cases C with
    | nil =>
      simp only [List.cons_append, List.nil_append, List.cons.injEq] at h
      obtain ⟨rfl, h2⟩ := h
      exact absurd (List.mem_cons_self _ _) hxA
    | cons c C2 =>
      simp only [List.cons_append, List.cons.injEq] at h
      obtain ⟨rfl, h2⟩ := h
      have hxA2 : x ∉ A2 := fun hh => hxA (List.mem_cons_of_mem _ hh)
      have hxC2 : x ∉ C2 := fun hh => hxC (List.mem_cons_of_mem _ hh)
      obtain ⟨rfl, rfl⟩ := ih h2 hxA2 hxC2
      exact ⟨rfl, rfl⟩

theorem not_mem_left_of_sorted {cmp : α → α → Int} (hcmp : LawfulCmp cmp)
    {A B : List α} {x : α} (hs : Sorted cmp (A ++ x :: B)) : x ∉ A := by
  intro hx
  have := (List.pairwise_append.1 hs).2.2 x hx x (List.mem_cons_self _ _)
  rw [hcmp.refl] at this
  omega

theorem rdx_rb_next_eq {cmp : α → α → Int} (hcmp : LawfulCmp cmp)
    {t : Tree α} {A B : List α} {x : α} (hs : Sorted cmp t.toList)
    (hsplit : t.toList = A ++ x :: B) : rdx_rb_next cmp t x = B.head? := by
  have hx : x ∈ t.toList := by rw [hsplit]; simp
  obtain ⟨c, l, r, p, hloc⟩ := locate_found cmp x hcmp t .root hx hs
  have hfill : p.fill (node c l x r) = t :=
    locate_fill cmp x t .root p _ hloc
  have htL : t.toList =
      (p.listLeft ++ l.toList) ++ x :: (r.toList ++ p.listRight) := by
    rw [← hfill, Path.toList_fill]
    simp [Tree.toList]
  have hxA : x ∉ A := not_mem_left_of_sorted hcmp (hsplit ▸ hs)
  have hxA2 : x ∉ p.listLeft ++ l.toList :=
    not_mem_left_of_sorted hcmp (htL ▸ hs)
  obtain ⟨-, hB⟩ := append_cons_inj (htL.symm.trans hsplit) hxA2 hxA
  cases r with
  | nil =>
    simp only [rdx_rb_next, hloc, walkUpNext_head]
    rw [← hB]
    simp [Tree.toList]
  | node rc rl rv rr =>
    simp only [rdx_rb_next, hloc, rdx_rb_first_head]
    rw [← hB]
    rcases hh : (node rc rl rv rr).toList with _ | ⟨a, L⟩
    · simp [Tree.toList] at hh
    · simp [hh]

theorem iterNexts_suffix {cmp : α → α → Int} (hcmp : LawfulCmp cmp)
    {t : Tree α} (hs : Sorted cmp t.toList) :
    ∀ (B A : List α) (x : α), t.toList = A ++ x :: B →
      iterNexts cmp t (B.length + 1) (some x) = x :: B := by
  intro B
  induction B with
  | nil =>
    intro A x hsplit
    have hnext := rdx_rb_next_eq hcmp hs hsplit
    simp [iterNexts, hnext]
  | cons b B2 ih =>
    intro A x hsplit
    have hnext : rdx_rb_next cmp t x = some b := by
      rw [rdx_rb_next_eq hcmp hs hsplit]
      rfl
    have hsplit2 : t.toList = (A ++ [x]) ++ b :: B2 := by simp [hsplit]
    have hrec := ih (A ++ [x]) b hsplit2
    simp only [List.length_cons]
    rw [iterNexts, hnext, hrec]

theorem iterList_eq_toList {cmp : α → α → Int} (hcmp : LawfulCmp cmp)
    {t : Tree α} (hs : Sorted cmp t.toList) : iterList cmp t = t.toList := by
  unfold iterList
  rw [rdx_rb_first_head, Tree.size_eq_toList_length]
  rcases ht : t.toList with _ | ⟨a, L⟩
  · simp [iterNexts]
  · rw [List.head?_cons, List.length_cons]
    exact iterNexts_suffix hcmp hs L [] a (by simp [ht])

/-- C8: for every tree produced by a sequence of successful inserts and
erases, iterating `rdx_rb_next` from `rdx_rb_first` yields exactly the
in-order value list — the resident elements in strictly increasing
strict-comparator order — and the number of elements yielded plus the number
of successful erases equals the number of successful inserts. -/
theorem C8_iteration_order {cmp : α → α → Int} (hcmp : LawfulCmp cmp)
    {t : Tree α} {i d : Nat} (h : Reachable cmp t i d) :
    iterList cmp t = t.toList ∧ Sorted cmp (iterList cmp t) ∧
      (iterList cmp t).length + d = i := by
  obtain ⟨hrb, hs, hlen⟩ := reachable_invariants hcmp h
  have he := iterList_eq_toList hcmp hs
  refine ⟨he, ?_, ?_⟩
  · rw [he]; exact hs
  · rw [he]; exact hlen

theorem C8_iteration_order_witness :
    iterList intCmp (Tree.node .black Tree.nil (1 : Int) Tree.nil) =
      (Tree.node .black Tree.nil (1 : Int) Tree.nil).toList ∧
    Sorted intCmp
      (iterList intCmp (Tree.node .black Tree.nil (1 : Int) Tree.nil)) ∧
    (iterList intCmp (Tree.node .black Tree.nil (1 : Int) Tree.nil)).length
      + 1 = 2 :=
by
  have h1 : Reachable intCmp (Tree.node .black Tree.nil (2 : Int) Tree.nil)
      1 0 :=
    @Reachable.insert Int intCmp Tree.nil
      (Tree.node .black Tree.nil 2 Tree.nil) 2 0 0
      Reachable.empty (by decide) rfl
  have h2 : Reachable intCmp
      (Tree.node .black (Tree.node .red Tree.nil (1 : Int) Tree.nil) 2
        Tree.nil) 2 0 :=
    @Reachable.insert Int intCmp (Tree.node .black Tree.nil 2 Tree.nil)
      (Tree.node .black (Tree.node .red Tree.nil 1 Tree.nil) 2 Tree.nil)
      1 1 0 h1 (by decide) rfl
  have h3 : Reachable intCmp (Tree.node .black Tree.nil (1 : Int) Tree.nil)
      2 1 :=
    @Reachable.erase Int intCmp
      (Tree.node .black (Tree.node .red Tree.nil 1 Tree.nil) 2 Tree.nil)
      (Tree.node .black Tree.nil 1 Tree.nil) 2 2 0 h2 (by decide) rfl
  exact C8_iteration_order intCmp_lawful h3


/-! ## Claim C7: round trip -/

theorem insertAll_spec {cmp : α → α → Int} (hcmp : LawfulCmp cmp) :
    ∀ (xs : List α) (t : Tree α), IsRB t → Sorted cmp t.toList →
      (∀ x ∈ xs, ∀ y ∈ t.toList, cmp x y ≠ 0) →
      xs.Pairwise (fun a b => cmp a b ≠ 0) →
      ∃ t', insertAll cmp xs t = some t' ∧ IsRB t' ∧
        Sorted cmp t'.toList ∧ t'.toList.Perm (t.toList ++ xs) := by
  intro xs
  induction xs with
  | nil =>
    intro t hrb hs hx hp
    exact ⟨t, rfl, hrb, hs, by simp⟩
  | cons x xs2 ih =>
    intro t hrb hs hx hp
    obtain ⟨t1, A, B, heq, hrb1, h1, h2, hA, hB⟩ :=
      insertOp_spec hcmp hrb hs
        (fun y hy => hx x (List.mem_cons_self _ _) y hy)
    have hs1 : Sorted cmp t1.toList := by
      rw [h2]
      exact Sorted.insert_middle (h1 ▸ hs) hA hB
    have hperm1 : t1.toList.Perm (x :: t.toList) := by
      rw [h2, h1]
      exact List.perm_middle
    have hx1 : ∀ z ∈ xs2, ∀ y ∈ t1.toList, cmp z y ≠ 0 := by
      intro z hz y hy
      have hy2 : y ∈ x :: t.toList := hperm1.subset hy
      rcases List.mem_cons.1 hy2 with rfl | hy3
      · have hxz : cmp y z ≠ 0 := (List.pairwise_cons.1 hp).1 z hz
        intro h0
        exact hxz (hcmp.eq_symm h0)
      · exact hx z (List.mem_cons_of_mem _ hz) y hy3
    obtain ⟨t', heq', hrb', hs', hperm'⟩ :=
      ih t1 hrb1 hs1 hx1 (List.pairwise_cons.1 hp).2
    refine ⟨t', ?_, hrb', hs', ?_⟩
    · simp only [insertAll, heq]
      exact heq'
    · exact hperm'.trans
        ((hperm1.append_right xs2).trans List.perm_middle.symm)

theorem my_node_mmap_eraseAll_spec {cmp : α → α → Int} (hcmp : LawfulCmp cmp) :
    ∀ (ys : List α) (t : Tree α) (marks : List α), IsRB t →
      Sorted cmp t.toList → t.toList.Perm ys →
      ∃ L, my_node_mmap_eraseAll cmp ys (t, marks) = some (Tree.nil, L) ∧
        ∀ z, z ∈ ys ∨ z ∈ marks → z ∈ L := by
  intro ys
  induction ys with
  | nil =>
    intro t marks hrb hs hperm
    have ht : t = Tree.nil := Tree.toList_eq_nil hperm.eq_nil
    subst ht
    refine ⟨marks, rfl, ?_⟩
    intro z hz
    rcases hz with hz | hz
    · exact absurd hz (List.not_mem_nil z)
    · exact hz
  | cons y ys2 ih =>
    intro t marks hrb hs hperm
    have hy : y ∈ t.toList := hperm.mem_iff.2 (List.mem_cons_self _ _)
    obtain ⟨t1, A, B, heq, hrb1, h1, h2⟩ := eraseOp_spec hcmp hrb hs hy
    have hs1 : Sorted cmp t1.toList := by
      rw [h2]
      exact Sorted.erase_middle (h1 ▸ hs)
    have hperm1 : t1.toList.Perm ys2 := by
      have hp1 : (y :: (A ++ B)).Perm (y :: ys2) :=
        List.perm_middle.symm.trans (h1 ▸ hperm)
      rw [h2]
      exact hp1.cons_inv
    obtain ⟨L, heq', hsub⟩ := ih t1 (y :: marks) hrb1 hs1 hperm1
    refine ⟨L, ?_, ?_⟩
    · simp only [my_node_mmap_eraseAll, my_node_mmap_erase, heq]
      exact heq'
    · intro z hz
      rcases hz with hz | hz
      · rcases List.mem_cons.1 hz with rfl | hz2
        · exact hsub z (Or.inr (List.mem_cons_self _ _))
        · exact hsub z (Or.inl hz2)
      · exact hsub z (Or.inr (List.mem_cons_of_mem _ hz))

/-- C7: inserting N strict-order-pairwise-distinct elements (each insert
succeeding, per `insertAll`) and then erasing all N, in any order, through
the wrapper erase entry point leaves the root reference empty and leaves
every one of the N elements reporting itself detached (it is on the
detached-marks list the wrapper's `RDX_RB_EMPTY_NODE`-visible state
records). -/
theorem C7_round_trip {cmp : α → α → Int} (hcmp : LawfulCmp cmp)
    {xs ys : List α} (hdis : xs.Pairwise (fun a b => cmp a b ≠ 0))
    (hperm : xs.Perm ys) :
    ∃ t, insertAll cmp xs Tree.nil = some t ∧
      ∃ L, my_node_mmap_eraseAll cmp ys (t, []) = some (Tree.nil, L) ∧
        ∀ x ∈ xs, x ∈ L := by
  obtain ⟨t, heq, hrb, hs, hperm1⟩ :=
    insertAll_spec hcmp xs Tree.nil ⟨0, .nil⟩ List.Pairwise.nil
      (by intro x hx y hy; simp [Tree.toList] at hy) hdis
  have hperm2 : t.toList.Perm ys := by
    have h3 : t.toList.Perm xs := by simpa [Tree.toList] using hperm1
    exact h3.trans hperm
  obtain ⟨L, heq', hsub⟩ :=
    my_node_mmap_eraseAll_spec hcmp ys t [] hrb hs hperm2
  exact ⟨t, heq, L, heq', fun x hx => hsub x (Or.inl (hperm.subset hx))⟩

theorem C7_round_trip_witness :
    ∃ t, insertAll intCmp [1, 2, 3] Tree.nil = some t ∧
      ∃ L, my_node_mmap_eraseAll intCmp [2, 3, 1] (t, []) =
          some (Tree.nil, L) ∧ ∀ x ∈ ([1, 2, 3] : List Int), x ∈ L :=
  C7_round_trip intCmp_lawful (by decide) (by decide)


/-! ## Claim C2: the aggregate consistency invariant -/

section ConsistencyProofs

variable {γ : Type u} {A : Type v}

theorem declaredCallbacks_compute_eq (f : γ → Option A → Option A → A)
    (v : γ × A) (l r : Tree (γ × A)) :
    (declaredCallbacks f).compute v l r =
      (v.1, f v.1 (rootAug l) (rootAug r)) := rfl

theorem declaredCallbacks_copy_eq (f : γ → Option A → Option A → A)
    (o n : γ × A) : (declaredCallbacks f).copy o n = (n.1, o.2) := rfl

theorem consistent_setBlack (f : γ → Option A → Option A → A)
    (t : Tree (γ × A)) : Consistent f (setBlack t) ↔ Consistent f t := by
  cases t <;> exact Iff.rfl

theorem consistentX_setBlack (f : γ → Option A → Option A → A)
    (cmp : (γ × A) → (γ × A) → Int) (x : γ × A) (t : Tree (γ × A)) :
    ConsistentX f cmp x (setBlack t) ↔ ConsistentX f cmp x t := by
  cases t <;> exact Iff.rfl

theorem rootAug_setBlack (t : Tree (γ × A)) :
    rootAug (setBlack t) = rootAug t := by
  cases t <;> rfl

theorem rootAug_nil : rootAug (Tree.nil : Tree (γ × A)) = none := rfl

theorem rootAug_node (c : Color) (l : Tree (γ × A)) (v : γ × A)
    (r : Tree (γ × A)) : rootAug (node c l v r) = some v.2 := rfl

theorem consistent_node_iff (f : γ → Option A → Option A → A) {c : Color}
    {l r : Tree (γ × A)} {v : γ × A} :
    Consistent f (node c l v r) ↔
      (v.2 = f v.1 (rootAug l) (rootAug r) ∧
        Consistent f l ∧ Consistent f r) :=
  Iff.rfl

theorem consistentX_node_iff (f : γ → Option A → Option A → A)
    (cmp : (γ × A) → (γ × A) → Int) (x : γ × A) {c : Color}
    {l r : Tree (γ × A)} {v : γ × A} :
    ConsistentX f cmp x (node c l v r) ↔
      (if cmp x v < 0 then ConsistentX f cmp x l ∧ Consistent f r
       else if 0 < cmp x v then Consistent f l ∧ ConsistentX f cmp x r
       else Consistent f l ∧ Consistent f r) :=
  Iff.rfl

theorem consistent_fill_iff (f : γ → Option A → Option A → A) :
    ∀ (p : Path (γ × A)) (s : Tree (γ × A)),
      Consistent f (p.fill s) ↔
        ConsistentPath f p (rootAug s) ∧ Consistent f s := by
  intro p
  induction p with
  | root => intro s; simp [Path.fill, ConsistentPath]
  | left c parent v sib ih =>
    intro s
    rw [show Path.fill (.left c parent v sib) s =
        Path.fill parent (node c s v sib) from rfl, ih]
    rw [consistent_node_iff]
    rw [show ConsistentPath f (.left c parent v sib) (rootAug s) =
        (v.2 = f v.1 (rootAug s) (rootAug sib) ∧ Consistent f sib ∧
          ConsistentPath f parent (some v.2)) from rfl]
    simp only [rootAug]
    tauto
  | right c sib v parent ih =>
    intro s
    rw [show Path.fill (.right c sib v parent) s =
        Path.fill parent (node c sib v s) from rfl, ih]
    rw [consistent_node_iff]
    rw [show ConsistentPath f (.right c sib v parent) (rootAug s) =
        (v.2 = f v.1 (rootAug sib) (rootAug s) ∧ Consistent f sib ∧
          ConsistentPath f parent (some v.2)) from rfl]
    simp only [rootAug]
    tauto

theorem eraseCasesLeft_consistent {f : γ → Option A → Option A → A}
    (hrot : RotStable f) (t sl sr : Tree (γ × A)) (sc : Color)
    (sv pv : γ × A) (pc : Color) (p : Path (γ × A))
    (h : Consistent f (Path.fill p (node pc t pv (node sc sl sv sr)))) :
    (match eraseCasesLeft (declaredCallbacks f) t sc sl sv sr pc pv p with
     | Sum.inl d => Consistent f d
     | Sum.inr t1 => Consistent f (Path.fill p t1)) := by
  rw [consistent_fill_iff, consistent_node_iff, consistent_node_iff] at h
  obtain ⟨hpath, hpveq, hct, hsveq, hcsl, hcsr⟩ := h
  simp only [rootAug_node] at hpath hpveq
  rcases sr with _ | ⟨src, srl, srv, srr⟩
  · -- sr = nil
    rcases sl with _ | ⟨slc, sll, slv, slr⟩
    · -- Case 2: both sibling children nil
      cases pc with
      | red =>
        simp only [eraseCasesLeft]
        rw [consistent_fill_iff]
        exact ⟨hpath, hpveq, hct, hsveq, hcsl, hcsr⟩
      | black =>
        simp only [eraseCasesLeft]
        rw [consistent_fill_iff]
        exact ⟨hpath, hpveq, hct, hsveq, hcsl, hcsr⟩
    · cases slc with
      | red =>
        -- Case 3 then 4; sr = nil
        rw [consistent_node_iff] at hcsl
        obtain ⟨hslveq, hcsll, hcslr⟩ := hcsl
        simp only [rootAug_node, rootAug_nil] at hsveq
        have hinner : f slv.1 (rootAug sll)
            (some (f sv.1 (rootAug slr) (none : Option A))) = sv.2 := by
          rw [hsveq, hslveq, hrot]
        have htop : f slv.1 (some (f pv.1 (rootAug t) (rootAug sll)))
            (some (f sv.1 (rootAug slr) (none : Option A))) = pv.2 := by
          rw [hrot, hinner, ← hpveq]
        simp only [eraseCasesLeft, declaredCallbacks_compute_eq]
        rw [consistent_fill_iff]
        constructor
        · simp only [rootAug_node, rootAug_nil, rootAug_setBlack, htop]
          exact hpath
        · exact ⟨rfl, ⟨rfl, hct, hcsll⟩,
            ⟨rfl, (consistent_setBlack f slr).2 hcslr, trivial⟩⟩
      | black =>
        -- Case 2 with a black-node left sibling child
        cases pc with
        | red =>
          simp only [eraseCasesLeft]
          rw [consistent_fill_iff]
          exact ⟨hpath, hpveq, hct, hsveq, hcsl, hcsr⟩
        | black =>
          simp only [eraseCasesLeft]
          rw [consistent_fill_iff]
          exact ⟨hpath, hpveq, hct, hsveq, hcsl, hcsr⟩
  · cases src with
    | red =>
      -- Case 4
      rw [consistent_node_iff] at hcsr
      obtain ⟨hsrveq, hcsrl, hcsrr⟩ := hcsr
      simp only [rootAug_node, rootAug_nil] at hsveq
      have htop : f sv.1 (some (f pv.1 (rootAug t) (rootAug sl)))
          (some srv.2) = pv.2 := by
        rw [hrot, ← hsveq, ← hpveq]
      simp only [eraseCasesLeft, declaredCallbacks_compute_eq]
      rw [consistent_fill_iff]
      constructor
      · simp only [rootAug_node, htop]
        exact hpath
      · exact ⟨rfl, ⟨rfl, hct, hcsl⟩, hsrveq, hcsrl, hcsrr⟩
    | black =>
      rcases sl with _ | ⟨slc, sll, slv, slr⟩
      · -- Case 2 with a black-node right sibling child
        cases pc with
        | red =>
          simp only [eraseCasesLeft]
          rw [consistent_fill_iff]
          exact ⟨hpath, hpveq, hct, hsveq, hcsl, hcsr⟩
        | black =>
          simp only [eraseCasesLeft]
          rw [consistent_fill_iff]
          exact ⟨hpath, hpveq, hct, hsveq, hcsl, hcsr⟩
      · cases slc with
        | red =>
          -- Case 3 then 4, black-node sr
          rw [consistent_node_iff] at hcsl
          obtain ⟨hslveq, hcsll, hcslr⟩ := hcsl
          simp only [rootAug_node, rootAug_nil] at hsveq
          have hinner : f slv.1 (rootAug sll)
              (some (f sv.1 (rootAug slr) (some srv.2))) = sv.2 := by
            rw [hsveq, hslveq, hrot]
          have htop : f slv.1 (some (f pv.1 (rootAug t) (rootAug sll)))
              (some (f sv.1 (rootAug slr) (some srv.2))) = pv.2 := by
            rw [hrot, hinner, ← hpveq]
          simp only [eraseCasesLeft, declaredCallbacks_compute_eq]
          rw [consistent_fill_iff]
          constructor
          · simp only [rootAug_node, rootAug_nil, rootAug_setBlack, htop]
            exact hpath
          · exact ⟨rfl, ⟨rfl, hct, hcsll⟩,
              ⟨rfl, (consistent_setBlack f slr).2 hcslr, hcsr⟩⟩
        | black =>
          -- Case 2, both children black nodes
          cases pc with
          | red =>
            simp only [eraseCasesLeft]
            rw [consistent_fill_iff]
            exact ⟨hpath, hpveq, hct, hsveq, hcsl, hcsr⟩
          | black =>
            simp only [eraseCasesLeft]
            rw [consistent_fill_iff]
            exact ⟨hpath, hpveq, hct, hsveq, hcsl, hcsr⟩

theorem eraseCasesRight_consistent {f : γ → Option A → Option A → A}
    (hrot : RotStable f) (t sl sr : Tree (γ × A)) (sc : Color)
    (sv pv : γ × A) (pc : Color) (p : Path (γ × A))
    (h : Consistent f (Path.fill p (node pc (node sc sl sv sr) pv t))) :
    (match eraseCasesRight (declaredCallbacks f) t sc sl sv sr pc pv p with
     | Sum.inl d => Consistent f d
     | Sum.inr t1 => Consistent f (Path.fill p t1)) := by
  rw [consistent_fill_iff, consistent_node_iff, consistent_node_iff] at h
  obtain ⟨hpath, hpveq, ⟨hsveq, hcsl, hcsr⟩, hct⟩ := h
  simp only [rootAug_node] at hpath hpveq
  rcases sl with _ | ⟨slc, sll, slv, slr⟩
  · rcases sr with _ | ⟨src, srl, srv, srr⟩
    · -- Case 2: both sibling children nil
      cases pc with
      | red =>
        simp only [eraseCasesRight]
        rw [consistent_fill_iff]
        exact ⟨hpath, hpveq, ⟨hsveq, hcsl, hcsr⟩, hct⟩
      | black =>
        simp only [eraseCasesRight]
        rw [consistent_fill_iff]
        exact ⟨hpath, hpveq, ⟨hsveq, hcsl, hcsr⟩, hct⟩
    · cases src with
      | red =>
        -- Case 3 then 4; sl = nil
        rw [consistent_node_iff] at hcsr
        obtain ⟨hsrveq, hcsrl, hcsrr⟩ := hcsr
        simp only [rootAug_node, rootAug_nil] at hsveq
        have hinner : f srv.1
            (some (f sv.1 (none : Option A) (rootAug srl))) (rootAug srr) =
            sv.2 := by
          rw [hsveq, hsrveq, ← hrot]
        have htop : f srv.1
            (some (f sv.1 (none : Option A) (rootAug srl)))
            (some (f pv.1 (rootAug srr) (rootAug t))) = pv.2 := by
          rw [hpveq, ← hinner]
          exact (hrot srv.1 pv.1 _ _ _).symm
        simp only [eraseCasesRight, declaredCallbacks_compute_eq]
        rw [consistent_fill_iff]
        constructor
        · simp only [rootAug_node, rootAug_nil, rootAug_setBlack, htop]
          exact hpath
        · exact ⟨rfl, ⟨rfl, hcsl, (consistent_setBlack f srl).2 hcsrl⟩,
            ⟨rfl, hcsrr, hct⟩⟩
      | black =>
        cases pc with
        | red =>
          simp only [eraseCasesRight]
          rw [consistent_fill_iff]
          exact ⟨hpath, hpveq, ⟨hsveq, hcsl, hcsr⟩, hct⟩
        | black =>
          simp only [eraseCasesRight]
          rw [consistent_fill_iff]
          exact ⟨hpath, hpveq, ⟨hsveq, hcsl, hcsr⟩, hct⟩
  · cases slc with
    | red =>
      -- Case 4
      rw [consistent_node_iff] at hcsl
      obtain ⟨hslveq, hcsll, hcslr⟩ := hcsl
      simp only [rootAug_node] at hsveq
      have htop : f sv.1 (some slv.2)
          (some (f pv.1 (rootAug sr) (rootAug t))) = pv.2 := by
        rw [hpveq, hsveq, hrot]
      simp only [eraseCasesRight, declaredCallbacks_compute_eq]
      rw [consistent_fill_iff]
      constructor
      · simp only [rootAug_node, htop]
        exact hpath
      · exact ⟨rfl, ⟨hslveq, hcsll, hcslr⟩, ⟨rfl, hcsr, hct⟩⟩
    | black =>
      rcases sr with _ | ⟨src, srl, srv, srr⟩
      · cases pc with
        | red =>
          simp only [eraseCasesRight]
          rw [consistent_fill_iff]
          exact ⟨hpath, hpveq, ⟨hsveq, hcsl, hcsr⟩, hct⟩
        | black =>
          simp only [eraseCasesRight]
          rw [consistent_fill_iff]
          exact ⟨hpath, hpveq, ⟨hsveq, hcsl, hcsr⟩, hct⟩
      · cases src with
        | red =>
          -- Case 3 then 4; sl a black node
          rw [consistent_node_iff] at hcsr
          obtain ⟨hsrveq, hcsrl, hcsrr⟩ := hcsr
          simp only [rootAug_node] at hsveq
          have hinner : f srv.1
              (some (f sv.1 (some slv.2) (rootAug srl))) (rootAug srr) =
              sv.2 := by
            rw [hsveq, hsrveq, ← hrot]
          have htop : f srv.1
              (some (f sv.1 (some slv.2) (rootAug srl)))
              (some (f pv.1 (rootAug srr) (rootAug t))) = pv.2 := by
            rw [hpveq, ← hinner]
            exact (hrot srv.1 pv.1 _ _ _).symm
          simp only [eraseCasesRight, declaredCallbacks_compute_eq]
          rw [consistent_fill_iff]
          constructor
          · simp only [rootAug_node, rootAug_nil, rootAug_setBlack, htop]
            exact hpath
          · exact ⟨rfl, ⟨rfl, hcsl, (consistent_setBlack f srl).2 hcsrl⟩,
              ⟨rfl, hcsrr, hct⟩⟩
        | black =>
          cases pc with
          | red =>
            simp only [eraseCasesRight]
            rw [consistent_fill_iff]
            exact ⟨hpath, hpveq, ⟨hsveq, hcsl, hcsr⟩, hct⟩
          | black =>
            simp only [eraseCasesRight]
            rw [consistent_fill_iff]
            exact ⟨hpath, hpveq, ⟨hsveq, hcsl, hcsr⟩, hct⟩


theorem eraseFix_consistent {f : γ → Option A → Option A → A}
    (hrot : RotStable f) (N : Nat) :
    ∀ (p : Path (γ × A)) (t t'' : Tree (γ × A)), p.size ≤ N →
      ____rdx_rb_erase_color (declaredCallbacks f) t p = some t'' →
      Consistent f (p.fill t) → Consistent f t'' := by
  induction N with
  | zero =>
    intro p t t'' hsz h hc
    cases p with
    | root => cases h; exact hc
    | left pc prnt pv sib => simp [Path.size] at hsz
    | right pc sib pv prnt => simp [Path.size] at hsz
  | succ m ih =>
    intro p t t'' hsz h hc
    cases p with
    | root => cases h; exact hc
    | left pc prnt pv sib =>
      have hsz' : prnt.size ≤ m := by simp [Path.size] at hsz; omega
      rcases sib with _ | ⟨sc2, sl, sv, sr⟩
      · simp [____rdx_rb_erase_color] at h
      · cases sc2 with
        | red =>
          rcases sl with _ | ⟨slc, sll, slv, slr⟩
          · simp [____rdx_rb_erase_color] at h
          · simp only [____rdx_rb_erase_color, declaredCallbacks_compute_eq,
              rootAug_node] at h
            have hc0 : Consistent f (Path.fill prnt
                (node pc t pv
                  (node .red (node slc sll slv slr) sv sr))) := hc
            rw [consistent_fill_iff, consistent_node_iff,
              consistent_node_iff, consistent_node_iff] at hc0
            obtain ⟨hpath, hpveq, hct, hsveq, ⟨hslveq, hcsll, hcslr⟩,
              hcsr⟩ := hc0
            simp only [rootAug_node] at hpath hpveq hsveq
            have hsv1top : f sv.1
                (some (f pv.1 (rootAug t) (some slv.2))) (rootAug sr) =
                pv.2 := by
              rw [hpveq, hsveq, hrot]
            have hcI : Consistent f (Path.fill
                (Path.left pc prnt
                  (sv.1, f sv.1 (some (f pv.1 (rootAug t) (some slv.2)))
                    (rootAug sr)) sr)
                (node .red t (pv.1, f pv.1 (rootAug t) (some slv.2))
                  (node .black sll slv slr))) := by
              rw [consistent_fill_iff]
              refine ⟨⟨rfl, hcsr, ?_⟩, rfl, hct, hslveq, hcsll, hcslr⟩
              show ConsistentPath f prnt
                (some (f sv.1 (some (f pv.1 (rootAug t) (some slv.2)))
                  (rootAug sr)))
              rw [hsv1top]
              exact hpath
            have hcc := eraseCasesLeft_consistent hrot t sll slr .black slv
              (pv.1, f pv.1 (rootAug t) (some slv.2)) .red
              (Path.left pc prnt
                (sv.1, f sv.1 (some (f pv.1 (rootAug t) (some slv.2)))
                  (rootAug sr)) sr) hcI
            rcases hres : eraseCasesLeft (declaredCallbacks f) t .black
                sll slv slr .red (pv.1, f pv.1 (rootAug t) (some slv.2))
                (Path.left pc prnt
                  (sv.1, f sv.1 (some (f pv.1 (rootAug t) (some slv.2)))
                    (rootAug sr)) sr) with d | t1
            · rw [hres] at h hcc
              cases h
              exact hcc
            · rw [hres] at h
              cases h
        | black =>
          simp only [____rdx_rb_erase_color] at h
          have hc' : Consistent f (Path.fill prnt
              (node pc t pv (node .black sl sv sr))) := hc
          have hcc := eraseCasesLeft_consistent hrot t sl sr .black sv pv
            pc prnt hc'
          rcases hres : eraseCasesLeft (declaredCallbacks f) t .black sl
              sv sr pc pv prnt with d | t1
          · rw [hres] at h hcc
            cases h
            exact hcc
          · rw [hres] at h hcc
            exact ih prnt t1 t'' hsz' h hcc
    | right pc sib pv prnt =>
      have hsz' : prnt.size ≤ m := by simp [Path.size] at hsz; omega
      rcases sib with _ | ⟨sc2, sl, sv, sr⟩
      · simp [____rdx_rb_erase_color] at h
      · cases sc2 with
        | red =>
          rcases sr with _ | ⟨src, srl, srv, srr⟩
          · simp [____rdx_rb_erase_color] at h
          · simp only [____rdx_rb_erase_color, declaredCallbacks_compute_eq,
              rootAug_node] at h
            have hc0 : Consistent f (Path.fill prnt
                (node pc
                  (node .red sl sv (node src srl srv srr)) pv t)) := hc
            rw [consistent_fill_iff, consistent_node_iff,
              consistent_node_iff, consistent_node_iff] at hc0
            obtain ⟨hpath, hpveq, ⟨hsveq, hcsl, hsrveq, hcsrl, hcsrr⟩,
              hct⟩ := hc0
            simp only [rootAug_node] at hpath hpveq hsveq
            have hsv1top : f sv.1 (rootAug sl)
                (some (f pv.1 (some srv.2) (rootAug t))) = pv.2 := by
              rw [hpveq, hsveq]
              exact (hrot sv.1 pv.1 _ _ _).symm
            have hcI : Consistent f (Path.fill
                (Path.right pc sl
                  (sv.1, f sv.1 (rootAug sl)
                    (some (f pv.1 (some srv.2) (rootAug t)))) prnt)
                (node .red (node .black srl srv srr)
                  (pv.1, f pv.1 (some srv.2) (rootAug t)) t)) := by
              rw [consistent_fill_iff]
              refine ⟨⟨rfl, hcsl, ?_⟩, rfl, ⟨hsrveq, hcsrl, hcsrr⟩, hct⟩
              show ConsistentPath f prnt
                (some (f sv.1 (rootAug sl)
                  (some (f pv.1 (some srv.2) (rootAug t)))))
              rw [hsv1top]
              exact hpath
            have hcc := eraseCasesRight_consistent hrot t srl srr .black
              srv (pv.1, f pv.1 (some srv.2) (rootAug t)) .red
              (Path.right pc sl
                (sv.1, f sv.1 (rootAug sl)
                  (some (f pv.1 (some srv.2) (rootAug t)))) prnt) hcI
            rcases hres : eraseCasesRight (declaredCallbacks f) t .black
                srl srv srr .red (pv.1, f pv.1 (some srv.2) (rootAug t))
                (Path.right pc sl
                  (sv.1, f sv.1 (rootAug sl)
                    (some (f pv.1 (some srv.2) (rootAug t)))) prnt)
                with d | t1
            · rw [hres] at h hcc
              cases h
              exact hcc
            · rw [hres] at h
              cases h
        | black =>
          simp only [____rdx_rb_erase_color] at h
          have hc' : Consistent f (Path.fill prnt
              (node pc (node .black sl sv sr) pv t)) := hc
          have hcc := eraseCasesRight_consistent hrot t sl sr .black sv pv
            pc prnt hc'
          rcases hres : eraseCasesRight (declaredCallbacks f) t .black sl
              sv sr pc pv prnt with d | t1
          · rw [hres] at h hcc
            cases h
            exact hcc
          · rw [hres] at h hcc
            exact ih prnt t1 t'' hsz' h hcc


theorem propPath_consistentPath (f : γ → Option A → Option A → A) :
    ∀ (p : Path (γ × A)) (s : Tree (γ × A)), PathConsist f p →
      ConsistentPath f (propPath (declaredCallbacks f) p s) (rootAug s) := by
  intro p
  induction p with
  | root => intro s h; trivial
  | left c parent v sib ih =>
    intro s h
    obtain ⟨hsib, hparent⟩ := h
    exact ⟨rfl, hsib, ih _ hparent⟩
  | right c sib v parent ih =>
    intro s h
    obtain ⟨hsib, hparent⟩ := h
    exact ⟨rfl, hsib, ih _ hparent⟩

theorem locate_consistent (f : γ → Option A → Option A → A)
    (cmp : (γ × A) → (γ × A) → Int) (x : γ × A) :
    ∀ (t : Tree (γ × A)) (p p' : Path (γ × A)) (st : Tree (γ × A)),
      locate cmp x t p = some (st, p') → Consistent f t →
      PathConsist f p → Consistent f st ∧ PathConsist f p' := by
  intro t
  induction t with
  | nil => intro p p' st h hc hpc; cases h
  | node c l v r ihl ihr =>
    intro p p' st h hc hpc
    obtain ⟨hveq, hcl, hcr⟩ := hc
    by_cases h1 : cmp x v < 0
    · have hred : locate cmp x (node c l v r) p =
          locate cmp x l (.left c p v r) := by
        simp [locate, h1]
      rw [hred] at h
      exact ihl _ _ _ h hcl ⟨hcr, hpc⟩
    · by_cases h2 : 0 < cmp x v
      · have hred : locate cmp x (node c l v r) p =
            locate cmp x r (.right c l v p) := by
          simp [locate, h1, h2]
        rw [hred] at h
        exact ihr _ _ _ h hcr ⟨hcl, hpc⟩
      · have hred : locate cmp x (node c l v r) p =
            some (node c l v r, p) := by
          simp [locate, h1, h2]
        rw [hred] at h
        obtain ⟨rfl, rfl⟩ : node c l v r = st ∧ p = p' := by
          cases h; exact ⟨rfl, rfl⟩
        exact ⟨⟨hveq, hcl, hcr⟩, hpc⟩

theorem leftmostZoom_consistent (f : γ → Option A → Option A → A) :
    ∀ (t : Tree (γ × A)) (q : Path (γ × A)) (sc : Color) (sv : γ × A)
      (c2 : Tree (γ × A)) (q' : Path (γ × A)),
      leftmostZoom t q = some (sc, sv, c2, q') → Consistent f t →
      PathConsist f q → Consistent f c2 ∧ PathConsist f q' := by
  intro t
  induction t with
  | nil => intro q sc sv c2 q' h hc hpc; cases h
  | node c l v r ihl ihr =>
    intro q sc sv c2 q' h hc hpc
    obtain ⟨hveq, hcl, hcr⟩ := hc
    cases l with
    | nil =>
      obtain ⟨rfl, rfl, rfl, rfl⟩ :
          c = sc ∧ v = sv ∧ r = c2 ∧ q = q' := by
        cases h; exact ⟨rfl, rfl, rfl, rfl⟩
      exact ⟨hcr, hpc⟩
    | node c2' l2 v2 r2 =>
      exact ihl _ _ _ _ _ h hcl ⟨hcr, hpc⟩

theorem spliceCases_consistent {f : γ → Option A → Option A → A}
    (c : Color) (l : Tree (γ × A)) (xv : γ × A) (r : Tree (γ × A))
    (p : Path (γ × A)) (hcl : Consistent f l) (hcr : Consistent f r)
    (hpc : PathConsist f p) :
    (match spliceCases (declaredCallbacks f) c l xv r p with
     | .done t1 => Consistent f t1
     | .fixup q => Consistent f (q.fill Tree.nil)) := by
  rcases l with _ | ⟨lc, ll, lv, lr⟩
  · rcases r with _ | ⟨rc, rl, rv, rr⟩
    · -- no children
      cases c with
      | red =>
        simp only [spliceCases]
        rw [consistent_fill_iff]
        exact ⟨propPath_consistentPath f p nil hpc, trivial⟩
      | black =>
        cases p with
        | root => simp only [spliceCases]; trivial
        | left pc prnt pv pr =>
          simp only [spliceCases]
          rw [consistent_fill_iff]
          exact ⟨propPath_consistentPath f _ nil hpc, trivial⟩
        | right pc pl pv prnt =>
          simp only [spliceCases]
          rw [consistent_fill_iff]
          exact ⟨propPath_consistentPath f _ nil hpc, trivial⟩
    · -- only a right child, promoted with the erased node's color
      obtain ⟨hrveq, hcrl, hcrr⟩ := hcr
      simp only [spliceCases]
      rw [consistent_fill_iff]
      exact ⟨propPath_consistentPath f p _ hpc, hrveq, hcrl, hcrr⟩
  · rcases r with _ | ⟨rc, rl, rv, rr⟩
    · -- only a left child
      obtain ⟨hlveq, hcll, hclr⟩ := hcl
      simp only [spliceCases]
      rw [consistent_fill_iff]
      exact ⟨propPath_consistentPath f p _ hpc, hlveq, hcll, hclr⟩
    · obtain ⟨hrveq, hcrl, hcrr⟩ := hcr
      rcases rl with _ | ⟨rlc, rll, rlv, rlr⟩
      · -- Case 2: the successor is the right child
        rcases rr with _ | ⟨rrc, rrl, rrv, rrr⟩
        · cases rc with
          | red =>
            simp only [spliceCases, declaredCallbacks_copy_eq,
              declaredCallbacks_compute_eq]
            rw [consistent_fill_iff]
            exact ⟨propPath_consistentPath f p _ hpc, rfl, hcl, trivial⟩
          | black =>
            simp only [spliceCases, declaredCallbacks_copy_eq,
              declaredCallbacks_compute_eq]
            rw [show Path.fill (Path.right c (node lc ll lv lr)
                ((rv.1, xv.2).1,
                  f (rv.1, xv.2).1 (rootAug (node lc ll lv lr))
                    (rootAug (Tree.nil : Tree (γ × A))))
                (propPath (declaredCallbacks f) p
                  (node c (node lc ll lv lr)
                    ((rv.1, xv.2).1,
                      f (rv.1, xv.2).1 (rootAug (node lc ll lv lr))
                        (rootAug (Tree.nil : Tree (γ × A)))) nil)))
                Tree.nil =
              Path.fill (propPath (declaredCallbacks f) p
                  (node c (node lc ll lv lr)
                    ((rv.1, xv.2).1,
                      f (rv.1, xv.2).1 (rootAug (node lc ll lv lr))
                        (rootAug (Tree.nil : Tree (γ × A)))) nil))
                (node c (node lc ll lv lr)
                  ((rv.1, xv.2).1,
                    f (rv.1, xv.2).1 (rootAug (node lc ll lv lr))
                      (rootAug (Tree.nil : Tree (γ × A)))) nil) from rfl]
            rw [consistent_fill_iff]
            exact ⟨propPath_consistentPath f p _ hpc, rfl, hcl, trivial⟩
        · -- child2 present, recolored black
          obtain ⟨hrrveq, hcrrl, hcrrr⟩ := hcrr
          simp only [spliceCases, declaredCallbacks_copy_eq,
            declaredCallbacks_compute_eq]
          rw [consistent_fill_iff]
          exact ⟨propPath_consistentPath f p _ hpc, rfl, hcl,
            hrrveq, hcrrl, hcrrr⟩
      · -- Case 3: walk to the leftmost node of the right subtree
        obtain ⟨hrlveq, hcrll, hcrlr⟩ := hcrl
        rcases hz : leftmostZoom (node rlc rll rlv rlr)
            (Path.left rc Path.root rv rr) with _ | ⟨sc, sv, c2, q'⟩
        · simp only [spliceCases, hz]
          trivial
        · obtain ⟨hc2, hq'⟩ := leftmostZoom_consistent f _ _ _ _ _ _ hz
            ⟨hrlveq, hcrll, hcrlr⟩ ⟨hcrr, trivial⟩
          rcases c2 with _ | ⟨c2c, c2l, c2v, c2r⟩
          · cases sc with
            | red =>
              simp only [spliceCases, hz, declaredCallbacks_copy_eq,
                declaredCallbacks_compute_eq]
              rw [consistent_fill_iff]
              refine ⟨propPath_consistentPath f p _ hpc, rfl, hcl, ?_⟩
              rw [consistent_fill_iff]
              exact ⟨propPath_consistentPath f q' nil hq', trivial⟩
            | black =>
              simp only [spliceCases, hz, declaredCallbacks_copy_eq,
                declaredCallbacks_compute_eq]
              rw [Path.fill_append]
              rw [show ∀ (P : Path (γ × A)) (a b : Tree (γ × A)) (w : γ × A)
                  (cc : Color),
                  Path.fill (Path.right cc a w P) b =
                    Path.fill P (node cc a w b) from fun _ _ _ _ _ => rfl]
              rw [consistent_fill_iff]
              refine ⟨propPath_consistentPath f p _ hpc, rfl, hcl, ?_⟩
              rw [consistent_fill_iff]
              exact ⟨propPath_consistentPath f q' nil hq', trivial⟩
          · obtain ⟨hc2veq, hc2l, hc2r⟩ := hc2
            simp only [spliceCases, hz, declaredCallbacks_copy_eq,
              declaredCallbacks_compute_eq]
            rw [consistent_fill_iff]
            refine ⟨propPath_consistentPath f p _ hpc, rfl, hcl, ?_⟩
            rw [consistent_fill_iff]
            exact ⟨propPath_consistentPath f q' _ hq', hc2veq, hc2l, hc2r⟩


theorem erase_augmented_consistent {f : γ → Option A → Option A → A}
    (hrot : RotStable f) (cmp : (γ × A) → (γ × A) → Int) (x : γ × A)
    {t t' : Tree (γ × A)} (hc : Consistent f t)
    (heq : rdx_rb_erase_augmented (declaredCallbacks f) cmp x t = some t') :
    Consistent f t' := by
  unfold rdx_rb_erase_augmented __rdx_rb_erase_augmented at heq
  rcases hloc : locate cmp x t Path.root with _ | ⟨st, p⟩
  · rw [hloc] at heq
    cases heq
  · rw [hloc] at heq
    rcases st with _ | ⟨c, l, v, r⟩
    · cases heq
    · obtain ⟨⟨hveq, hcl, hcr⟩, hpc⟩ :=
        locate_consistent f cmp x t Path.root p (node c l v r) hloc hc
          trivial
      have hsp := spliceCases_consistent c l v r p hcl hcr hpc
      rcases hres : spliceCases (declaredCallbacks f) c l v r p with t1 | q
      · rw [hres] at hsp
        simp only [hres] at heq
        obtain rfl := Option.some.inj heq
        exact hsp
      · rw [hres] at hsp
        simp only [hres] at heq
        exact eraseFix_consistent hrot q.size q nil t' (Nat.le_refl _) heq
          hsp

theorem propagate_consistentX (f : γ → Option A → Option A → A)
    (cmp : (γ × A) → (γ × A) → Int) (x : γ × A) :
    ∀ t : Tree (γ × A), ConsistentX f cmp x t →
      Consistent f
        (rdx_rb_propagate (declaredCallbacks f) cmp x t) := by
  intro t
  induction t with
  | nil => intro h; trivial
  | node c l v r ihl ihr =>
    intro h
    rw [consistentX_node_iff] at h
    by_cases h1 : cmp x v < 0
    · rw [if_pos h1] at h
      have hred : rdx_rb_propagate (declaredCallbacks f) cmp x
          (node c l v r) =
          node c (rdx_rb_propagate (declaredCallbacks f) cmp x l)
            ((declaredCallbacks f).compute v
              (rdx_rb_propagate (declaredCallbacks f) cmp x l) r) r := by
        simp [rdx_rb_propagate, h1]
      rw [hred]
      exact ⟨rfl, ihl h.1, h.2⟩
    · by_cases h2 : 0 < cmp x v
      · rw [if_neg h1, if_pos h2] at h
        have hred : rdx_rb_propagate (declaredCallbacks f) cmp x
            (node c l v r) =
            node c l
              ((declaredCallbacks f).compute v l
                (rdx_rb_propagate (declaredCallbacks f) cmp x r))
              (rdx_rb_propagate (declaredCallbacks f) cmp x r) := by
          simp [rdx_rb_propagate, h1, h2]
        rw [hred]
        exact ⟨rfl, h.1, ihr h.2⟩
      · rw [if_neg h1, if_neg h2] at h
        have hred : rdx_rb_propagate (declaredCallbacks f) cmp x
            (node c l v r) =
            node c l ((declaredCallbacks f).compute v l r) r := by
          simp [rdx_rb_propagate, h1, h2]
        rw [hred]
        exact ⟨rfl, h.1, h.2⟩

theorem insertDescend_pathConsist (f : γ → Option A → Option A → A)
    (cmp : (γ × A) → (γ × A) → Int) (x : γ × A) :
    ∀ (t : Tree (γ × A)) (p p' : Path (γ × A)),
      insertDescend cmp x t p = some p' → Consistent f t →
      PathConsist f p → PathConsist f p' := by
  intro t
  induction t with
  | nil =>
    intro p p' h hc hpc
    cases h
    exact hpc
  | node c l v r ihl ihr =>
    intro p p' h hc hpc
    obtain ⟨hveq, hcl, hcr⟩ := hc
    by_cases h1 : cmp x v < 0
    · have hred : insertDescend cmp x (node c l v r) p =
          insertDescend cmp x l (.left c p v r) := by
        simp [insertDescend, h1]
      rw [hred] at h
      exact ihl _ _ h hcl ⟨hcr, hpc⟩
    · by_cases h2 : 0 < cmp x v
      · have hred : insertDescend cmp x (node c l v r) p =
            insertDescend cmp x r (.right c l v p) := by
          simp [insertDescend, h1, h2]
        rw [hred] at h
        exact ihr _ _ h hcr ⟨hcl, hpc⟩
      · have hred : insertDescend cmp x (node c l v r) p = none := by
          simp [insertDescend, h1, h2]
        rw [hred] at h
        cases h

theorem insertDescend_dirOK (cmp : α → α → Int) (x : α) :
    ∀ (t : Tree α) (p p' : Path α), insertDescend cmp x t p = some p' →
      DirOK cmp x p → DirOK cmp x p' := by
  intro t
  induction t with
  | nil =>
    intro p p' h hd
    cases h
    exact hd
  | node c l v r ihl ihr =>
    intro p p' h hd
    by_cases h1 : cmp x v < 0
    · have hred : insertDescend cmp x (node c l v r) p =
          insertDescend cmp x l (.left c p v r) := by
        simp [insertDescend, h1]
      rw [hred] at h
      exact ihl _ _ h ⟨h1, hd⟩
    · by_cases h2 : 0 < cmp x v
      · have hred : insertDescend cmp x (node c l v r) p =
            insertDescend cmp x r (.right c l v p) := by
          simp [insertDescend, h1, h2]
        rw [hred] at h
        exact ihr _ _ h ⟨h2, hd⟩
      · have hred : insertDescend cmp x (node c l v r) p = none := by
          simp [insertDescend, h1, h2]
        rw [hred] at h
        cases h

theorem consistentX_fill (f : γ → Option A → Option A → A)
    (cmp : (γ × A) → (γ × A) → Int) (x : γ × A) :
    ∀ (p : Path (γ × A)) (s : Tree (γ × A)), PathConsist f p →
      DirOK cmp x p → ConsistentX f cmp x s →
      ConsistentX f cmp x (p.fill s) := by
  intro p
  induction p with
  | root => intro s hpc hd hs; exact hs
  | left c parent v sib ih =>
    intro s hpc hd hs
    refine ih _ hpc.2 hd.2 ?_
    rw [consistentX_node_iff, if_pos hd.1]
    exact ⟨hs, hpc.1⟩
  | right c sib v parent ih =>
    intro s hpc hd hs
    refine ih _ hpc.2 hd.2 ?_
    have hnl : ¬ cmp x v < 0 := by
      have := hd.1
      omega
    rw [consistentX_node_iff, if_neg hnl, if_pos hd.1]
    exact ⟨hpc.1, hs⟩


theorem consistent_imp_consistentX (f : γ → Option A → Option A → A)
    (cmp : (γ × A) → (γ × A) → Int) (x : γ × A) :
    ∀ {t : Tree (γ × A)}, Consistent f t → ConsistentX f cmp x t := by
  intro t
  induction t with
  | nil => intro h; trivial
  | node c l v r ihl ihr =>
    intro h
    obtain ⟨hveq, hcl, hcr⟩ := h
    rw [consistentX_node_iff]
    split
    · exact ⟨ihl hcl, hcr⟩
    · split
      · exact ⟨hcl, ihr hcr⟩
      · exact ⟨hcl, hcr⟩

theorem consistentX_node_lt {f : γ → Option A → Option A → A}
    {cmp : (γ × A) → (γ × A) → Int} {x v : γ × A} {c : Color}
    {l r : Tree (γ × A)} (h : cmp x v < 0) (h1 : ConsistentX f cmp x l)
    (h2 : Consistent f r) : ConsistentX f cmp x (node c l v r) := by
  rw [consistentX_node_iff, if_pos h]
  exact ⟨h1, h2⟩

theorem consistentX_node_gt {f : γ → Option A → Option A → A}
    {cmp : (γ × A) → (γ × A) → Int} {x v : γ × A} {c : Color}
    {l r : Tree (γ × A)} (h : 0 < cmp x v) (h1 : Consistent f l)
    (h2 : ConsistentX f cmp x r) : ConsistentX f cmp x (node c l v r) := by
  rw [consistentX_node_iff, if_neg (show ¬ cmp x v < 0 by omega), if_pos h]
  exact ⟨h1, h2⟩

theorem consistentX_node_both {f : γ → Option A → Option A → A}
    {cmp : (γ × A) → (γ × A) → Int} {x v : γ × A} {c : Color}
    {l r : Tree (γ × A)} (h1 : Consistent f l) (h2 : Consistent f r) :
    ConsistentX f cmp x (node c l v r) := by
  rw [consistentX_node_iff]
  by_cases hlt : cmp x v < 0
  · rw [if_pos hlt]
    exact ⟨consistent_imp_consistentX f cmp x h1, h2⟩
  · rw [if_neg hlt]
    by_cases hgt : 0 < cmp x v
    · rw [if_pos hgt]
      exact ⟨h1, consistent_imp_consistentX f cmp x h2⟩
    · rw [if_neg hgt]
      exact ⟨h1, h2⟩

theorem consistentX_node_lt_inv {f : γ → Option A → Option A → A}
    {cmp : (γ × A) → (γ × A) → Int} {x v : γ × A} {c : Color}
    {l r : Tree (γ × A)} (h : cmp x v < 0)
    (hX : ConsistentX f cmp x (node c l v r)) :
    ConsistentX f cmp x l ∧ Consistent f r := by
  rw [consistentX_node_iff, if_pos h] at hX
  exact hX

theorem consistentX_node_gt_inv {f : γ → Option A → Option A → A}
    {cmp : (γ × A) → (γ × A) → Int} {x v : γ × A} {c : Color}
    {l r : Tree (γ × A)} (h : 0 < cmp x v)
    (hX : ConsistentX f cmp x (node c l v r)) :
    Consistent f l ∧ ConsistentX f cmp x r := by
  rw [consistentX_node_iff, if_neg (by omega), if_pos h] at hX
  exact hX

theorem consistentX_node_mid_inv {f : γ → Option A → Option A → A}
    {cmp : (γ × A) → (γ × A) → Int} {x v : γ × A} {c : Color}
    {l r : Tree (γ × A)} (h1 : ¬ cmp x v < 0) (h2 : ¬ 0 < cmp x v)
    (hX : ConsistentX f cmp x (node c l v r)) :
    Consistent f l ∧ Consistent f r := by
  rw [consistentX_node_iff, if_neg h1, if_neg h2] at hX
  exact hX


theorem insertFix_consistentX {f : γ → Option A → Option A → A}
    (pcmp : γ → γ → Int) (x : γ × A) (N : Nat) :
    ∀ (p : Path (γ × A)) (l r : Tree (γ × A)) (v : γ × A), p.size ≤ N →
      ConsistentX f (payloadCmp pcmp) x (node .red l v r) →
      PathConsist f p → DirOK (payloadCmp pcmp) x p →
      ∀ t : Tree (γ × A),
        __rdx_rb_insert (declaredCallbacks f) l v r p = some t →
        ConsistentX f (payloadCmp pcmp) x t := by
  induction N with
  | zero =>
    intro p l r v hsz hX hpc hd t heq
    cases p with
    | root =>
      simp only [__rdx_rb_insert] at heq
      obtain rfl := Option.some.inj heq
      exact hX
    | left pc prnt pv pr => simp [Path.size] at hsz
    | right pc pl pv prnt => simp [Path.size] at hsz
  | succ m ih =>
    intro p l r v hsz hX hpc hd t heq
    cases p with
    | root =>
      simp only [__rdx_rb_insert] at heq
      obtain rfl := Option.some.inj heq
      exact hX
    | left pc prnt pv pr =>
      obtain ⟨hpr, hprnt⟩ := hpc
      obtain ⟨hd1, hdp⟩ := hd
      cases pc with
      | black =>
        simp only [__rdx_rb_insert] at heq
        obtain rfl := Option.some.inj heq
        exact consistentX_fill f (payloadCmp pcmp) x _ _ ⟨hpr, hprnt⟩
          ⟨hd1, hdp⟩ hX
      | red =>
        cases prnt with
        | root => simp only [__rdx_rb_insert] at heq; cases heq
        | left gc gp gv gu =>
          obtain ⟨hgu, hgp⟩ := hprnt
          obtain ⟨hd2, hdg⟩ := hdp
          have hsz' : gp.size ≤ m := by simp [Path.size] at hsz; omega
          rcases gu with _ | ⟨guc, gul, guv, gur⟩
          · -- uncle NULL: Case 3 (zig-zig left)
            simp only [__rdx_rb_insert] at heq
            obtain rfl := Option.some.inj heq
            refine consistentX_fill f (payloadCmp pcmp) x gp _ hgp hdg ?_
            refine consistentX_node_lt hd1 hX ?_
            exact ⟨rfl, (consistent_setBlack f pr).2 hpr, trivial⟩
          · cases guc with
            | red =>
              -- Case 1: color flip, continue at the grandparent
              simp only [__rdx_rb_insert] at heq
              refine ih gp _ _ gv hsz' ?_ hgp hdg t heq
              exact consistentX_node_lt hd2
                (consistentX_node_lt hd1 hX hpr) hgu
            | black =>
              simp only [__rdx_rb_insert] at heq
              obtain rfl := Option.some.inj heq
              refine consistentX_fill f (payloadCmp pcmp) x gp _ hgp hdg ?_
              refine consistentX_node_lt hd1 hX ?_
              exact ⟨rfl, (consistent_setBlack f pr).2 hpr, hgu⟩
        | right gc gu gv gp =>
          obtain ⟨hgu, hgp⟩ := hprnt
          obtain ⟨hd2, hdg⟩ := hdp
          have hsz' : gp.size ≤ m := by simp [Path.size] at hsz; omega
          rcases gu with _ | ⟨guc, gul, guv, gur⟩
          · -- uncle NULL: Cases 2+3 (zig-zag, node on parent's left)
            simp only [__rdx_rb_insert] at heq
            obtain rfl := Option.some.inj heq
            refine consistentX_fill f (payloadCmp pcmp) x gp _ hgp hdg ?_
            by_cases h1 : payloadCmp pcmp x v < 0
            · obtain ⟨hXl, hcr⟩ := consistentX_node_lt_inv h1 hX
              refine consistentX_node_lt h1 ?_ ?_
              · exact consistentX_node_gt hd2 trivial
                  ((consistentX_setBlack f _ x l).2 hXl)
              · exact ⟨rfl, (consistent_setBlack f r).2 hcr, hpr⟩
            · by_cases h2 : 0 < payloadCmp pcmp x v
              · obtain ⟨hcl, hXr⟩ := consistentX_node_gt_inv h2 hX
                refine consistentX_node_gt h2 ?_ ?_
                · exact ⟨rfl, trivial, (consistent_setBlack f l).2 hcl⟩
                · exact consistentX_node_lt hd1
                    ((consistentX_setBlack f _ x r).2 hXr) hpr
              · obtain ⟨hcl, hcr⟩ := consistentX_node_mid_inv h1 h2 hX
                refine consistentX_node_both ?_ ?_
                · exact ⟨rfl, trivial, (consistent_setBlack f l).2 hcl⟩
                · exact ⟨rfl, (consistent_setBlack f r).2 hcr, hpr⟩
          · cases guc with
            | red =>
              simp only [__rdx_rb_insert] at heq
              refine ih gp _ _ gv hsz' ?_ hgp hdg t heq
              exact consistentX_node_gt hd2 hgu
                (consistentX_node_lt hd1 hX hpr)
            | black =>
              simp only [__rdx_rb_insert] at heq
              obtain rfl := Option.some.inj heq
              refine consistentX_fill f (payloadCmp pcmp) x gp _ hgp hdg ?_
              by_cases h1 : payloadCmp pcmp x v < 0
              · obtain ⟨hXl, hcr⟩ := consistentX_node_lt_inv h1 hX
                refine consistentX_node_lt h1 ?_ ?_
                · exact consistentX_node_gt hd2 hgu
                    ((consistentX_setBlack f _ x l).2 hXl)
                · exact ⟨rfl, (consistent_setBlack f r).2 hcr, hpr⟩
              · by_cases h2 : 0 < payloadCmp pcmp x v
                · obtain ⟨hcl, hXr⟩ := consistentX_node_gt_inv h2 hX
                  refine consistentX_node_gt h2 ?_ ?_
                  · exact ⟨rfl, hgu, (consistent_setBlack f l).2 hcl⟩
                  · exact consistentX_node_lt hd1
                      ((consistentX_setBlack f _ x r).2 hXr) hpr
                · obtain ⟨hcl, hcr⟩ := consistentX_node_mid_inv h1 h2 hX
                  refine consistentX_node_both ?_ ?_
                  · exact ⟨rfl, hgu, (consistent_setBlack f l).2 hcl⟩
                  · exact ⟨rfl, (consistent_setBlack f r).2 hcr, hpr⟩
    | right pc pl pv prnt =>
      obtain ⟨hppl, hprnt⟩ := hpc
      obtain ⟨hd1, hdp⟩ := hd
      cases pc with
      | black =>
        simp only [__rdx_rb_insert] at heq
        obtain rfl := Option.some.inj heq
        exact consistentX_fill f (payloadCmp pcmp) x _ _ ⟨hppl, hprnt⟩
          ⟨hd1, hdp⟩ hX
      | red =>
        cases prnt with
        | root => simp only [__rdx_rb_insert] at heq; cases heq
        | left gc gp gv gu =>
          obtain ⟨hgu, hgp⟩ := hprnt
          obtain ⟨hd2, hdg⟩ := hdp
          have hsz' : gp.size ≤ m := by simp [Path.size] at hsz; omega
          rcases gu with _ | ⟨guc, gul, guv, gur⟩
          · -- uncle NULL: Cases 2+3 (zig-zag, node on parent's right)
            simp only [__rdx_rb_insert] at heq
            obtain rfl := Option.some.inj heq
            refine consistentX_fill f (payloadCmp pcmp) x gp _ hgp hdg ?_
            by_cases h1 : payloadCmp pcmp x v < 0
            · obtain ⟨hXl, hcr⟩ := consistentX_node_lt_inv h1 hX
              refine consistentX_node_lt h1 ?_ ?_
              · exact consistentX_node_gt hd1 hppl
                  ((consistentX_setBlack f _ x l).2 hXl)
              · exact ⟨rfl, (consistent_setBlack f r).2 hcr, trivial⟩
            · by_cases h2 : 0 < payloadCmp pcmp x v
              · obtain ⟨hcl, hXr⟩ := consistentX_node_gt_inv h2 hX
                refine consistentX_node_gt h2 ?_ ?_
                · exact ⟨rfl, hppl, (consistent_setBlack f l).2 hcl⟩
                · exact consistentX_node_lt hd2
                    ((consistentX_setBlack f _ x r).2 hXr) trivial
              · obtain ⟨hcl, hcr⟩ := consistentX_node_mid_inv h1 h2 hX
                refine consistentX_node_both ?_ ?_
                · exact ⟨rfl, hppl, (consistent_setBlack f l).2 hcl⟩
                · exact ⟨rfl, (consistent_setBlack f r).2 hcr, trivial⟩
          · cases guc with
            | red =>
              simp only [__rdx_rb_insert] at heq
              refine ih gp _ _ gv hsz' ?_ hgp hdg t heq
              exact consistentX_node_lt hd2
                (consistentX_node_gt hd1 hppl hX) hgu
            | black =>
              simp only [__rdx_rb_insert] at heq
              obtain rfl := Option.some.inj heq
              refine consistentX_fill f (payloadCmp pcmp) x gp _ hgp hdg ?_
              by_cases h1 : payloadCmp pcmp x v < 0
              · obtain ⟨hXl, hcr⟩ := consistentX_node_lt_inv h1 hX
                refine consistentX_node_lt h1 ?_ ?_
                · exact consistentX_node_gt hd1 hppl
                    ((consistentX_setBlack f _ x l).2 hXl)
                · exact ⟨rfl, (consistent_setBlack f r).2 hcr, hgu⟩
              · by_cases h2 : 0 < payloadCmp pcmp x v
                · obtain ⟨hcl, hXr⟩ := consistentX_node_gt_inv h2 hX
                  refine consistentX_node_gt h2 ?_ ?_
                  · exact ⟨rfl, hppl, (consistent_setBlack f l).2 hcl⟩
                  · exact consistentX_node_lt hd2
                      ((consistentX_setBlack f _ x r).2 hXr) hgu
                · obtain ⟨hcl, hcr⟩ := consistentX_node_mid_inv h1 h2 hX
                  refine consistentX_node_both ?_ ?_
                  · exact ⟨rfl, hppl, (consistent_setBlack f l).2 hcl⟩
                  · exact ⟨rfl, (consistent_setBlack f r).2 hcr, hgu⟩
        | right gc gu gv gp =>
          obtain ⟨hgu, hgp⟩ := hprnt
          obtain ⟨hd2, hdg⟩ := hdp
          have hsz' : gp.size ≤ m := by simp [Path.size] at hsz; omega
          rcases gu with _ | ⟨guc, gul, guv, gur⟩
          · -- uncle NULL: Case 3 (zig-zig right)
            simp only [__rdx_rb_insert] at heq
            obtain rfl := Option.some.inj heq
            refine consistentX_fill f (payloadCmp pcmp) x gp _ hgp hdg ?_
            refine consistentX_node_gt hd1 ?_ hX
            exact ⟨rfl, trivial, (consistent_setBlack f pl).2 hppl⟩
          · cases guc with
            | red =>
              simp only [__rdx_rb_insert] at heq
              refine ih gp _ _ gv hsz' ?_ hgp hdg t heq
              exact consistentX_node_gt hd2 hgu
                (consistentX_node_gt hd1 hppl hX)
            | black =>
              simp only [__rdx_rb_insert] at heq
              obtain rfl := Option.some.inj heq
              refine consistentX_fill f (payloadCmp pcmp) x gp _ hgp hdg ?_
              refine consistentX_node_gt hd1 ?_ hX
              exact ⟨rfl, hgu, (consistent_setBlack f pl).2 hppl⟩


theorem insertAugOp_consistent {f : γ → Option A → Option A → A}
    (pcmp : γ → γ → Int) {x : γ × A} {t t' : Tree (γ × A)}
    (hrefl : pcmp x.1 x.1 = 0) (hc : Consistent f t)
    (heq : insertAugOp (declaredCallbacks f) (payloadCmp pcmp) x t =
      some t') : Consistent f t' := by
  unfold insertAugOp at heq
  rcases hdesc : insertDescend (payloadCmp pcmp) x t .root with _ | p
  · simp only [hdesc] at heq
    cases heq
  · simp only [hdesc] at heq
    unfold rdx_rb_insert_augmented at heq
    rcases hfix : __rdx_rb_insert (declaredCallbacks f) nil x nil p
        with _ | t1
    · simp only [hfix] at heq
      cases heq
    · simp only [hfix] at heq
      obtain rfl := Option.some.inj heq
      have hpc := insertDescend_pathConsist f (payloadCmp pcmp) x t .root
        p hdesc hc trivial
      have hdir := insertDescend_dirOK (payloadCmp pcmp) x t .root p
        hdesc trivial
      have hX0 : ConsistentX f (payloadCmp pcmp) x (node .red nil x nil) := by
        have h1 : ¬ payloadCmp pcmp x x < 0 := by
          simp [payloadCmp, hrefl]
        have h2 : ¬ (0 : Int) < payloadCmp pcmp x x := by
          simp [payloadCmp, hrefl]
        rw [consistentX_node_iff, if_neg h1, if_neg h2]
        exact ⟨trivial, trivial⟩
      have hX1 := insertFix_consistentX pcmp x p.size p nil nil x
        (Nat.le_refl _) hX0 hpc hdir t1 hfix
      exact propagate_consistentX f (payloadCmp pcmp) x t1 hX1


end ConsistencyProofs


theorem countF_rotStable : RotStable countF := by
  intro kp ks a b c
  simp [countF]
  omega

/-- C2 (counterexample): with a shape-dependent aggregate the erase entry
point does not restore consistency: `cexT` is consistent, erasing the key-2
node succeeds, and the result has a stale stored aggregate (the rotations
of the deletion fixup run after the splice's `propagate`, recomputing only
the two rotated nodes). -/
theorem C2_consistency_cex :
    Consistent cexF cexT ∧
    rdx_rb_erase_augmented (declaredCallbacks cexF) (payloadCmp intCmp)
      ((2 : Int), (0 : Int)) cexT = some cexT2 ∧
    ¬ Consistent cexF cexT2 :=
  ⟨by decide, by rfl, by decide⟩

/-- C2 (amended): after `rdx_rb_insert_augmented` (through the insert entry
point `insertAugOp`) the consistency invariant holds again for every
aggregate function, provided the comparator reads only the payload
(`payloadCmp`) and is reflexive at the inserted payload; after
`rdx_rb_erase_augmented` it holds again provided the aggregate is
additionally rotation-stable (`RotStable`, satisfied by subtree-count-like
aggregates such as the harness's `compute_payload`). -/
theorem C2_consistency_amended {γ2 : Type u} {A2 : Type v}
    (f : γ2 → Option A2 → Option A2 → A2) (pcmp : γ2 → γ2 → Int) :
    (∀ (x : γ2 × A2) (t t' : Tree (γ2 × A2)), Consistent f t →
      pcmp x.1 x.1 = 0 →
      insertAugOp (declaredCallbacks f) (payloadCmp pcmp) x t = some t' →
      Consistent f t') ∧
    (∀ (x : γ2 × A2) (t t' : Tree (γ2 × A2)), Consistent f t →
      RotStable f →
      rdx_rb_erase_augmented (declaredCallbacks f) (payloadCmp pcmp) x t =
        some t' →
      Consistent f t') :=
  ⟨fun x t t' hc hrefl heq => insertAugOp_consistent pcmp hrefl hc heq,
   fun x t t' hc hrot heq => erase_augmented_consistent hrot _ x hc heq⟩

theorem C2_consistency_amended_witness :
    Consistent countF (Tree.node .black Tree.nil ((1 : Int), (1 : Int))
      Tree.nil) ∧
    Consistent countF (Tree.nil : Tree (Int × Int)) :=
  ⟨(C2_consistency_amended countF intCmp).1 (1, 5) Tree.nil
      (Tree.node .black Tree.nil (1, 1) Tree.nil) trivial (by decide) rfl,
   (C2_consistency_amended countF intCmp).2 (1, 1)
      (Tree.node .black Tree.nil (1, 1) Tree.nil) Tree.nil
      (by decide) countF_rotStable rfl⟩


end RdxRB
